import Mathlib

/-!
# Counting / sampling driver of `main.cpp` (ApproxMC and UniGen2 on top of a SAT solver)

Shallow embedding of the counting and sampling core of `src/src/main.cpp`.

Conventions of the embedding
* The SAT solver (`SATSolver`, an external library) is an oracle: its state records what the
  driver did to it (variables created, clauses and XORs added, the assumptions of every `solve`
  call) and the answer to its `i`-th `solve` call is read from an arbitrary sequence
  `answers : Nat → Answer`.
* `std::mt19937` with a `std::uniform_int_distribution` is an arbitrary sequence of numbers,
  each one reduced into the range of the distribution that consumes it.
* The wall clock is an arbitrary sequence of booleans: the `k`-th evaluation of
  `elapsedTime > conf.totalTimeout - 3000` on a freshly read time.
* `std::string` is `String`; `s[i]` is the `i`-th character.
* `uint32_t` values are `Nat`, reduced `% 2 ^ 32` where the source can wrap; `int32_t` results
  are `Int`, obtained through `toInt32`.
-/

namespace CMSat

/-! ## Solver interface -/

/-- Three-valued answer of the solver (`lbool`). -/
inductive lbool where
  | l_True
  | l_False
  | l_Undef
  deriving DecidableEq, Repr

export lbool (l_True l_False l_Undef)

/-- A literal `Lit(var, sign)`; `sign = true` is the negated literal. -/
structure Lit where
  var : Nat
  sign : Bool
  deriving DecidableEq, Repr

/-- What one `solve` call produces: the verdict and the model `get_model()` returns afterwards. -/
structure Answer where
  ret : lbool
  model : List lbool

/-- State of a `SATSolver` as far as the driver can observe or change it. -/
structure SATSolver where
  /-- Value of `nVars()`. -/
  numVars : Nat
  /-- Clauses passed to `add_clause`, oldest first. -/
  clauses : List (List Lit)
  /-- XORs passed to `add_xor_clause` (variables, rhs), oldest first. -/
  xors : List (List Nat × Bool)
  /-- Assumptions of every `solve` call made so far, oldest first. -/
  solveLog : List (List Lit)
  /-- Value of `get_model()`. -/
  model : List lbool
  /-- The answer the solver gives to its `i`-th `solve` call (counted from 0). -/
  answers : Nat → Answer

namespace SATSolver

/-- The call `solver->nVars()`. -/
def nVars (s : SATSolver) : Nat := s.numVars

/-- The call `solver->new_var()`. -/
def new_var (s : SATSolver) : SATSolver := { s with numVars := s.numVars + 1 }

/-- The call `solver->add_clause(lits)`. -/
def add_clause (s : SATSolver) (lits : List Lit) : SATSolver :=
  { s with clauses := s.clauses ++ [lits] }

/-- The call `solver->add_xor_clause(vars, rhs)`. -/
def add_xor_clause (s : SATSolver) (vars : List Nat) (rhs : Bool) : SATSolver :=
  { s with xors := s.xors ++ [(vars, rhs)] }

/-- The call `solver->solve(&assumptions)`: the verdict, and the solver afterwards. -/
def solve (s : SATSolver) (assumptions : List Lit) : lbool × SATSolver :=
  let a := s.answers s.solveLog.length
  (a.ret, { s with solveLog := s.solveLog ++ [assumptions], model := a.model })

/-- The call `solver->get_model()`. -/
def get_model (s : SATSolver) : List lbool := s.model

/-- A solver object right after construction, answering its calls from `answers`. -/
def fresh (answers : Nat → Answer) : SATSolver :=
  { numVars := 0, clauses := [], xors := [], solveLog := [], model := [], answers := answers }

end SATSolver

/-- The value `model[var]` of a `vector<lbool>`. -/
def modelAt (model : List lbool) (var : Nat) : lbool := model.getD var l_Undef

/-- Conversion of an unsigned value to `int32_t` (two's complement, low 32 bits). -/
def toInt32 (n : Nat) : Int :=
  if n % 2 ^ 32 < 2 ^ 31 then ((n % 2 ^ 32 : Nat) : Int) else ((n % 2 ^ 32 : Nat) : Int) - 2 ^ 32

/-- The product `-1 * n` of `int` and `unsigned long`, computed in 64-bit unsigned arithmetic. -/
def negUnsignedLong (n : Nat) : Nat := ((2 ^ 64 - 1) * n) % 2 ^ 64

/-! ## Bounded enumeration: `BoundedSATCount` -/

namespace Main

/-- The blocking clause built after a SAT answer: `Lit(activationVar, false)` followed, for each
independent variable the model defines, by `Lit(var, model[var] == l_True)`. -/
def banLits (independent_vars : List Nat) (activationVar : Nat) (model : List lbool) : List Lit :=
  independent_vars.foldl
    (fun lits var =>
      if modelAt model var ≠ l_Undef then
        lits ++ [Lit.mk var (decide (modelAt model var = l_True))]
      else lits)
    [Lit.mk activationVar false]

/-- Loop variables of `BoundedSATCount`. -/
structure CountLoop where
  current_nr_of_solutions : Nat
  ret : lbool
  solver : SATSolver

/-- One iteration of the `while` loop of `BoundedSATCount`. -/
def BoundedSATCount.body (independent_vars : List Nat) (maxSolutions activationVar : Nat)
    (allSATAssumptions : List Lit) (st : CountLoop) : CountLoop :=
  let r := st.solver.solve allSATAssumptions
  let ret := r.1
  let solver := r.2
  let current_nr_of_solutions := st.current_nr_of_solutions + 1
  let solver :=
    if ret = l_True ∧ current_nr_of_solutions < maxSolutions then
      solver.add_clause (banLits independent_vars activationVar solver.get_model)
    else solver
  ⟨current_nr_of_solutions, ret, solver⟩

/-- The `while` loop of `BoundedSATCount`; every iteration increments
`current_nr_of_solutions`, so `maxSolutions` iterations of fuel are never exhausted. -/
def BoundedSATCount.loop (independent_vars : List Nat) (maxSolutions activationVar : Nat)
    (allSATAssumptions : List Lit) : Nat → CountLoop → CountLoop
  | 0, st => st
  | fuel + 1, st =>
    if st.current_nr_of_solutions < maxSolutions ∧ st.ret = l_True then
      BoundedSATCount.loop independent_vars maxSolutions activationVar allSATAssumptions fuel
        (BoundedSATCount.body independent_vars maxSolutions activationVar allSATAssumptions st)
    else st

/-- `Main::BoundedSATCount(maxSolutions, solver, assumptions)`: the returned `int32_t` and the
solver afterwards. -/
def BoundedSATCount (independent_vars : List Nat) (maxSolutions : Nat) (solver : SATSolver)
    (assumptions : List Lit) : Int × SATSolver :=
  let solver := solver.new_var
  let activationVar := solver.nVars - 1
  let allSATAssumptions := assumptions ++ [Lit.mk activationVar true]
  let st := BoundedSATCount.loop independent_vars maxSolutions activationVar allSATAssumptions
    maxSolutions ⟨0, l_True, solver⟩
  let solver := st.solver.add_clause [Lit.mk activationVar false]
  if st.ret = l_Undef then
    (toInt32 (negUnsignedLong st.current_nr_of_solutions), solver)
  else
    (toInt32 st.current_nr_of_solutions, solver)

end Main

/-! ## Random bits and hash construction -/

/-- A `std::mt19937` seen through the distributions that consume it: an arbitrary sequence of
numbers and the position of the next one. -/
structure RandomEngine where
  draws : Nat → Nat
  pos : Nat

/-- One value of a `std::uniform_int_distribution {0, maxRange}` drawn from the engine. -/
def RandomEngine.uid (e : RandomEngine) (maxRange : Nat) : Nat × RandomEngine :=
  (e.draws e.pos % (maxRange + 1), { e with pos := e.pos + 1 })

/-- The value `(uint32_t) log2(x)` for a 32-bit `x ≥ 1`: the double `log2(x)` truncated, which
is the position of the highest set bit. -/
def log2 : Nat → Nat → Nat
  | 0, _ => 0
  | fuel + 1, x => if 2 ≤ x then log2 fuel (x / 2) + 1 else 0

/-- The `do { s.push_back('0' + (x & 1)); } while (x >>= 1);` loop of `binary`; a 32-bit `x`
is zero after at most 32 shifts. -/
def binary.digits : Nat → Nat → String → String
  | 0, _, s => s
  | fuel + 1, x, s =>
    let s := s.push (Char.ofNat ('0'.toNat + x % 2))
    if x / 2 ≠ 0 then binary.digits fuel (x / 2) s else s

/-- The function `binary(x, length)`. -/
def binary (x length : Nat) : String :=
  let x := x % 2 ^ 32
  let logSize := if x = 0 then 1 else log2 32 x + 1
  let s := binary.digits 32 x ""
  let s := (List.range (length - logSize)).foldl (fun s _ => s.push '0') s
  String.mk s.data.reverse

/-- The character `s[i]` of a `std::string` for `i ≤ s.size()` (`'\0'` at `i = s.size()`).
A read at an index beyond `s.size()` has no defined behaviour in the source; the model gives
`'\0'` there too, a value that is used nowhere when `Main.AddHash.readsDefined` holds. -/
def charAt (s : String) (i : Nat) : Char := s.data.getD i (Char.ofNat 0)

namespace Main

/-- The `while (i < size)` loop of `GenerateRandomBits`. The counter `i` is a `uint32_t` that
grows by 31 per iteration; as long as it does not wrap, that is for `size + 31 ≤ 2 ^ 32`,
`size` iterations of fuel are never exhausted. -/
def GenerateRandomBits.loop (size : Nat) : Nat → Nat → String → RandomEngine →
    String × RandomEngine
  | 0, _, randomBits, e => (randomBits, e)
  | fuel + 1, i, randomBits, e =>
    if i < size then
      let r := e.uid 2147483647
      GenerateRandomBits.loop size fuel ((i + 31) % 2 ^ 32) (randomBits ++ binary r.1 31) r.2
    else (randomBits, e)

/-- `Main::GenerateRandomBits(randomBits, size, randomEngine)`: the string and engine after. -/
def GenerateRandomBits (randomBits : String) (size : Nat) (e : RandomEngine) :
    String × RandomEngine :=
  GenerateRandomBits.loop size size 0 randomBits e

/-- The variable list of the `i`-th XOR of `AddHash`: the activation variable, then the
result of the `for (j = 0; j < independent_vars.size(); j++)` loop. -/
def AddHash.vars (independent_vars : List Nat) (randomBits : String) (i activationVar : Nat) :
    List Nat :=
  (List.range independent_vars.length).foldl
    (fun vars j =>
      if charAt randomBits ((independent_vars.length + 1) * i + j) = '1' then
        vars ++ [independent_vars.getD j 0]
      else vars)
    [activationVar]

/-- The right-hand side of the `i`-th XOR of `AddHash`:
`rhs = (randomBits[(independent_vars.size() + 1) * i] == 1)`, a `char` compared with the
integer 1. -/
def AddHash.rhs (independent_vars : List Nat) (randomBits : String) (i : Nat) : Bool :=
  decide ((charAt randomBits ((independent_vars.length + 1) * i)).toNat = 1)

/-- One iteration of the `for (i = 0; i < numClaus; i++)` loop of `AddHash`, on the solver and
the assumptions. -/
def AddHash.step (independent_vars : List Nat) (randomBits : String)
    (acc : SATSolver × List Lit) (i : Nat) : SATSolver × List Lit :=
  let solver := acc.1.new_var
  let activationVar := solver.nVars - 1
  let assumptions := acc.2 ++ [Lit.mk activationVar true]
  let vars := AddHash.vars independent_vars randomBits i activationVar
  let rhs := AddHash.rhs independent_vars randomBits i
  (solver.add_xor_clause vars rhs, assumptions)

/-- Every read `randomBits[...]` of `AddHash(numClaus)` is at an index of at most
`randomBits.size()`, the range in which the read is defined: for every hash `i`, the index
`(independent_vars.size() + 1) * i` read for `rhs` and the indices
`(independent_vars.size() + 1) * i + j`, `j < independent_vars.size()`, read for the
variables. Where this is false the source reads outside the string, and the call has no
defined behaviour. -/
def AddHash.readsDefined (independent_vars : List Nat) (numClaus : Nat) (e : RandomEngine) :
    Bool :=
  let g := GenerateRandomBits "" (((independent_vars.length + 1) * numClaus) % 2 ^ 32) e
  let randomBits := g.1
  (List.range numClaus).all (fun i =>
    decide ((independent_vars.length + 1) * i ≤ randomBits.length) &&
    (List.range independent_vars.length).all (fun j =>
      decide ((independent_vars.length + 1) * i + j ≤ randomBits.length)))

/-- `Main::AddHash(numClaus, solver, assumptions, randomEngine)`: solver, assumptions and
engine afterwards. The `size` argument of `GenerateRandomBits` is a `uint32_t`. The value
describes the call when `AddHash.readsDefined` holds, that is when no read of `randomBits`
is outside the string. -/
def AddHash (independent_vars : List Nat) (numClaus : Nat) (solver : SATSolver)
    (assumptions : List Lit) (e : RandomEngine) : SATSolver × List Lit × RandomEngine :=
  let g := GenerateRandomBits "" (((independent_vars.length + 1) * numClaus) % 2 ^ 32) e
  let randomBits := g.1
  let r := (List.range numClaus).foldl (AddHash.step independent_vars randomBits)
    (solver, assumptions)
  (r.1, r.2, g.2)

/-- `Main::AddHash(numClaus, solver, assumptions, randomEngine)` with its undefined reads made
explicit: `none` when a read of `randomBits` is outside the string, and what `AddHash` gives
otherwise. -/
def AddHash.checked (independent_vars : List Nat) (numClaus : Nat) (solver : SATSolver)
    (assumptions : List Lit) (e : RandomEngine) :
    Option (SATSolver × List Lit × RandomEngine) :=
  if AddHash.readsDefined independent_vars numClaus e then
    some (AddHash independent_vars numClaus solver assumptions e)
  else none

end Main

/-! ## Bounded sampling: `BoundedSAT` -/

/-- A `std::map<string, uint32_t>` as the list of its (key, count) entries, keys distinct;
the counts are `uint32_t` values. -/
abbrev SolutionMap := List (String × Nat)

/-- The statement `solutionMap[solution] = 0;` executed when `find` returned `end()`. -/
def SolutionMap.insertZero (m : SolutionMap) (solution : String) : SolutionMap :=
  if m.any (fun p => p.1 = solution) then m else m ++ [(solution, 0)]

/-- The statement `solutionMap[solution] += 1;` on a key that is present; the count is a
`uint32_t`, so the addition is modulo `2 ^ 32`. -/
def SolutionMap.increment (m : SolutionMap) (solution : String) : SolutionMap :=
  m.map (fun p => if p.1 = solution then (p.1, (p.2 + 1) % 2 ^ 32) else p)

/-- The `find` / insert / increment sequence at the end of one sample of `BoundedSAT`. -/
def SolutionMap.record (m : SolutionMap) (solution : String) : SolutionMap :=
  (m.insertZero solution).increment solution

/-- Exchange of the entries at positions `i` and `k` of a vector. -/
def swapAt (xs : List Nat) (i k : Nat) : List Nat :=
  (xs.set i (xs.getD k 0)).set k (xs.getD i 0)

/-- The library call `std::shuffle(first, last, randomEngine)`, as the exchange shuffle: for
`i = 1 .. n-1` the entry `i` is exchanged with the entry at a position drawn from
`uniform_int_distribution {0, i}`. -/
def shuffle (xs : List Nat) (e : RandomEngine) : List Nat × RandomEngine :=
  (List.range xs.length).foldl
    (fun (acc : List Nat × RandomEngine) i =>
      if i = 0 then acc
      else
        let r := acc.2.uid i
        (swapAt acc.1 i r.1, r.2))
    (xs, e)

namespace Main

/-- `Main::SolutionsToReturn(minSolutions)` under `conf.multisample`. -/
def SolutionsToReturn (multisample : Bool) (minSolutions : Nat) : Nat :=
  if multisample then minSolutions else 1

/-- The string `solution` that `BoundedSAT` builds from a saved model. Variable indices are
below `2 ^ 31` (a `Lit` packs `2 * var + sign` in 32 bits), so `var + 1` does not wrap. -/
def solutionString (independent_vars : List Nat) (model : List lbool) : String :=
  let solution := independent_vars.foldl
    (fun (solution : String) var =>
      if modelAt model var ≠ l_Undef then
        let solution := if modelAt model var ≠ l_True then solution ++ "-" else solution
        let solution := solution ++ toString (var + 1)
        solution ++ " "
      else solution)
    "v"
  solution ++ "0"

/-- Loop variables of `BoundedSAT`. -/
structure SampleLoop where
  current_nr_of_solutions : Nat
  ret : lbool
  solver : SATSolver
  modelsSet : List (List lbool)

/-- One iteration of the `while` loop of `BoundedSAT`. -/
def BoundedSAT.body (independent_vars : List Nat) (maxSolutions activationVar : Nat)
    (allSATAssumptions : List Lit) (st : SampleLoop) : SampleLoop :=
  let r := st.solver.solve allSATAssumptions
  let ret := r.1
  let solver := r.2
  let current_nr_of_solutions := st.current_nr_of_solutions + 1
  if ret = l_True ∧ current_nr_of_solutions < maxSolutions then
    let model := solver.get_model
    let modelsSet := st.modelsSet ++ [model]
    let solver := solver.add_clause (banLits independent_vars activationVar solver.get_model)
    ⟨current_nr_of_solutions, ret, solver, modelsSet⟩
  else
    ⟨current_nr_of_solutions, ret, solver, st.modelsSet⟩

/-- The `while` loop of `BoundedSAT`; as in `BoundedSATCount`, `maxSolutions` iterations of
fuel are never exhausted. -/
def BoundedSAT.loop (independent_vars : List Nat) (maxSolutions activationVar : Nat)
    (allSATAssumptions : List Lit) : Nat → SampleLoop → SampleLoop
  | 0, st => st
  | fuel + 1, st =>
    if st.current_nr_of_solutions < maxSolutions ∧ st.ret = l_True then
      BoundedSAT.loop independent_vars maxSolutions activationVar allSATAssumptions fuel
        (BoundedSAT.body independent_vars maxSolutions activationVar allSATAssumptions st)
    else st

/-- The `for (i = 0; i < numSolutionsToReturn; i++)` loop of `BoundedSAT`; `none` when one of
the two `.at()` calls throws `std::out_of_range`. -/
def BoundedSAT.emit (independent_vars : List Nat) (modelsSet : List (List lbool))
    (modelIndices : List Nat) : Nat → Nat → SolutionMap → Option SolutionMap
  | 0, _, solutionMap => some solutionMap
  | remaining + 1, i, solutionMap =>
    match modelIndices.get? i with
    | none => none
    | some idx =>
      match modelsSet.get? idx with
      | none => none
      | some model =>
        BoundedSAT.emit independent_vars modelsSet modelIndices remaining (i + 1)
          (solutionMap.record (solutionString independent_vars model))

/-- What a returning call of `BoundedSAT` leaves behind. -/
structure SampleResult where
  /-- The returned `lbool`. -/
  ret : lbool
  solver : SATSolver
  randomEngine : RandomEngine
  solutionMap : SolutionMap
  /-- The value stored through `solutionCount`. -/
  solutionCount : Nat

/-- `Main::BoundedSAT(maxSolutions, minSolutions, solver, assumptions, randomEngine,
solutionMap, solutionCount)`, every way of leaving it included. The first component is what a
returning call hands back, `none` when the call leaves by an uncaught `std::out_of_range`.
The second component holds the call counter, the verdict, the solver object and the vector
`modelsSet` as they are when the call is left, by `return` or by the exception: no
statement after `solver->add_clause(cls_that_removes)` writes to any of them. -/
def BoundedSAT.exit (independent_vars : List Nat) (multisample : Bool)
    (maxSolutions minSolutions : Nat) (solver : SATSolver) (assumptions : List Lit)
    (e : RandomEngine) (solutionMap : SolutionMap) : Option SampleResult × SampleLoop :=
  let solver := solver.new_var
  let activationVar := solver.nVars - 1
  let allSATAssumptions := assumptions ++ [Lit.mk activationVar true]
  let st := BoundedSAT.loop independent_vars maxSolutions activationVar allSATAssumptions
    maxSolutions ⟨0, l_True, solver, []⟩
  let solutionCount := st.modelsSet.length
  let solver := st.solver.add_clause [Lit.mk activationVar false]
  (if st.current_nr_of_solutions < maxSolutions ∧ st.current_nr_of_solutions > minSolutions then
    let modelIndices := (List.range st.modelsSet.length).foldl (fun l i => l ++ [i]) []
    let sh := shuffle modelIndices e
    let numSolutionsToReturn := SolutionsToReturn multisample minSolutions
    match BoundedSAT.emit independent_vars st.modelsSet sh.1 numSolutionsToReturn 0
        solutionMap with
    | none => none
    | some solutionMap => some ⟨l_True, solver, sh.2, solutionMap, solutionCount⟩
  else
    some ⟨l_False, solver, e, solutionMap, solutionCount⟩,
   { st with solver := solver })

/-- `Main::BoundedSAT(maxSolutions, minSolutions, solver, assumptions, randomEngine,
solutionMap, solutionCount)` as its callers see it: what the call of `BoundedSAT.exit` hands
back; `none` when the call leaves by an uncaught `std::out_of_range`. -/
def BoundedSAT (independent_vars : List Nat) (multisample : Bool)
    (maxSolutions minSolutions : Nat) (solver : SATSolver) (assumptions : List Lit)
    (e : RandomEngine) (solutionMap : SolutionMap) : Option SampleResult :=
  (BoundedSAT.exit independent_vars multisample maxSolutions minSolutions solver assumptions e
    solutionMap).1

end Main

/-! ## ApproxMC -/

/-- The function `findMedian(numList)` on a non-empty list (the result is an integer held in a
`double`). On the empty list the source advances an iterator past the end; the model gives 0. -/
def findMedian (numList : List Int) : Int :=
  let numList := numList.insertionSort (fun a b => a ≤ b)
  let medIndex := (numList.length + 1) / 2
  if medIndex ≥ numList.length then
    numList.getD (numList.length - 1) 0
  else
    numList.getD medIndex 0

/-- The function `findMin(numList)`; `min` starts at `std::numeric_limits<int>::max()`. -/
def findMin (numList : List Int) : Int :=
  numList.foldl (fun min x => if x < min then x else min) 2147483647

/-- Modelled from the spec: the struct `SATCount` is declared in a header that is not part of
the sources at hand; the spec describes it as the pair (cellSolCount, hashCount). -/
structure SATCount where
  cellSolCount : Int
  hashCount : Int
  deriving DecidableEq, Repr

/-- Modelled from the spec: the default-constructed `SATCount()`, which the spec gives as
(0, 0). -/
def SATCount.default : SATCount := ⟨0, 0⟩

/-- The clock as the driver uses it: `fires k` is the value of
`elapsedTime > conf.totalTimeout - 3000` at the `k`-th reading of `cpuTimeTotal()` into
`elapsedTime`, and `zeroFires` is that test for `elapsedTime = 0`, the initial value. -/
structure Clock where
  fires : Nat → Bool
  polls : Nat
  zeroFires : Bool

/-- The statements `elapsedTime = cpuTimeTotal() - startTime` and the deadline test on it. -/
def Clock.poll (c : Clock) : Bool × Clock := (c.fires c.polls, { c with polls := c.polls + 1 })

/-- The configuration values `ApproxMC` reads (`conf.tApproxMC`, `conf.pivotApproxMC`, both
`uint32_t`). -/
structure ApproxMCConf where
  tApproxMC : Nat
  pivotApproxMC : Nat

namespace Main

/-- One call of `BoundedSATCount` made by `ApproxMC`, as the call sees it: the value of
`hashCount`, the assumptions and the solver passed, the value of `repeatTry`, and the value
returned. -/
structure CountCall where
  hashCount : Nat
  assumptions : List Lit
  repeatTry : Nat
  solver : SATSolver
  result : Int

/-- Variables of `ApproxMC` that live across loop iterations. `elapsedOver` stands for the
test `elapsedTime > conf.totalTimeout - 3000` on the current value of `elapsedTime`. `calls`
is not a variable of the source: it lists the calls of `BoundedSATCount` made so far. -/
structure MCState where
  solver : SATSolver
  randomEngine : RandomEngine
  clock : Clock
  assumptions : List Lit
  repeatTry : Nat
  elapsedOver : Bool
  currentNumSolutions : Int
  numHashList : List Int
  numCountList : List Int
  calls : List CountCall

/-- The loop `for (hashCount = 0; hashCount < solver->nVars(); hashCount++)` of `ApproxMC`,
entered at `hashCount`: the value of `hashCount` when the loop is left, or `none` when the
fuel runs out first, and the state reached. `hashCount` is a `uint32_t`. -/
def ApproxMC.inner (independent_vars : List Nat) (conf : ApproxMCConf) :
    Nat → Nat → MCState → Option Nat × MCState
  | 0, _, st => (none, st)
  | fuel + 1, hashCount, st =>
    if hashCount < st.solver.nVars then
      let p := st.clock.poll
      let st := { st with clock := p.2, elapsedOver := p.1 }
      if p.1 then (some hashCount, st)
      else
        let c := BoundedSATCount independent_vars ((conf.pivotApproxMC + 1) % 2 ^ 32) st.solver
          st.assumptions
        let st := { st with
          currentNumSolutions := c.1, solver := c.2,
          calls := st.calls ++ [⟨hashCount, st.assumptions, st.repeatTry, st.solver, c.1⟩] }
        if c.1 ≤ 0 then
          if st.repeatTry < 2 then
            let h := AddHash independent_vars hashCount st.solver [] st.randomEngine
            let hashCount := ((2 ^ 32 - 1) + hashCount) % 2 ^ 32
            ApproxMC.inner independent_vars conf fuel ((hashCount + 1) % 2 ^ 32)
              { st with solver := h.1, assumptions := h.2.1, randomEngine := h.2.2,
                        repeatTry := st.repeatTry + 1 }
          else
            let h := AddHash independent_vars ((hashCount + 1) % 2 ^ 32) st.solver []
              st.randomEngine
            ApproxMC.inner independent_vars conf fuel ((hashCount + 1) % 2 ^ 32)
              { st with solver := h.1, assumptions := h.2.1, randomEngine := h.2.2,
                        repeatTry := 0 }
        else if c.1 = (((conf.pivotApproxMC + 1) % 2 ^ 32 : Nat) : Int) then
          let h := AddHash independent_vars 1 st.solver st.assumptions st.randomEngine
          ApproxMC.inner independent_vars conf fuel ((hashCount + 1) % 2 ^ 32)
            { st with solver := h.1, assumptions := h.2.1, randomEngine := h.2.2 }
        else (some hashCount, st)
    else (some hashCount, st)

/-- The loop `for (j = 0; j < conf.tApproxMC; j++)` of `ApproxMC`, with `trials` iterations
left; every inner loop gets `fuel` iterations. The result tells whether the loop was left
(`false` when an inner loop ran out of fuel) and gives the state reached. -/
def ApproxMC.trials (independent_vars : List Nat) (conf : ApproxMCConf) (fuel : Nat) :
    Nat → MCState → Bool × MCState
  | 0, st => (true, st)
  | trials + 1, st =>
    match ApproxMC.inner independent_vars conf fuel 0 st with
    | (none, st) => (false, st)
    | (some hashCount, st) =>
      let st := { st with assumptions := [] }
      if st.elapsedOver then (true, st)
      else
        ApproxMC.trials independent_vars conf fuel trials
          { st with numHashList := st.numHashList ++ [toInt32 hashCount],
                    numCountList := st.numCountList ++ [st.currentNumSolutions] }

/-- The variables of `ApproxMC` as its declarations initialise them. -/
def ApproxMC.start (solver : SATSolver) (e : RandomEngine) (clock : Clock) : MCState :=
  { solver := solver, randomEngine := e, clock := clock, assumptions := [], repeatTry := 0,
    elapsedOver := clock.zeroFires, currentNumSolutions := 0, numHashList := [],
    numCountList := [], calls := [] }

/-- The scaling loop of `ApproxMC`: `(*it2) *= pow(2, (*it1) - minHash)` along both lists.
The source multiplies in `double` and converts the product back to `int`; the value given
here is the exact product, which is what the source stores when `ApproxMC.scaleFits` holds.
Where it does not hold, the conversion (or `pow`) has no defined result, and under the
floating-point exceptions that `main` enables the program is stopped. -/
def ApproxMC.scale (minHash : Int) : List Int → List Int → List Int
  | h :: hs, c :: cs => c * 2 ^ (h - minHash).toNat :: ApproxMC.scale minHash hs cs
  | _, cs => cs

/-- The scaling loop of `ApproxMC` stays within defined arithmetic: every exponent
`(*it1) - minHash` is between 0 and 1023, so that `pow(2, ...)` is a finite `double`, an exact
power of two, and every product `(*it2) * pow(2, (*it1) - minHash)` is a value of `int`, so
that its conversion back to `int` is defined and exact. -/
def ApproxMC.scaleFits (minHash : Int) : List Int → List Int → Bool
  | h :: hs, c :: cs =>
    decide (0 ≤ h - minHash ∧ h - minHash ≤ 1023 ∧
      -2147483648 ≤ c * 2 ^ (h - minHash).toNat ∧
      c * 2 ^ (h - minHash).toNat ≤ 2147483647) &&
    ApproxMC.scaleFits minHash hs cs
  | _, _ => true

/-- The scaling loop of `ApproxMC` with its undefined arithmetic made explicit: `none` when
an exponent or a product is outside the range of `ApproxMC.scaleFits`, and the list that
`ApproxMC.scale` gives otherwise. -/
def ApproxMC.scaleChecked (minHash : Int) (numHashList numCountList : List Int) :
    Option (List Int) :=
  if ApproxMC.scaleFits minHash numHashList numCountList then
    some (ApproxMC.scale minHash numHashList numCountList)
  else none

/-- The part of `ApproxMC` after the trials: from the two lists to the returned `SATCount`. -/
def ApproxMC.aggregate (numHashList numCountList : List Int) : SATCount :=
  if numHashList.length = 0 then SATCount.default
  else
    let minHash := findMin numHashList
    let numCountList := ApproxMC.scale minHash numHashList numCountList
    let medSolCount := findMedian numCountList
    ⟨medSolCount, minHash⟩

/-- `Main::ApproxMC(solver, resLog, randomEngine)`: the returned `SATCount` together with the
solver, engine and clock afterwards; `none` when an inner loop needs more than `fuel`
iterations. -/
def ApproxMC (independent_vars : List Nat) (conf : ApproxMCConf) (fuel : Nat)
    (solver : SATSolver) (e : RandomEngine) (clock : Clock) :
    Option (SATCount × SATSolver × RandomEngine × Clock) :=
  match ApproxMC.trials independent_vars conf fuel conf.tApproxMC
      (ApproxMC.start solver e clock) with
  | (false, _) => none
  | (true, st) =>
    some (ApproxMC.aggregate st.numHashList st.numCountList, st.solver, st.randomEngine,
      st.clock)

end Main

/-! ## Loading the input -/

/-- The effect of `parser.parse_DIMACS(in)` on one input (the class `DimacsParser` is outside
the sources at hand, so its effect is a parameter): from the solver it is given, the solver
with the input loaded and the value of `parser.independent_vars` afterwards. -/
abbrev ParseEffect := SATSolver → SATSolver × List Nat

/-- The members of the `Main` object that loading reads and writes. Solver objects live at
addresses (`heap`); the member `solver` is a pointer, that is an address. -/
structure MainObj where
  heap : Nat → SATSolver
  solver : Nat
  independent_vars : List Nat

namespace Main

/-- `Main::readInAFile(solver2, filename)` on a file that opens and parses. -/
def readInAFile (m : MainObj) (solver2 : Nat) (file : ParseEffect) : MainObj :=
  let r := file (m.heap solver2)
  let m := { m with heap := Function.update m.heap solver2 r.1 }
  let independent_vars := r.2
  let independent_vars :=
    if independent_vars.isEmpty then
      (List.range (m.heap m.solver).nVars).foldl (fun l i => l ++ [i]) independent_vars
    else independent_vars
  { m with independent_vars := independent_vars }

/-- `Main::readInStandardInput(solver2)` on an input that parses. -/
def readInStandardInput (m : MainObj) (solver2 : Nat) (input : ParseEffect) : MainObj :=
  { m with heap := Function.update m.heap solver2 (input (m.heap solver2)).1 }

/-- `Main::parseInAllFiles(solver2)`: every file of `filesToRead`, then the standard input
when no file name was given. -/
def parseInAllFiles (m : MainObj) (solver2 : Nat) (filesToRead : List ParseEffect)
    (fileNamePresent : Bool) (input : ParseEffect) : MainObj :=
  let m := filesToRead.foldl (fun m file => readInAFile m solver2 file) m
  if !fileNamePresent then readInStandardInput m solver2 input else m

end Main

/-! ## Notions used to state the claims on the enumerators -/

/-- The counter, the verdict and the solver of a loop state of `BoundedSAT`: the loop
variables that `BoundedSATCount` has too. -/
def Main.SampleLoop.toCount (st : Main.SampleLoop) : Main.CountLoop :=
  ⟨st.current_nr_of_solutions, st.ret, st.solver⟩

/-- The first part of `BoundedSAT`, up to and including the statement
`solver->add_clause(cls_that_removes)`, which every path through the function runs: the loop
variables after it, with the solver that holds the cleanup clause. -/
def Main.BoundedSAT.enumerate (independent_vars : List Nat) (maxSolutions : Nat)
    (solver : SATSolver) (assumptions : List Lit) : Main.SampleLoop :=
  let solver := solver.new_var
  let activationVar := solver.nVars - 1
  let allSATAssumptions := assumptions ++ [Lit.mk activationVar true]
  let st := Main.BoundedSAT.loop independent_vars maxSolutions activationVar allSATAssumptions
    maxSolutions ⟨0, l_True, solver, []⟩
  { st with solver := st.solver.add_clause [Lit.mk activationVar false] }

/-- Truth of a literal under a total assignment; `sign = true` is the negated literal. -/
def litHolds (σ : Nat → Bool) (l : Lit) : Bool := σ l.var != l.sign

/-- Truth of a clause under a total assignment. -/
def clauseHolds (σ : Nat → Bool) (c : List Lit) : Bool := c.any (litHolds σ)

/-- Truth of a clause set under a total assignment. -/
def clausesHold (σ : Nat → Bool) (cs : List (List Lit)) : Bool := cs.all (clauseHolds σ)

/-- Truth of a literal under a model of the solver: the variable is defined and has the value
the literal asks for. -/
def litTrueIn (model : List lbool) (l : Lit) : Bool :=
  decide (modelAt model l.var = if l.sign then l_False else l_True)

/-- Truth of a clause under a model of the solver. -/
def clauseTrueIn (model : List lbool) (c : List Lit) : Bool := c.any (litTrueIn model)

/-- The solver answers soundly at every `solve` call that the loop of `BoundedSATCount` makes
from the state `st` on: whenever it answers SAT, its model makes the assumptions of the call
and every clause the solver holds at that call true. -/
def Main.BoundedSATCount.soundRun (independent_vars : List Nat)
    (maxSolutions activationVar : Nat) (allSATAssumptions : List Lit) :
    Nat → Main.CountLoop → Bool
  | 0, _ => true
  | fuel + 1, st =>
    if st.current_nr_of_solutions < maxSolutions ∧ st.ret = l_True then
      (decide ((st.solver.answers st.solver.solveLog.length).ret ≠ l_True) ||
        (allSATAssumptions.all (litTrueIn (st.solver.answers st.solver.solveLog.length).model) &&
         st.solver.clauses.all
           (clauseTrueIn (st.solver.answers st.solver.solveLog.length).model))) &&
      Main.BoundedSATCount.soundRun independent_vars maxSolutions activationVar
        allSATAssumptions fuel
        (Main.BoundedSATCount.body independent_vars maxSolutions activationVar
          allSATAssumptions st)
    else true

/-- The solver answers soundly at every `solve` call that the loop of `BoundedSAT` makes from
the state `st` on: whenever it answers SAT, its model makes the assumptions of the call and
every clause the solver holds at that call, the blocking clauses that `BoundedSAT` has added
so far included, true. -/
def Main.BoundedSAT.soundRun (independent_vars : List Nat)
    (maxSolutions activationVar : Nat) (allSATAssumptions : List Lit) :
    Nat → Main.SampleLoop → Bool
  | 0, _ => true
  | fuel + 1, st =>
    if st.current_nr_of_solutions < maxSolutions ∧ st.ret = l_True then
      (decide ((st.solver.answers st.solver.solveLog.length).ret ≠ l_True) ||
        (allSATAssumptions.all (litTrueIn (st.solver.answers st.solver.solveLog.length).model) &&
         st.solver.clauses.all
           (clauseTrueIn (st.solver.answers st.solver.solveLog.length).model))) &&
      Main.BoundedSAT.soundRun independent_vars maxSolutions activationVar
        allSATAssumptions fuel
        (Main.BoundedSAT.body independent_vars maxSolutions activationVar
          allSATAssumptions st)
    else true

/-- The assumption list is a bank of hashes of the solver: pairwise distinct literals, each
the negated literal of an existing variable that is the first variable of an XOR the solver
holds. -/
def hashBank (assumptions : List Lit) (solver : SATSolver) : Prop :=
  assumptions.Nodup ∧
  ∀ l, l ∈ assumptions →
    l.sign = true ∧ l.var < solver.numVars ∧ ∃ x, x ∈ solver.xors ∧ x.1.head? = some l.var

/-! ## UniGen2 and the driver -/

/-- The configuration values `UniGen` and `UniSolve` read. The two thresholds and the start
iteration computed from the count are floating-point expressions in the source; the values
they yield are taken as given. -/
structure UniGenConf where
  /-- `conf.startIteration`, a `uint32_t`. -/
  startIteration : Nat
  /-- `conf.samples`, a `uint32_t`. -/
  samples : Nat
  /-- `conf.callsPerSolver`, a `uint32_t`. -/
  callsPerSolver : Nat
  /-- `conf.multisample`. -/
  multisample : Bool
  /-- Value of `(uint32_t) (1.41 * (1 + conf.kappa) * conf.pivotUniGen + 2)`. -/
  hiThresh : Nat
  /-- Value of `(uint32_t) (conf.pivotUniGen / (1.41 * (1 + conf.kappa)))`. -/
  loThresh : Nat
  /-- `conf.tApproxMC` and `conf.pivotApproxMC`. -/
  approxMC : ApproxMCConf
  /-- Value, as a `uint32_t`, of `round(solCount.hashCount + log2(solCount.cellSolCount) +
  log2(1.8) - log2(conf.pivotUniGen)) - 2`. -/
  startIterationOf : SATCount → Nat

/-- One call of `BoundedSAT` made by `UniGen`, as the call sees it and with what it returned;
`attempt` is the value of `sampleCounter`. -/
structure SampleCall where
  attempt : Nat
  j : Nat
  currentHashOffset : Nat
  currentHashCount : Nat
  assumptions : List Lit
  solver : SATSolver
  ret : lbool
  solutionCount : Nat

namespace Main

/-- Variables of `UniGen`, with what it reaches through its reference and pointer arguments.
`hashOffsets[1]` and `hashOffsets[2]` are indeterminate at first in the source and start at 0
here; the source writes them before it reads them. `calls` is not a variable of the source:
it lists the calls of `BoundedSAT` made so far. -/
structure GenState where
  solver : SATSolver
  randomEngine : RandomEngine
  clock : Clock
  solutionMap : SolutionMap
  lastSuccessfulHashOffset : Nat
  sampleCounter : Nat
  assumptions : List Lit
  elapsedOver : Bool
  repeatTry : Nat
  hashOffsets : List Nat
  ret : lbool
  solutionCount : Nat
  lastHashCount : Nat
  calls : List SampleCall

/-- The statements of `UniGen` that move the assumption list to `currentHashCount` hashes:
`hashDelta = currentHashCount - lastHashCount` is an `int` made from a `uint32_t`
difference. -/
def UniGen.moveHashes (independent_vars : List Nat) (currentHashCount : Nat) (st : GenState) :
    GenState :=
  let hashDelta := toInt32 (((2 ^ 32 - st.lastHashCount % 2 ^ 32) + currentHashCount) % 2 ^ 32)
  let st :=
    if hashDelta > 0 then
      let h := AddHash independent_vars (hashDelta.toNat % 2 ^ 32) st.solver st.assumptions
        st.randomEngine
      { st with solver := h.1, assumptions := h.2.1, randomEngine := h.2.2 }
    else if hashDelta < 0 then
      let h := AddHash independent_vars currentHashCount st.solver [] st.randomEngine
      { st with solver := h.1, assumptions := h.2.1, randomEngine := h.2.2 }
    else st
  { st with lastHashCount := currentHashCount }

/-- The statements of `UniGen` at `j == 0 && currentHashOffset == 1` after an out-of-range
count: the next two offsets are chosen from `solutionCount`. -/
def UniGen.adaptTail (conf : UniGenConf) (j currentHashOffset : Nat) (st : GenState) :
    GenState :=
  if j = 0 ∧ currentHashOffset = 1 then
    if st.solutionCount < conf.loThresh then
      { st with hashOffsets := (st.hashOffsets.set 1 0).set 2 2 }
    else
      { st with hashOffsets := (st.hashOffsets.set 1 2).set 2 0 }
  else st

/-- The statements of one iteration of the loop over `j` in `UniGen` up to the deadline test:
the assumption list is moved to `hashOffsets[j] + conf.startIteration` hashes (a `uint32_t`
sum) and the clock is read. -/
def UniGen.approach (independent_vars : List Nat) (conf : UniGenConf) (j : Nat)
    (st : GenState) : GenState :=
  let currentHashOffset := st.hashOffsets.getD j 0
  let currentHashCount := (currentHashOffset + conf.startIteration) % 2 ^ 32
  let st := UniGen.moveHashes independent_vars currentHashCount st
  let p := st.clock.poll
  { st with clock := p.2, elapsedOver := p.1 }

/-- The effect of a returning call `ret = BoundedSAT(...)` in iteration `j` on the variables
of `UniGen`; the call is entered into `calls`. -/
def UniGen.record (conf : UniGenConf) (j : Nat) (st : GenState) (r : SampleResult) :
    GenState :=
  { st with
    ret := r.ret, solver := r.solver, randomEngine := r.randomEngine,
    solutionMap := r.solutionMap, solutionCount := r.solutionCount,
    calls := st.calls ++ [⟨st.sampleCounter, j, st.hashOffsets.getD j 0,
      (st.hashOffsets.getD j 0 + conf.startIteration) % 2 ^ 32,
      st.assumptions, st.solver, r.ret, r.solutionCount⟩] }

/-- The loop `for (uint32_t j = 0; j < 3; j++)` of `UniGen`, entered at `j`; `none` when
`BoundedSAT` throws. Every value of `j` is tried at most three times, so nine iterations of
fuel are never exhausted. -/
def UniGen.probes (independent_vars : List Nat) (conf : UniGenConf) :
    Nat → Nat → GenState → Option GenState
  | 0, _, st => some st
  | fuel + 1, j, st =>
    if j < 3 then
      let currentHashOffset := st.hashOffsets.getD j 0
      let currentHashCount := (currentHashOffset + conf.startIteration) % 2 ^ 32
      let st := UniGen.approach independent_vars conf j st
      if st.elapsedOver then some st
      else
        match BoundedSAT independent_vars conf.multisample ((conf.hiThresh + 1) % 2 ^ 32)
            conf.loThresh st.solver st.assumptions st.randomEngine st.solutionMap with
        | none => none
        | some r =>
          let st := UniGen.record conf j st r
          if st.ret = l_Undef then
            let st := { st with assumptions := [] }
            if st.repeatTry < 2 then
              let h := AddHash independent_vars currentHashCount st.solver st.assumptions
                st.randomEngine
              UniGen.probes independent_vars conf fuel j
                { st with solver := h.1, assumptions := h.2.1, randomEngine := h.2.2,
                          repeatTry := st.repeatTry + 1 }
            else
              let st := { st with lastHashCount := 0 }
              let st :=
                if j = 0 ∧ currentHashOffset = 1 then
                  { st with hashOffsets := (st.hashOffsets.set 1 0).set 2 2 }
                else st
              UniGen.probes independent_vars conf fuel (j + 1) { st with repeatTry := 0 }
          else if st.ret = l_True then
            some { st with lastSuccessfulHashOffset := currentHashOffset }
          else
            UniGen.probes independent_vars conf fuel (j + 1)
              (UniGen.adaptTail conf j currentHashOffset st)
    else some st

/-- The statements at the head of one iteration of the loop over the samples of `UniGen`. -/
def UniGen.beginAttempt (st : GenState) : GenState :=
  let hashOffsets := st.hashOffsets.set 0 st.lastSuccessfulHashOffset
  let hashOffsets :=
    if hashOffsets.getD 0 0 = 0 then (hashOffsets.set 1 1).set 2 2
    else if hashOffsets.getD 0 0 = 2 then (hashOffsets.set 1 1).set 2 0
    else hashOffsets
  { st with sampleCounter := (st.sampleCounter + 1) % 2 ^ 32, ret := l_False,
            hashOffsets := hashOffsets, repeatTry := 0, lastHashCount := 0 }

/-- The loop `for (i = 0; i < samples; i++)` of `UniGen`, entered at `i`; `none` when
`BoundedSAT` throws, otherwise whether the loop was left (`false` when the fuel ran out
first) and the state reached. `i` is a `uint32_t`. -/
def UniGen.attempts (independent_vars : List Nat) (conf : UniGenConf) (samples : Nat) :
    Nat → Nat → GenState → Option (Bool × GenState)
  | 0, _, st => some (false, st)
  | fuel + 1, i, st =>
    if i < samples then
      match UniGen.probes independent_vars conf 9 0 (UniGen.beginAttempt st) with
      | none => none
      | some st =>
        let i := if st.ret ≠ l_True then ((2 ^ 32 - 1) + i) % 2 ^ 32 else i
        let st := { st with assumptions := [] }
        if st.elapsedOver then some (true, st)
        else UniGen.attempts independent_vars conf samples fuel ((i + 1) % 2 ^ 32) st
    else some (true, st)

/-- `Main::UniGen(samples, solver, resLog, sampleCounter, randomEngine, solutionMap,
lastSuccessfulHashOffset, timeReference)`: `none` when `BoundedSAT` throws, otherwise whether
the call returned within `fuel` sample attempts and the state reached; the returned value is
its `sampleCounter`. -/
def UniGen (independent_vars : List Nat) (conf : UniGenConf) (fuel samples : Nat)
    (solver : SATSolver) (sampleCounter : Nat) (e : RandomEngine) (solutionMap : SolutionMap)
    (lastSuccessfulHashOffset : Nat) (clock : Clock) : Option (Bool × GenState) :=
  UniGen.attempts independent_vars conf samples fuel 0
    { solver := solver, randomEngine := e, clock := clock, solutionMap := solutionMap,
      lastSuccessfulHashOffset := lastSuccessfulHashOffset, sampleCounter := sampleCounter,
      assumptions := [], elapsedOver := clock.zeroFires, repeatTry := 0,
      hashOffsets := [0, 0, 0], ret := l_False, solutionCount := 0, lastHashCount := 0,
      calls := [] }

end Main

/-- What one invocation reads from outside: the input files as the parser sees them, the
engines that `SeedEngine` seeds from the random device (the first for `ApproxMC`, the second
for the sampling), the clock, and the member `zero_exit_status` that the command line sets. -/
structure Invocation where
  filesToRead : List ParseEffect
  fileNamePresent : Bool
  standardInput : ParseEffect
  countingEngine : RandomEngine
  samplingEngine : RandomEngine
  clock : Clock
  zero_exit_status : Bool

/-- The statements `globalSolutionMap[solution][0] += count` of `UniSolve` for one entry of
the map of the sampling calls (an absent key is first entered with count 0); the counts are
`uint32_t` values, so the addition is modulo `2 ^ 32`. -/
def SolutionMap.add (m : SolutionMap) (entry : String × Nat) : SolutionMap :=
  (m.insertZero entry.1).map
    (fun p => if p.1 = entry.1 then (p.1, (p.2 + entry.2) % 2 ^ 32) else p)

/-- `Main::correctReturnValue(ret)` under the member `zero_exit_status`; an `lbool` is one of
the three values, so the branch that calls `exit(-1)` is not taken. -/
def Main.correctReturnValue (zero_exit_status : Bool) (ret : lbool) : Int :=
  let retval : Int :=
    match ret with
    | l_True => 10
    | l_False => 20
    | l_Undef => 15
  if zero_exit_status then 0 else retval

/-- How a run of the driver ends. -/
inductive Outcome (α : Type) where
  /-- The function returned. -/
  | returned (a : α)
  /-- The run ended abnormally: an uncaught `std::out_of_range`, or an integer division by
  zero. -/
  | crashed
  /-- The model ran out of fuel before the function returned. -/
  | outOfFuel

/-- What `UniSolve` leaves behind when it returns. -/
structure SolveResult where
  /-- The returned `int`. -/
  value : Int
  /-- The solver objects. -/
  heap : Nat → SATSolver
  independent_vars : List Nat
  globalSolutionMap : SolutionMap
  /-- The number of calls of `singleThreadUniGenCall` made. -/
  samplingCalls : Nat
  /-- The `samples` arguments of these calls, in the order of the calls. -/
  requests : List Nat

namespace Main

/-- The variables of `UniSolve` that its sampling calls read and write. `calls` counts the
calls of `singleThreadUniGenCall`; the solver object of call number `k` lives at address
`k + 1` (the first solver is at address 0). `requests` is not a variable of the source: it
lists the `samples` arguments of the calls made so far. -/
structure BatchState where
  obj : MainObj
  sampleCounter : Nat
  threadSolutionMap : SolutionMap
  randomEngine : RandomEngine
  lastSuccessfulHashOffset : Nat
  clock : Clock
  calls : Nat
  requests : List Nat

/-- `Main::singleThreadUniGenCall(samples, resLog, sampleCounter, solutionMap, randomEngine,
lastSuccessfulHashOffset, timeReference)`: a new solver object, loaded by `parseInAllFiles`,
on which `UniGen` runs. -/
def singleThreadUniGenCall (conf : UniGenConf) (inv : Invocation) (fuel samples : Nat)
    (b : BatchState) : Outcome BatchState :=
  let solver2 := b.calls + 1
  let obj := parseInAllFiles b.obj solver2 inv.filesToRead inv.fileNamePresent
    inv.standardInput
  match UniGen obj.independent_vars conf fuel samples (obj.heap solver2) b.sampleCounter
      b.randomEngine b.threadSolutionMap b.lastSuccessfulHashOffset b.clock with
  | none => Outcome.crashed
  | some (false, _) => Outcome.outOfFuel
  | some (true, st) =>
    Outcome.returned
      { obj := { obj with heap := Function.update obj.heap solver2 st.solver },
        sampleCounter := st.sampleCounter, threadSolutionMap := st.solutionMap,
        randomEngine := st.randomEngine,
        lastSuccessfulHashOffset := st.lastSuccessfulHashOffset, clock := st.clock,
        calls := b.calls + 1, requests := b.requests ++ [samples] }

/-- The loop `for (uint32_t i = 0; i < numCallLoops; i++)` of `UniSolve`, with `loops`
iterations left. -/
def UniSolve.callLoops (conf : UniGenConf) (inv : Invocation) (fuel numCallsInOneLoop : Nat) :
    Nat → Bool → BatchState → Outcome BatchState
  | 0, _, b => Outcome.returned b
  | loops + 1, timedOut, b =>
    if !timedOut then
      match singleThreadUniGenCall conf inv fuel numCallsInOneLoop b with
      | Outcome.returned b =>
        let p := b.clock.poll
        UniSolve.callLoops conf inv fuel numCallsInOneLoop loops p.1 { b with clock := p.2 }
      | Outcome.crashed => Outcome.crashed
      | Outcome.outOfFuel => Outcome.outOfFuel
    else UniSolve.callLoops conf inv fuel numCallsInOneLoop loops timedOut b

/-- The value `callsNeeded = (conf.samples + samplesPerCall - 1) / samplesPerCall` of
`UniSolve`, computed in 32-bit unsigned arithmetic; `samplesPerCall` is not 0 where the
driver uses this value. -/
def UniSolve.callsNeeded (conf : UniGenConf) : Nat :=
  let samplesPerCall := SolutionsToReturn conf.multisample conf.loThresh
  (((2 ^ 32 - 1) + (conf.samples + samplesPerCall)) % 2 ^ 32) / samplesPerCall

/-- The value given to `numCallsInOneLoop` in `UniSolve`, from the value of `solver->nVars()`;
`none` when the source divides by `conf.startIteration * 14 = 0`. -/
def UniSolve.numCallsInOneLoop (conf : UniGenConf) (nVars : Nat) : Option Nat :=
  if conf.callsPerSolver = 0 then
    if (conf.startIteration * 14) % 2 ^ 32 = 0 then none
    else
      let n := min (nVars / ((conf.startIteration * 14) % 2 ^ 32)) (UniSolve.callsNeeded conf)
      some (if n = 0 then 1 else n)
  else some conf.callsPerSolver

/-- The sampling calls of `UniSolve`: the call for the `remainingCalls` that do not fit into
the loops, then the loops. -/
def UniSolve.batches (conf : UniGenConf) (inv : Invocation) (fuel : Nat)
    (callsNeeded numCallsInOneLoop : Nat) (b : BatchState) : Outcome BatchState :=
  let numCallLoops := callsNeeded / numCallsInOneLoop
  let remainingCalls := callsNeeded % numCallsInOneLoop
  let first : Outcome BatchState :=
    if remainingCalls > 0 then singleThreadUniGenCall conf inv fuel remainingCalls b
    else Outcome.returned b
  match first with
  | Outcome.crashed => Outcome.crashed
  | Outcome.outOfFuel => Outcome.outOfFuel
  | Outcome.returned b =>
    UniSolve.callLoops conf inv fuel numCallsInOneLoop numCallLoops false b

/-- The end of `UniSolve`: the counts of the sampling calls are added to `globalSolutionMap`
and `correctReturnValue(ret)` is returned, with `ret = l_True` as declared. -/
def UniSolve.finish (inv : Invocation) (b : BatchState) : SolveResult :=
  { value := correctReturnValue inv.zero_exit_status l_True, heap := b.obj.heap,
    independent_vars := b.obj.independent_vars,
    globalSolutionMap := b.threadSolutionMap.foldl SolutionMap.add [],
    samplingCalls := b.calls, requests := b.requests }

/-- The part of `UniSolve` from the computation of the thresholds on, run with the start
iteration in `conf`. -/
def UniSolve.sample (conf : UniGenConf) (inv : Invocation) (fuel : Nat) (obj : MainObj)
    (clock : Clock) : Outcome SolveResult :=
  let minSolutions := conf.loThresh
  let samplesPerCall := SolutionsToReturn conf.multisample minSolutions
  if samplesPerCall = 0 then Outcome.crashed
  else
    match UniSolve.numCallsInOneLoop conf (obj.heap obj.solver).nVars with
    | none => Outcome.crashed
    | some numCallsInOneLoop =>
      match UniSolve.batches conf inv fuel (UniSolve.callsNeeded conf) numCallsInOneLoop
          { obj := obj, sampleCounter := 0, threadSolutionMap := [],
            randomEngine := inv.samplingEngine, lastSuccessfulHashOffset := 0, clock := clock,
            calls := 0, requests := [] } with
      | Outcome.crashed => Outcome.crashed
      | Outcome.outOfFuel => Outcome.outOfFuel
      | Outcome.returned b => Outcome.returned (UniSolve.finish inv b)

/-- `Main::UniSolve()` on a `Main` object whose solver objects are all newly constructed; the
first solver is the one at address 0. `fuel` bounds the iterations of every inner loop of
`ApproxMC` and the sample attempts of every `UniGen` call. -/
def UniSolve (conf : UniGenConf) (inv : Invocation) (fuel : Nat) (heap : Nat → SATSolver) :
    Outcome SolveResult :=
  let obj : MainObj := { heap := heap, solver := 0, independent_vars := [] }
  let obj := parseInAllFiles obj obj.solver inv.filesToRead inv.fileNamePresent
    inv.standardInput
  if conf.startIteration > obj.independent_vars.length then
    Outcome.returned
      { value := -1, heap := obj.heap, independent_vars := obj.independent_vars,
        globalSolutionMap := [], samplingCalls := 0, requests := [] }
  else if conf.startIteration = 0 then
    match ApproxMC obj.independent_vars conf.approxMC fuel (obj.heap obj.solver)
        inv.countingEngine inv.clock with
    | none => Outcome.outOfFuel
    | some (solCount, solver, _, clock) =>
      let obj := { obj with heap := Function.update obj.heap obj.solver solver }
      let p := clock.poll
      if p.1 then
        Outcome.returned
          { value := 0, heap := obj.heap, independent_vars := obj.independent_vars,
            globalSolutionMap := [], samplingCalls := 0, requests := [] }
      else if solCount.hashCount = 0 ∧ solCount.cellSolCount = 0 then
        Outcome.returned
          { value := 0, heap := obj.heap, independent_vars := obj.independent_vars,
            globalSolutionMap := [], samplingCalls := 0, requests := [] }
      else
        UniSolve.sample { conf with startIteration := conf.startIterationOf solCount } inv fuel
          obj p.2
  else UniSolve.sample conf inv fuel obj inv.clock

end Main

/-- The probe schedule of a sample attempt as the specification words it: `[0, 1, 2]` when
the last successful offset is 0, `[2, 1, 0]` when it is 2, and otherwise (when it is 1)
`[1, 0, 2]` if the first probe found fewer solutions than the lower threshold and `[1, 2, 0]`
if not. -/
def probeSchedule (lastSuccessfulHashOffset : Nat) (firstBelow : Bool) : List Nat :=
  if lastSuccessfulHashOffset = 0 then [0, 1, 2]
  else if lastSuccessfulHashOffset = 2 then [2, 1, 0]
  else if firstBelow then [1, 0, 2]
  else [1, 2, 0]

/-- Whether the first of the given calls of `BoundedSAT` stored a `solutionCount` below
`loThresh` (`false` when there is no call). -/
def firstBelow (conf : UniGenConf) (calls : List SampleCall) : Bool :=
  match calls.head? with
  | some c => decide (c.solutionCount < conf.loThresh)
  | none => false

/-- The retry rule of `ApproxMC` as a relation between two consecutive calls of
`BoundedSATCount`: when the earlier call returned a non-positive count (on a solver whose
variable count fits 32 bits), then after fewer than two retries the next call is a retry, made
at the same `hashCount` with exactly that many hashes, all on variables created after the
earlier call, and with the retry counter one higher; after two retries the next call is made
at `hashCount + 1` with that many new hashes and the retry counter 0. -/
def retryStep (c next : Main.CountCall) : Prop :=
  c.result ≤ 0 → c.solver.nVars < 2 ^ 32 →
    (c.repeatTry < 2 →
      next.hashCount = c.hashCount ∧ next.repeatTry = c.repeatTry + 1 ∧
      next.assumptions =
        (List.range c.hashCount).map (fun i => Lit.mk (c.solver.nVars + 1 + i) true)) ∧
    (2 ≤ c.repeatTry →
      next.hashCount = c.hashCount + 1 ∧ next.repeatTry = 0 ∧
      next.assumptions =
        (List.range (c.hashCount + 1)).map (fun i => Lit.mk (c.solver.nVars + 1 + i) true))

/-! ## Fixtures -/

/-- Answer SAT with the given model. -/
def satWith (model : List lbool) : Answer := ⟨l_True, model⟩

/-- Answer UNSAT. -/
def unsatAnswer : Answer := ⟨l_False, []⟩

/-- Answer INDETERMINATE. -/
def indetAnswer : Answer := ⟨l_Undef, []⟩

/-- A solver with `n` variables loaded that answers from `answers`. -/
def solverWith (n : Nat) (answers : Nat → Answer) : SATSolver :=
  { SATSolver.fresh answers with numVars := n }

/-- An engine whose every draw is `x`. -/
def constEngine (x : Nat) : RandomEngine := ⟨fun _ => x, 0⟩

/-- A clock whose deadline test never fires. -/
def quietClock : Clock := ⟨fun _ => false, 0, false⟩

/-- A CNF file with `n` variables, the given clauses and the given declared independent set. -/
def cnfFile (n : Nat) (clauses : List (List Lit)) (declared : List Nat) : ParseEffect :=
  fun s =>
    (clauses.foldl (fun s c => s.add_clause c) ((List.range n).foldl (fun s _ => s.new_var) s),
      declared)

/-- Answers of a solver on a formula with the two models `[l_True]` and `[l_False]`. -/
def twoModels : Nat → Answer :=
  fun i => if i = 0 then satWith [l_True] else if i = 1 then satWith [l_False] else unsatAnswer

/-- The `Main` object right after `UniSolve` created the first solver (at address 0). -/
def startObj : MainObj := ⟨fun _ => SATSolver.fresh twoModels, 0, []⟩

/-- The first solver loaded from a one-variable CNF without a declared independent set. -/
def loadedObj : MainObj := Main.parseInAllFiles startObj 0 [cnfFile 1 [] []] true (cnfFile 0 [] [])

/-- The `Main` object after `ApproxMC` (pivot 5, one trial) has run on the first solver, when
it returns. -/
def countedObj : Option MainObj :=
  (Main.ApproxMC loadedObj.independent_vars ⟨1, 5⟩ 1 (loadedObj.heap 0) (constEngine 0)
    quietClock).map (fun r => { loadedObj with heap := Function.update loadedObj.heap 0 r.2.1 })

/-- The same, followed by what `singleThreadUniGenCall` does before it calls `UniGen`: a new
solver object (at address 1) loaded by `parseInAllFiles`. -/
def reloadedObj : Option MainObj :=
  countedObj.map (fun m => Main.parseInAllFiles m 1 [cnfFile 1 [] []] true (cnfFile 0 [] []))

/-- Answers of a solver that finds the model `[l_True]`, then the model `[l_False]`, and then
runs out of time. -/
def twoThenIndet : Nat → Answer :=
  fun i => if i = 0 then satWith [l_True] else if i = 1 then satWith [l_False] else indetAnswer

/-- Answers of a solver that finds the model `[l_True]` and then reports UNSAT. -/
def oneModel : Nat → Answer :=
  fun i => if i = 0 then satWith [l_True] else unsatAnswer

/-- Answers of a solver that finds the model `[l_True]` and then runs out of time. -/
def oneThenIndet : Nat → Answer :=
  fun i => if i = 0 then satWith [l_True] else indetAnswer

/-- An engine whose every 31-bit draw is `2 ^ 30`, printed by `binary` as a one followed by
thirty zeros. -/
def highBitEngine : RandomEngine := constEngine (2 ^ 30)

/-- A solver loaded with the one-variable formula made of the unit clause `x0`, which finds
the model `[l_True]` and then reports UNSAT. -/
def unitSolver : SATSolver := { solverWith 1 oneModel with clauses := [[Lit.mk 0 false]] }

/-- Answers of a solver on a two-variable formula without clauses: its four models, then
UNSAT. -/
def fourModels : Nat → Answer :=
  fun i =>
    if i = 0 then satWith [l_True, l_True]
    else if i = 1 then satWith [l_True, l_False]
    else if i = 2 then satWith [l_False, l_True]
    else if i = 3 then satWith [l_False, l_False]
    else unsatAnswer

/-- The state of `ApproxMC` (pivot 5, one trial) after four iterations of its inner loop on a
one-variable input whose solver runs out of time at every call. -/
def timeoutRun : Main.MCState :=
  (Main.ApproxMC.trials [0] ⟨1, 5⟩ 4 1
    (Main.ApproxMC.start (solverWith 1 (fun _ => indetAnswer)) (constEngine 0) quietClock)).2

/-- The value a run of `UniSolve` returned, when it returned. -/
def Outcome.value (o : Outcome SolveResult) : Option Int :=
  match o with
  | Outcome.returned r => some r.value
  | Outcome.crashed => none
  | Outcome.outOfFuel => none

/-- An invocation on one CNF file with two variables, no clause and no declared independent
set, with a deadline that never fires. -/
def twoVarInvocation : Invocation :=
  { filesToRead := [cnfFile 2 [] []], fileNamePresent := true, standardInput := cnfFile 0 [] [],
    countingEngine := constEngine 0, samplingEngine := constEngine 0, clock := quietClock,
    zero_exit_status := false }

/-- A configuration asking for one sample from one sampling call, with the thresholds 1 and
9, and the given start iteration. -/
def oneSampleConf (startIteration : Nat) : UniGenConf :=
  { startIteration := startIteration, samples := 1, callsPerSolver := 1, multisample := false,
    hiThresh := 9, loThresh := 1, approxMC := ⟨1, 5⟩, startIterationOf := fun _ => 1 }

/-- Solver objects that all answer like a solver on the two-variable formula without
clauses. -/
def fourModelHeap : Nat → SATSolver := fun _ => SATSolver.fresh fourModels

/-- Whether a run of the driver ended abnormally. -/
def Outcome.crashes {α : Type} (o : Outcome α) : Bool :=
  match o with
  | Outcome.returned _ => false
  | Outcome.crashed => true
  | Outcome.outOfFuel => false

/-- A configuration with `pivotUniGen = 2` and `kappa = 0.638`, for which the source computes
`hiThresh = (uint32_t) (1.41 * 1.638 * 2 + 2) = 6` and
`loThresh = (uint32_t) (2 / (1.41 * 1.638)) = 0`, with `multisample` on and the start
iteration 1 given by hand. -/
def multisampleZeroConf : UniGenConf :=
  { startIteration := 1, samples := 1, callsPerSolver := 1, multisample := true,
    hiThresh := 6, loThresh := 0, approxMC := ⟨1, 5⟩, startIterationOf := fun _ => 0 }

/-- The same thresholds with `multisample` off, the start iteration left to `ApproxMC`
(pivot 5, one trial) and the batch size left to the driver. For the count (5, 0) and
`pivotUniGen = 2` the source computes the start iteration
`round(0 + log2(5) + log2(1.8) - log2(2)) - 2 = round(2.17) - 2 = 0`. -/
def autoStartConf : UniGenConf :=
  { startIteration := 0, samples := 1, callsPerSolver := 0, multisample := false,
    hiThresh := 6, loThresh := 0, approxMC := ⟨1, 5⟩, startIterationOf := fun _ => 0 }

/-- The state a run of the driver ended in, when it returned. -/
def Outcome.get? {α : Type} (o : Outcome α) : Option α :=
  match o with
  | Outcome.returned a => some a
  | Outcome.crashed => none
  | Outcome.outOfFuel => none

/-- A configuration asking for five samples with batches of two sampling calls, the
thresholds 1 and 9, and the start iteration 1. -/
def fiveSampleConf : UniGenConf :=
  { startIteration := 1, samples := 5, callsPerSolver := 2, multisample := false,
    hiThresh := 9, loThresh := 1, approxMC := ⟨1, 5⟩, startIterationOf := fun _ => 1 }

/-- Answers of a solver that in every enumeration finds two models and then reports UNSAT. -/
def twoPerRound : Nat → Answer :=
  fun i =>
    if i % 3 = 0 then satWith [l_True, l_True]
    else if i % 3 = 1 then satWith [l_True, l_False]
    else unsatAnswer

/-- Solver objects that all answer from `twoPerRound`. -/
def twoPerRoundHeap : Nat → SATSolver := fun _ => SATSolver.fresh twoPerRound

/-- The variables of `UniSolve` before its first sampling call on the two-variable input,
with solvers that answer from `twoPerRound`. -/
def firstBatch : Main.BatchState :=
  { obj := Main.parseInAllFiles ⟨twoPerRoundHeap, 0, []⟩ 0 twoVarInvocation.filesToRead
      twoVarInvocation.fileNamePresent twoVarInvocation.standardInput,
    sampleCounter := 0, threadSolutionMap := [], randomEngine := constEngine 0,
    lastSuccessfulHashOffset := 0, clock := quietClock, calls := 0, requests := [] }

/-- Answers of a solver that reports UNSAT three times and from then on, in every
enumeration, finds two models and then reports UNSAT. -/
def lateModels : Nat → Answer :=
  fun i => if i < 3 then unsatAnswer else twoPerRound i

/-- The variables of `UniGen` at the start of a sample attempt whose last successful offset
is 1, on a two-variable solver that answers from `lateModels`. -/
def attemptStart : Main.GenState :=
  { solver := solverWith 2 lateModels, randomEngine := constEngine 0, clock := quietClock,
    solutionMap := [], lastSuccessfulHashOffset := 1, sampleCounter := 0, assumptions := [],
    elapsedOver := false, repeatTry := 0, hashOffsets := [1, 2, 0], ret := l_False,
    solutionCount := 0, lastHashCount := 0, calls := [] }

/-! ## Facts about the bounded enumerators -/

namespace Main

theorem BoundedSATCount.body_count (independent_vars : List Nat)
    (maxSolutions activationVar : Nat) (allSATAssumptions : List Lit) (st : CountLoop) :
    (BoundedSATCount.body independent_vars maxSolutions activationVar allSATAssumptions
      st).current_nr_of_solutions = st.current_nr_of_solutions + 1 := rfl

theorem BoundedSATCount.body_ret (independent_vars : List Nat)
    (maxSolutions activationVar : Nat) (allSATAssumptions : List Lit) (st : CountLoop) :
    (BoundedSATCount.body independent_vars maxSolutions activationVar allSATAssumptions
      st).ret = (st.solver.answers st.solver.solveLog.length).ret := rfl

theorem BoundedSATCount.body_answers (independent_vars : List Nat)
    (maxSolutions activationVar : Nat) (allSATAssumptions : List Lit) (st : CountLoop) :
    (BoundedSATCount.body independent_vars maxSolutions activationVar allSATAssumptions
      st).solver.answers = st.solver.answers := by
  simp only [BoundedSATCount.body]
  split <;> rfl

theorem BoundedSATCount.body_solveLog (independent_vars : List Nat)
    (maxSolutions activationVar : Nat) (allSATAssumptions : List Lit) (st : CountLoop) :
    (BoundedSATCount.body independent_vars maxSolutions activationVar allSATAssumptions
      st).solver.solveLog = st.solver.solveLog ++ [allSATAssumptions] := by
  simp only [BoundedSATCount.body]
  split <;> rfl

/-- When the fuel covers the distance to the cap, the loop of `BoundedSATCount` stops because
its condition is false: the fuel is not what ends it. -/
theorem BoundedSATCount.loop_exits (independent_vars : List Nat)
    (maxSolutions activationVar : Nat) (allSATAssumptions : List Lit) :
    ∀ (fuel : Nat) (st : CountLoop), maxSolutions - st.current_nr_of_solutions ≤ fuel →
      ¬ ((BoundedSATCount.loop independent_vars maxSolutions activationVar allSATAssumptions
            fuel st).current_nr_of_solutions < maxSolutions ∧
         (BoundedSATCount.loop independent_vars maxSolutions activationVar allSATAssumptions
            fuel st).ret = l_True) := by
  intro fuel
  induction fuel with
  | zero =>
    intro st h
    simp only [BoundedSATCount.loop]
    omega
  | succ fuel ih =>
    intro st h
    simp only [BoundedSATCount.loop]
    split
    · apply ih
      rw [BoundedSATCount.body_count]
      omega
    · assumption

/-- The loop of `BoundedSATCount` on a solver that answers SAT to its next `k` calls and
something else to the one after, below the cap: it makes `k + 1` calls and counts all of them. -/
theorem BoundedSATCount.loop_counts_calls (independent_vars : List Nat)
    (maxSolutions activationVar : Nat) (allSATAssumptions : List Lit) :
    ∀ (k fuel : Nat) (st : CountLoop), st.ret = l_True → k < fuel →
      st.current_nr_of_solutions + k < maxSolutions →
      (∀ i, i < k → (st.solver.answers (st.solver.solveLog.length + i)).ret = l_True) →
      (st.solver.answers (st.solver.solveLog.length + k)).ret ≠ l_True →
      (BoundedSATCount.loop independent_vars maxSolutions activationVar allSATAssumptions
          fuel st).current_nr_of_solutions = st.current_nr_of_solutions + k + 1 ∧
      (BoundedSATCount.loop independent_vars maxSolutions activationVar allSATAssumptions
          fuel st).ret = (st.solver.answers (st.solver.solveLog.length + k)).ret := by
  intro k
  induction k with
  | zero =>
    intro fuel st hret hfuel hcap _ hlast
    obtain ⟨fuel, rfl⟩ : ∃ f, fuel = f + 1 := ⟨fuel - 1, by omega⟩
    have hc : st.current_nr_of_solutions < maxSolutions := by omega
    simp only [Nat.add_zero] at hlast ⊢
    have hb : ¬ ((BoundedSATCount.body independent_vars maxSolutions activationVar
        allSATAssumptions st).current_nr_of_solutions < maxSolutions ∧
        (BoundedSATCount.body independent_vars maxSolutions activationVar
        allSATAssumptions st).ret = l_True) := by
      rw [BoundedSATCount.body_ret]
      exact fun h => hlast h.2
    rw [BoundedSATCount.loop, if_pos ⟨hc, hret⟩]
    cases fuel with
    | zero => exact ⟨rfl, rfl⟩
    | succ fuel =>
      rw [BoundedSATCount.loop, if_neg hb]
      exact ⟨rfl, rfl⟩
  | succ k ih =>
    intro fuel st hret hfuel hcap hsat hlast
    obtain ⟨fuel, rfl⟩ : ∃ f, fuel = f + 1 := ⟨fuel - 1, by omega⟩
    have hc : st.current_nr_of_solutions < maxSolutions := by omega
    have h0 : (st.solver.answers st.solver.solveLog.length).ret = l_True := by
      simpa using hsat 0 (by omega)
    rw [BoundedSATCount.loop, if_pos ⟨hc, hret⟩]
    have hlen : (BoundedSATCount.body independent_vars maxSolutions activationVar
        allSATAssumptions st).solver.solveLog.length = st.solver.solveLog.length + 1 := by
      rw [BoundedSATCount.body_solveLog]; simp
    have step := ih fuel
      (BoundedSATCount.body independent_vars maxSolutions activationVar allSATAssumptions st)
      (by rw [BoundedSATCount.body_ret]; exact h0) (by omega)
      (by rw [BoundedSATCount.body_count]; omega)
      (by
        intro i hi
        rw [BoundedSATCount.body_answers, hlen, Nat.add_assoc, Nat.add_comm 1 i]
        exact hsat (i + 1) (by omega))
      (by
        rw [BoundedSATCount.body_answers, hlen, Nat.add_assoc, Nat.add_comm 1 k]
        exact hlast)
    rw [BoundedSATCount.body_answers, hlen, BoundedSATCount.body_count] at step
    have e1 : st.solver.solveLog.length + 1 + k = st.solver.solveLog.length + (k + 1) := by
      omega
    have e2 : st.current_nr_of_solutions + 1 + k + 1 = st.current_nr_of_solutions + (k + 1) + 1 :=
      by omega
    rw [e1, e2] at step
    exact step

end Main

theorem toInt32_small (n : Nat) (h : n < 2 ^ 31) : toInt32 n = (n : Int) := by
  unfold toInt32
  have : n % 2 ^ 32 = n := Nat.mod_eq_of_lt (by omega)
  rw [this, if_pos h]

theorem toInt32_negUnsignedLong (n : Nat) (h0 : 0 < n) (h : n ≤ 2 ^ 31) :
    toInt32 (negUnsignedLong n) = -(n : Int) := by
  unfold toInt32 negUnsignedLong
  have e : ((2 ^ 64 - 1) * n) % 2 ^ 64 % 2 ^ 32 = 2 ^ 32 - n := by omega
  rw [e, if_neg (by omega)]
  omega

namespace Main

/-- What `BoundedSATCount` returns when the solver answers SAT to the first `n` calls of the
enumeration and UNSAT to the next, below the cap: `n + 1`, the number of `solve` calls. -/
theorem BoundedSATCount_unsat_end (independent_vars : List Nat) (maxSolutions n : Nat)
    (solver : SATSolver) (assumptions : List Lit)
    (hcap : n < maxSolutions) (hM : maxSolutions < 2 ^ 31)
    (hsat : ∀ i, i < n → (solver.answers (solver.solveLog.length + i)).ret = l_True)
    (hlast : (solver.answers (solver.solveLog.length + n)).ret = l_False) :
    (BoundedSATCount independent_vars maxSolutions solver assumptions).1 = (n : Int) + 1 := by
  have run := BoundedSATCount.loop_counts_calls independent_vars maxSolutions
    (solver.new_var.nVars - 1) (assumptions ++ [Lit.mk (solver.new_var.nVars - 1) true])
    n maxSolutions ⟨0, l_True, solver.new_var⟩ rfl hcap (by simpa using hcap) hsat
    (by
      show (solver.answers (solver.solveLog.length + n)).ret ≠ l_True
      rw [hlast]; decide)
  have hret : (solver.new_var.answers (solver.new_var.solveLog.length + n)).ret = l_False :=
    hlast
  have hcount := run.1.trans (show _ = n + 1 by simp)
  have hsmall : toInt32 (n + 1) = ((n + 1 : Nat) : Int) := toInt32_small _ (by omega)
  simp only [BoundedSATCount]
  rw [run.2, hret, if_neg (by decide), hcount, hsmall]
  push_cast
  rfl

/-- What `BoundedSATCount` returns when the solver answers SAT to the first `k` calls of the
enumeration and INDETERMINATE to the next: `-(k + 1)`. -/
theorem BoundedSATCount_indet_end (independent_vars : List Nat) (maxSolutions k : Nat)
    (solver : SATSolver) (assumptions : List Lit)
    (hcap : k + 1 ≤ maxSolutions) (hM : maxSolutions ≤ 2 ^ 31)
    (hsat : ∀ i, i < k → (solver.answers (solver.solveLog.length + i)).ret = l_True)
    (hlast : (solver.answers (solver.solveLog.length + k)).ret = l_Undef) :
    (BoundedSATCount independent_vars maxSolutions solver assumptions).1 = -((k : Int) + 1) := by
  have run := BoundedSATCount.loop_counts_calls independent_vars maxSolutions
    (solver.new_var.nVars - 1) (assumptions ++ [Lit.mk (solver.new_var.nVars - 1) true])
    k maxSolutions ⟨0, l_True, solver.new_var⟩ rfl (by omega) (by simpa using hcap) hsat
    (by
      show (solver.answers (solver.solveLog.length + k)).ret ≠ l_True
      rw [hlast]; decide)
  have hret : (solver.new_var.answers (solver.new_var.solveLog.length + k)).ret = l_Undef :=
    hlast
  have hcount := run.1.trans (show _ = k + 1 by simp)
  have hneg : toInt32 (negUnsignedLong (k + 1)) = -((k + 1 : Nat) : Int) :=
    toInt32_negUnsignedLong _ (by omega) (by omega)
  simp only [BoundedSATCount]
  rw [run.2, hret, if_pos rfl, hcount, hneg]
  push_cast
  rfl

/-- `BoundedSAT` has no path that returns `l_Undef`. -/
theorem BoundedSAT_ret_ne_Undef (independent_vars : List Nat) (multisample : Bool)
    (maxSolutions minSolutions : Nat) (solver : SATSolver) (assumptions : List Lit)
    (e : RandomEngine) (solutionMap : SolutionMap) (r : SampleResult)
    (h : BoundedSAT independent_vars multisample maxSolutions minSolutions solver assumptions e
      solutionMap = some r) : r.ret ≠ l_Undef := by
  simp only [BoundedSAT, BoundedSAT.exit] at h
  split at h
  · split at h
    · exact absurd h (by simp)
    · injection h with h
      rw [← h]
      simp
  · injection h with h
    rw [← h]
    simp

end Main

/-! ## The band test of `BoundedSAT` and the default independent set, in general -/

namespace Main

/-- When the fuel covers the distance to the cap, the loop of `BoundedSAT` stops because its
condition is false. -/
theorem BoundedSAT.sampling_loop_exits (independent_vars : List Nat)
    (maxSolutions activationVar : Nat) (allSATAssumptions : List Lit) :
    ∀ (fuel : Nat) (st : SampleLoop), maxSolutions - st.current_nr_of_solutions ≤ fuel →
      ¬ ((BoundedSAT.loop independent_vars maxSolutions activationVar allSATAssumptions
            fuel st).current_nr_of_solutions < maxSolutions ∧
         (BoundedSAT.loop independent_vars maxSolutions activationVar allSATAssumptions
            fuel st).ret = l_True) := by
  intro fuel
  induction fuel with
  | zero =>
    intro st h
    simp only [BoundedSAT.loop]
    omega
  | succ fuel ih =>
    intro st h
    simp only [BoundedSAT.loop]
    split
    · apply ih
      have : (BoundedSAT.body independent_vars maxSolutions activationVar allSATAssumptions
          st).current_nr_of_solutions = st.current_nr_of_solutions + 1 := by
        simp only [BoundedSAT.body]
        split <;> rfl
      omega
    · assumption

/-- One iteration of the loop of `BoundedSAT` keeps the relation between the call counter and
the saved models below the cap: equal after a SAT answer, the counter one ahead after another
answer. -/
theorem BoundedSAT.body_tracks (independent_vars : List Nat)
    (maxSolutions activationVar : Nat) (allSATAssumptions : List Lit) (st : SampleLoop)
    (hlen : st.modelsSet.length = st.current_nr_of_solutions) :
    (BoundedSAT.body independent_vars maxSolutions activationVar allSATAssumptions
        st).current_nr_of_solutions < maxSolutions →
      ((BoundedSAT.body independent_vars maxSolutions activationVar allSATAssumptions
          st).ret = l_True →
        (BoundedSAT.body independent_vars maxSolutions activationVar allSATAssumptions
          st).modelsSet.length =
        (BoundedSAT.body independent_vars maxSolutions activationVar allSATAssumptions
          st).current_nr_of_solutions) ∧
      ((BoundedSAT.body independent_vars maxSolutions activationVar allSATAssumptions
          st).ret ≠ l_True →
        (BoundedSAT.body independent_vars maxSolutions activationVar allSATAssumptions
          st).modelsSet.length + 1 =
        (BoundedSAT.body independent_vars maxSolutions activationVar allSATAssumptions
          st).current_nr_of_solutions) := by
  simp only [BoundedSAT.body]
  split
  · rename_i h
    intro _
    exact ⟨fun _ => by simp [hlen], fun hne => absurd h.1 hne⟩
  · rename_i h
    intro hlt
    refine ⟨fun ht => absurd ⟨ht, hlt⟩ h, fun _ => by simp [hlen]⟩

/-- The loop of `BoundedSAT` keeps the relation of `BoundedSAT.body_tracks`. -/
theorem BoundedSAT.loop_tracks (independent_vars : List Nat)
    (maxSolutions activationVar : Nat) (allSATAssumptions : List Lit) :
    ∀ (fuel : Nat) (st : SampleLoop),
      (st.current_nr_of_solutions < maxSolutions →
        (st.ret = l_True → st.modelsSet.length = st.current_nr_of_solutions) ∧
        (st.ret ≠ l_True → st.modelsSet.length + 1 = st.current_nr_of_solutions)) →
      ((BoundedSAT.loop independent_vars maxSolutions activationVar allSATAssumptions
          fuel st).current_nr_of_solutions < maxSolutions →
        ((BoundedSAT.loop independent_vars maxSolutions activationVar allSATAssumptions
            fuel st).ret = l_True →
          (BoundedSAT.loop independent_vars maxSolutions activationVar allSATAssumptions
            fuel st).modelsSet.length =
          (BoundedSAT.loop independent_vars maxSolutions activationVar allSATAssumptions
            fuel st).current_nr_of_solutions) ∧
        ((BoundedSAT.loop independent_vars maxSolutions activationVar allSATAssumptions
            fuel st).ret ≠ l_True →
          (BoundedSAT.loop independent_vars maxSolutions activationVar allSATAssumptions
            fuel st).modelsSet.length + 1 =
          (BoundedSAT.loop independent_vars maxSolutions activationVar allSATAssumptions
            fuel st).current_nr_of_solutions)) := by
  intro fuel
  induction fuel with
  | zero => intro st h; simpa only [BoundedSAT.loop] using h
  | succ fuel ih =>
    intro st h
    simp only [BoundedSAT.loop]
    split
    · rename_i hc
      exact ih _ (BoundedSAT.body_tracks independent_vars maxSolutions activationVar
        allSATAssumptions st ((h hc.1).1 hc.2))
    · exact h

/-- What the code guarantees in place of the band of C6: when `BoundedSAT` returns `l_True`,
the number `n` of models it saved and reports satisfies `minSolutions ≤ n` and
`n + 1 < maxSolutions`, because the band is tested on `n + 1`, the number of `solve` calls. -/
theorem BoundedSAT_InRange_band (independent_vars : List Nat) (multisample : Bool)
    (maxSolutions minSolutions : Nat) (solver : SATSolver) (assumptions : List Lit)
    (e : RandomEngine) (solutionMap : SolutionMap) (r : SampleResult)
    (h : BoundedSAT independent_vars multisample maxSolutions minSolutions solver assumptions e
      solutionMap = some r) (hr : r.ret = l_True) :
    minSolutions ≤ r.solutionCount ∧ r.solutionCount + 1 < maxSolutions := by
  have hexit := BoundedSAT.sampling_loop_exits independent_vars maxSolutions
    (solver.new_var.nVars - 1)
    (assumptions ++ [Lit.mk (solver.new_var.nVars - 1) true]) maxSolutions
    ⟨0, l_True, solver.new_var, []⟩ (by simp)
  have htrack := BoundedSAT.loop_tracks independent_vars maxSolutions
    (solver.new_var.nVars - 1) (assumptions ++ [Lit.mk (solver.new_var.nVars - 1) true])
    maxSolutions ⟨0, l_True, solver.new_var, []⟩
    (fun _ => ⟨fun _ => rfl, fun hne => absurd rfl hne⟩)
  simp only [BoundedSAT, BoundedSAT.exit] at h
  split at h
  · rename_i hband
    have hne := fun ht => hexit ⟨hband.1, ht⟩
    have hlen := (htrack hband.1).2 hne
    split at h
    · exact absurd h (by simp)
    · injection h with h
      rw [← h]
      simp only
      omega
  · injection h with h
    rw [← h] at hr
    exact absurd hr (by simp)

/-- The default independent set that `readInAFile` builds ranges over the variables of the
member `solver`, whichever solver was loaded. -/
theorem readInAFile_default (m : MainObj) (solver2 : Nat) (file : ParseEffect)
    (hnone : (file (m.heap solver2)).2 = []) :
    (readInAFile m solver2 file).independent_vars =
      List.range ((readInAFile m solver2 file).heap m.solver).nVars := by
  have hfold : ∀ (l : List Nat) (acc : List Nat),
      l.foldl (fun l i => l ++ [i]) acc = acc ++ l := by
    intro l
    induction l with
    | nil => intro acc; simp
    | cons x xs ih => intro acc; simp [ih]
  simp only [readInAFile, hnone, List.isEmpty_nil, if_true, hfold, List.nil_append]

end Main

/-! ## What `AddHash` submits, in general -/

theorem binary.digits_bits : ∀ (fuel x : Nat) (s : String),
    (∀ c, c ∈ s.data → c = '0' ∨ c = '1') →
    ∀ c, c ∈ (binary.digits fuel x s).data → c = '0' ∨ c = '1' := by
  intro fuel
  induction fuel with
  | zero => intro x s hs; simpa only [binary.digits] using hs
  | succ fuel ih =>
    intro x s hs
    have hpush : ∀ c, c ∈ (s.push (Char.ofNat ('0'.toNat + x % 2))).data →
        c = '0' ∨ c = '1' := by
      intro c hc
      simp only [String.push, List.mem_append, List.mem_singleton] at hc
      rcases hc with hc | hc
      · exact hs c hc
      · rcases Nat.mod_two_eq_zero_or_one x with h | h
        · left; rw [hc, h]; rfl
        · right; rw [hc, h]; rfl
    simp only [binary.digits]
    split
    · exact ih _ _ hpush
    · exact hpush

theorem binary_bits (x length : Nat) :
    ∀ c, c ∈ (binary x length).data → c = '0' ∨ c = '1' := by
  have hpad : ∀ (l : List Nat) (s : String), (∀ c, c ∈ s.data → c = '0' ∨ c = '1') →
      ∀ c, c ∈ (l.foldl (fun s _ => s.push '0') s).data → c = '0' ∨ c = '1' := by
    intro l
    induction l with
    | nil => intro s hs; simpa using hs
    | cons a l ih =>
      intro s hs
      rw [List.foldl_cons]
      apply ih
      intro c hc
      simp only [String.push, List.mem_append, List.mem_singleton] at hc
      rcases hc with hc | hc
      · exact hs c hc
      · exact Or.inl hc
  intro c hc
  simp only [binary, List.mem_reverse] at hc
  exact hpad _ _ (binary.digits_bits 32 _ "" (by simp)) c hc

namespace Main

theorem GenerateRandomBits.loop_bits (size : Nat) : ∀ (fuel i : Nat) (randomBits : String)
    (e : RandomEngine), (∀ c, c ∈ randomBits.data → c = '0' ∨ c = '1') →
    ∀ c, c ∈ (GenerateRandomBits.loop size fuel i randomBits e).1.data →
      c = '0' ∨ c = '1' := by
  intro fuel
  induction fuel with
  | zero => intro i randomBits e h; simpa only [GenerateRandomBits.loop] using h
  | succ fuel ih =>
    intro i randomBits e h
    simp only [GenerateRandomBits.loop]
    split
    · apply ih
      intro c hc
      simp only [String.data_append, List.mem_append] at hc
      rcases hc with hc | hc
      · exact h c hc
      · exact binary_bits _ _ c hc
    · exact h

/-- No character that `AddHash` reads in freshly generated random bits has the character code
1, so the comparison `randomBits[...] == 1` is false at every index. -/
theorem AddHash.rhs_generated (independent_vars : List Nat) (size i : Nat) (e : RandomEngine) :
    AddHash.rhs independent_vars (GenerateRandomBits "" size e).1 i = false := by
  have hbits := GenerateRandomBits.loop_bits size size 0 "" e (by simp)
  have hget : ∀ (l : List Char) (k : Nat),
      l.getD k (Char.ofNat 0) = Char.ofNat 0 ∨ l.getD k (Char.ofNat 0) ∈ l := by
    intro l
    induction l with
    | nil => intro k; simp
    | cons a l ih =>
      intro k
      cases k with
      | zero => simp
      | succ k =>
        rcases ih k with h | h
        · left; simpa using h
        · right; simp only [List.getD_cons_succ]; exact List.mem_cons_of_mem _ h
  unfold AddHash.rhs charAt
  rw [decide_eq_false_iff_not]
  rcases hget (GenerateRandomBits "" size e).1.data ((independent_vars.length + 1) * i) with h | h
  · rw [h]; decide
  · rcases hbits _ h with h0 | h1
    · rw [h0]; decide
    · rw [h1]; decide

/-- The loop of `AddHash` in closed form: `k` iterations create the variables
`numVars, ..., numVars + k - 1`, append their negated literals to the assumptions, append one
XOR per iteration, and change nothing else in the solver. -/
theorem AddHash.fold_spec (independent_vars : List Nat) (randomBits : String) :
    ∀ (k : Nat) (acc : SATSolver × List Lit),
      ((List.range k).foldl (AddHash.step independent_vars randomBits) acc).1.numVars =
          acc.1.numVars + k ∧
      ((List.range k).foldl (AddHash.step independent_vars randomBits) acc).1.xors =
          acc.1.xors ++ (List.range k).map (fun i =>
            (AddHash.vars independent_vars randomBits i (acc.1.numVars + i),
             AddHash.rhs independent_vars randomBits i)) ∧
      ((List.range k).foldl (AddHash.step independent_vars randomBits) acc).2 =
          acc.2 ++ (List.range k).map (fun i => Lit.mk (acc.1.numVars + i) true) ∧
      ((List.range k).foldl (AddHash.step independent_vars randomBits) acc).1.clauses =
          acc.1.clauses ∧
      ((List.range k).foldl (AddHash.step independent_vars randomBits) acc).1.solveLog =
          acc.1.solveLog ∧
      ((List.range k).foldl (AddHash.step independent_vars randomBits) acc).1.model =
          acc.1.model ∧
      ((List.range k).foldl (AddHash.step independent_vars randomBits) acc).1.answers =
          acc.1.answers := by
  intro k
  induction k with
  | zero => intro acc; simp
  | succ k ih =>
    intro acc
    obtain ⟨h1, h2, h3, h4, h5, h6, h7⟩ := ih acc
    rw [List.range_succ, List.foldl_append, List.foldl_cons, List.foldl_nil]
    simp only [AddHash.step, SATSolver.new_var, SATSolver.add_xor_clause, SATSolver.nVars,
      h1, h2, h3, h4, h5, h6, h7, List.map_append, List.map_cons, List.map_nil,
      Nat.add_sub_cancel, List.append_assoc]
    exact ⟨by omega, trivial, trivial, trivial, trivial, trivial, trivial⟩

/-- The XORs `AddHash(k)` submits, in closed form: the `i`-th has the variable list
`AddHash.vars` on the `i`-th block of the generated bits, headed by the new variable, and its
rhs is `false` whatever the bits are. -/
theorem AddHash_xors (independent_vars : List Nat) (k : Nat) (solver : SATSolver)
    (assumptions : List Lit) (e : RandomEngine) :
    (AddHash independent_vars k solver assumptions e).1.xors =
      solver.xors ++ (List.range k).map (fun i =>
        (AddHash.vars independent_vars
          (GenerateRandomBits "" (((independent_vars.length + 1) * k) % 2 ^ 32) e).1 i
          (solver.numVars + i), false)) := by
  simp only [AddHash]
  rw [(AddHash.fold_spec independent_vars _ k (solver, assumptions)).2.1]
  simp only [AddHash.rhs_generated]

/-! ## `ApproxMC` on a solver that answers UNSAT to every call, in general -/

theorem BoundedSATCount.loop_frame (independent_vars : List Nat)
    (maxSolutions activationVar : Nat) (allSATAssumptions : List Lit) :
    ∀ (fuel : Nat) (st : CountLoop),
      (BoundedSATCount.loop independent_vars maxSolutions activationVar allSATAssumptions
          fuel st).solver.answers = st.solver.answers ∧
      (BoundedSATCount.loop independent_vars maxSolutions activationVar allSATAssumptions
          fuel st).solver.numVars = st.solver.numVars := by
  intro fuel
  induction fuel with
  | zero => intro st; exact ⟨rfl, rfl⟩
  | succ fuel ih =>
    intro st
    simp only [BoundedSATCount.loop]
    split
    · have hnum : (BoundedSATCount.body independent_vars maxSolutions activationVar
          allSATAssumptions st).solver.numVars = st.solver.numVars := by
        simp only [BoundedSATCount.body]
        split <;> rfl
      rw [(ih _).1, (ih _).2, BoundedSATCount.body_answers, hnum]
      exact ⟨rfl, rfl⟩
    · exact ⟨rfl, rfl⟩

/-- `BoundedSATCount` creates exactly one variable and leaves the answers to come unchanged. -/
theorem BoundedSATCount_frame (independent_vars : List Nat) (maxSolutions : Nat)
    (solver : SATSolver) (assumptions : List Lit) :
    (BoundedSATCount independent_vars maxSolutions solver assumptions).2.answers =
        solver.answers ∧
    (BoundedSATCount independent_vars maxSolutions solver assumptions).2.numVars =
        solver.numVars + 1 := by
  have h := BoundedSATCount.loop_frame independent_vars maxSolutions (solver.new_var.nVars - 1)
    (assumptions ++ [Lit.mk (solver.new_var.nVars - 1) true]) maxSolutions
    ⟨0, l_True, solver.new_var⟩
  simp only [BoundedSATCount]
  split
  · exact ⟨h.1, h.2⟩
  · exact ⟨h.1, h.2⟩

theorem findMin_replicate_zero (t : Nat) (ht : 1 ≤ t) : findMin (List.replicate t 0) = 0 := by
  obtain ⟨t, rfl⟩ : ∃ k, t = k + 1 := ⟨t - 1, by omega⟩
  have h : ∀ k : Nat, (List.replicate k (0 : Int)).foldl
      (fun min x => if x < min then x else min) 0 = 0 := by
    intro k
    induction k with
    | zero => rfl
    | succ k ih => simpa [List.replicate_succ] using ih
  simp only [findMin, List.replicate_succ, List.foldl_cons]
  exact h t

theorem scale_replicate (t : Nat) :
    ApproxMC.scale 0 (List.replicate t 0) (List.replicate t 1) = List.replicate t 1 := by
  induction t with
  | zero => rfl
  | succ t ih => simp [List.replicate_succ, ApproxMC.scale, ih]

theorem getD_replicate_one (k i : Nat) (h : i < k) :
    (List.replicate k (1 : Int)).getD i 0 = 1 := by
  rw [List.getD_eq_getElem?_getD, List.getElem?_replicate, if_pos h]
  rfl

theorem findMedian_replicate_one (t : Nat) (ht : 1 ≤ t) :
    findMedian (List.replicate t 1) = 1 := by
  have hsort : (List.replicate t (1 : Int)).insertionSort (fun a b => a ≤ b) =
      List.replicate t 1 :=
    List.Sorted.insertionSort_eq (List.pairwise_replicate.mpr (Or.inr (le_refl _)))
  simp only [findMedian, hsort, List.length_replicate]
  split
  · exact getD_replicate_one _ _ (by omega)
  · exact getD_replicate_one _ _ (by omega)

/-- The aggregation of `ApproxMC` on `t ≥ 1` records that are all (hashCount 0, count 1). -/
theorem ApproxMC.aggregate_unsat (t : Nat) (ht : 1 ≤ t) :
    ApproxMC.aggregate (List.replicate t 0) (List.replicate t 1) = ⟨1, 0⟩ := by
  have hlen : ¬ (List.replicate t (0 : Int)).length = 0 := by
    rw [List.length_replicate]; omega
  simp only [ApproxMC.aggregate, if_neg hlen, findMin_replicate_zero t ht, scale_replicate,
    findMedian_replicate_one t ht]

/-- One trial of `ApproxMC` on a solver that answers UNSAT to every call, with at least one
variable and a deadline that never fires: the first `BoundedSATCount` returns 1, which is
neither `≤ 0` nor `pivot + 1`, so the loop is left at `hashCount = 0` with count 1. -/
theorem ApproxMC.inner_unsat (independent_vars : List Nat) (conf : ApproxMCConf)
    (hP : 1 ≤ conf.pivotApproxMC) (hP2 : conf.pivotApproxMC + 1 < 2 ^ 31) (fuel : Nat)
    (st : MCState) (hv : 1 ≤ st.solver.numVars)
    (hans : ∀ i, (st.solver.answers i).ret = l_False)
    (hclk : ∀ k, st.clock.fires k = false) :
    ApproxMC.inner independent_vars conf (fuel + 1) 0 st =
      (some 0, { st with
        clock := st.clock.poll.2, elapsedOver := false, currentNumSolutions := 1,
        solver := (BoundedSATCount independent_vars (conf.pivotApproxMC + 1) st.solver
          st.assumptions).2,
        calls := st.calls ++ [⟨0, st.assumptions, st.repeatTry, st.solver, 1⟩] }) := by
  have hmod : (conf.pivotApproxMC + 1) % 2 ^ 32 = conf.pivotApproxMC + 1 :=
    Nat.mod_eq_of_lt (by omega)
  have hcount : (BoundedSATCount independent_vars (conf.pivotApproxMC + 1) st.solver
      st.assumptions).1 = 1 := by
    have := BoundedSATCount_unsat_end independent_vars (conf.pivotApproxMC + 1) 0 st.solver
      st.assumptions (by omega) hP2 (fun i hi => absurd hi (Nat.not_lt_zero i)) (hans _)
    simpa using this
  have hlt : 0 < st.solver.nVars := hv
  have hpoll : st.clock.poll.1 = false := hclk _
  have hne : ¬ ((1 : Int) = ((conf.pivotApproxMC + 1 : Nat) : Int)) := by
    push_cast
    omega
  rw [ApproxMC.inner.eq_def]
  simp only [hlt, if_true, hpoll, hmod, hcount, hne, if_false, Bool.false_eq_true]
  rw [if_neg (by decide)]

/-- The trials of `ApproxMC` on a solver that answers UNSAT to every call: each of them
records (hashCount 0, count 1). -/
theorem ApproxMC.trials_unsat (independent_vars : List Nat) (conf : ApproxMCConf)
    (hP : 1 ≤ conf.pivotApproxMC) (hP2 : conf.pivotApproxMC + 1 < 2 ^ 31) (fuel : Nat) :
    ∀ (t : Nat) (st : MCState), 1 ≤ st.solver.numVars →
      (∀ i, (st.solver.answers i).ret = l_False) → (∀ k, st.clock.fires k = false) →
      ∃ st1, ApproxMC.trials independent_vars conf (fuel + 1) t st = (true, st1) ∧
        st1.numHashList = st.numHashList ++ List.replicate t 0 ∧
        st1.numCountList = st.numCountList ++ List.replicate t 1 := by
  intro t
  induction t with
  | zero => intro st _ _ _; exact ⟨st, rfl, by simp, by simp⟩
  | succ t ih =>
    intro st hv hans hclk
    have hframe := BoundedSATCount_frame independent_vars (conf.pivotApproxMC + 1) st.solver
      st.assumptions
    rw [ApproxMC.trials.eq_def]
    simp only [ApproxMC.inner_unsat independent_vars conf hP hP2 fuel st hv hans hclk,
      Bool.false_eq_true, if_false]
    obtain ⟨st1, h1, h2, h3⟩ := ih
      { solver := (BoundedSATCount independent_vars (conf.pivotApproxMC + 1) st.solver
          st.assumptions).2,
        randomEngine := st.randomEngine, clock := st.clock.poll.2, assumptions := [],
        repeatTry := st.repeatTry, elapsedOver := false, currentNumSolutions := 1,
        numHashList := st.numHashList ++ [toInt32 0],
        numCountList := st.numCountList ++ [1],
        calls := st.calls ++ [⟨0, st.assumptions, st.repeatTry, st.solver, 1⟩] }
      (by rw [hframe.2]; omega) (by intro i; rw [hframe.1]; exact hans i) hclk
    refine ⟨st1, h1, ?_, ?_⟩
    · rw [h2, List.replicate_succ, List.append_assoc]; rfl
    · rw [h3, List.replicate_succ, List.append_assoc]; rfl

/-- What `ApproxMC` returns on an input with at least one variable when the solver answers
UNSAT to every call and the deadline never fires, for every pivot P ≥ 1 and every trial count
t ≥ 1: the pair (1, 0), after one inner iteration per trial. -/
theorem ApproxMC_unsat (independent_vars : List Nat) (conf : ApproxMCConf) (fuel : Nat)
    (solver : SATSolver) (e : RandomEngine) (clock : Clock)
    (hP : 1 ≤ conf.pivotApproxMC) (hP2 : conf.pivotApproxMC + 1 < 2 ^ 31)
    (ht : 1 ≤ conf.tApproxMC) (hfuel : 1 ≤ fuel) (hv : 1 ≤ solver.nVars)
    (hans : ∀ i, (solver.answers i).ret = l_False) (hclk : ∀ k, clock.fires k = false) :
    (ApproxMC independent_vars conf fuel solver e clock).map (fun r => r.1) = some ⟨1, 0⟩ := by
  obtain ⟨fuel, rfl⟩ : ∃ f, fuel = f + 1 := ⟨fuel - 1, by omega⟩
  obtain ⟨st1, h1, h2, h3⟩ := ApproxMC.trials_unsat independent_vars conf hP hP2 fuel
    conf.tApproxMC (ApproxMC.start solver e clock) hv hans hclk
  have h2a : st1.numHashList = List.replicate conf.tApproxMC 0 := by
    rw [h2]; rfl
  have h3a : st1.numCountList = List.replicate conf.tApproxMC 1 := by
    rw [h3]; rfl
  simp only [ApproxMC, h1, Option.map_some', h2a, h3a, ApproxMC.aggregate_unsat _ ht]

end Main

/-! ## The projection string, in general -/

theorem join_cons (x : String) (xs : List String) :
    String.join (x :: xs) = x ++ String.join xs := by
  apply String.ext
  simp [String.join_eq]

/-- The string-building loop of `BoundedSAT` appends, to what it starts from, one signed index
and one blank per variable when the model defines every variable. -/
theorem Main.solutionString_loop (model : List lbool) :
    ∀ (independent_vars : List Nat) (start : String),
      (∀ var, var ∈ independent_vars → modelAt model var ≠ l_Undef) →
      independent_vars.foldl
        (fun (solution : String) var =>
          if modelAt model var ≠ l_Undef then
            let solution := if modelAt model var ≠ l_True then solution ++ "-" else solution
            let solution := solution ++ toString (var + 1)
            solution ++ " "
          else solution)
        start =
      start ++ String.join (independent_vars.map (fun var =>
        (if modelAt model var = l_True then "" else "-") ++ toString (var + 1) ++ " ")) := by
  intro independent_vars
  induction independent_vars with
  | nil => intro start _; simp [String.join]
  | cons var rest ih =>
    intro start hdef
    have hv : modelAt model var ≠ l_Undef := hdef var (List.mem_cons_self _ _)
    rw [List.foldl_cons, ih _ (fun w hw => hdef w (List.mem_cons_of_mem _ hw)), List.map_cons,
      join_cons]
    simp only [hv, ne_eq, not_false_eq_true, if_true]
    by_cases ht : modelAt model var = l_True
    · simp [ht, String.append_assoc]
    · simp [ht, String.append_assoc]

/-! ## Length of the generated random bits -/

theorem log2_le : ∀ (fuel x k : Nat), x < 2 ^ (k + 1) → log2 fuel x ≤ k := by
  intro fuel
  induction fuel with
  | zero => intro x k _; simp [log2]
  | succ fuel ih =>
    intro x k hx
    simp only [log2]
    split
    · cases k with
      | zero => omega
      | succ k =>
        have : x / 2 < 2 ^ (k + 1) := by
          rw [Nat.div_lt_iff_lt_mul (by decide)]
          rw [Nat.pow_succ] at hx
          exact hx
        have := ih (x / 2) k this
        omega
    · omega

theorem binary.digits_length : ∀ (fuel x : Nat) (s : String), 0 < fuel → x < 2 ^ fuel →
    (binary.digits fuel x s).length = s.length + log2 fuel x + 1 := by
  intro fuel
  induction fuel with
  | zero => intro x s h; omega
  | succ fuel ih =>
    intro x s _ hx
    simp only [binary.digits, log2]
    have hhalf : x / 2 < 2 ^ fuel := by
      rw [Nat.div_lt_iff_lt_mul (by decide)]
      rw [Nat.pow_succ] at hx
      exact hx
    by_cases h2 : 2 ≤ x
    · have hne : x / 2 ≠ 0 := by omega
      have hfuel : 0 < fuel := by
        rcases Nat.eq_zero_or_pos fuel with h0 | h0
        · rw [h0] at hhalf; omega
        · exact h0
      rw [if_pos hne, if_pos h2, ih _ _ hfuel hhalf, String.length_push]
      omega
    · have he : ¬ x / 2 ≠ 0 := by omega
      rw [if_neg he, if_neg h2, String.length_push]

/-- A block `binary(x, 31)` of a 31-bit number has exactly 31 characters. -/
theorem binary_length (x : Nat) (hx : x < 2 ^ 31) : (binary x 31).length = 31 := by
  have hpad : ∀ (l : List Nat) (s : String),
      (l.foldl (fun s _ => s.push '0') s).length = s.length + l.length := by
    intro l
    induction l with
    | nil => intro s; rfl
    | cons a l ih => intro s; rw [List.foldl_cons, ih, String.length_push, List.length_cons]; omega
  have hmod : x % 2 ^ 32 = x := Nat.mod_eq_of_lt (by omega)
  have hlog : log2 32 x ≤ 30 := log2_le 32 x 30 hx
  have hlogSize : (if x = 0 then 1 else log2 32 x + 1) = log2 32 x + 1 := by
    split
    · rename_i h0; rw [h0]; rfl
    · rfl
  have hdig := binary.digits_length 32 x "" (by decide) (by omega)
  simp only [binary, hmod, hlogSize]
  show (List.reverse _).length = 31
  rw [List.length_reverse]
  have := hpad (List.range (31 - (log2 32 x + 1))) (binary.digits 32 x "")
  rw [String.length] at this
  rw [this, hdig, List.length_range]
  show 0 + log2 32 x + 1 + _ = 31
  omega

namespace Main

theorem GenerateRandomBits.loop_length (size : Nat) (hsize : size + 31 ≤ 2 ^ 32) :
    ∀ (fuel i : Nat) (randomBits : String) (e : RandomEngine), size - i ≤ fuel →
      (GenerateRandomBits.loop size fuel i randomBits e).1.length =
        randomBits.length + 31 * ((size - i + 30) / 31) := by
  intro fuel
  induction fuel with
  | zero =>
    intro i randomBits e h
    simp only [GenerateRandomBits.loop]
    omega
  | succ fuel ih =>
    intro i randomBits e h
    simp only [GenerateRandomBits.loop]
    split
    · rename_i hlt
      have hwrap : (i + 31) % 2 ^ 32 = i + 31 := Nat.mod_eq_of_lt (by omega)
      have hblock : (binary (e.uid 2147483647).1 31).length = 31 :=
        binary_length _ (by
          show e.draws e.pos % (2147483647 + 1) < 2 ^ 31
          exact Nat.mod_lt _ (by decide))
      rw [hwrap, ih _ _ _ (by omega), String.length_append, hblock]
      omega
    · show randomBits.length = _
      omega

end Main

/-! ## Clauses added by the enumerators -/

namespace Main

/-- `BoundedSAT` in terms of its first part `BoundedSAT.enumerate`. -/
theorem BoundedSAT_eq_enumerate (independent_vars : List Nat) (multisample : Bool)
    (maxSolutions minSolutions : Nat) (solver : SATSolver) (assumptions : List Lit)
    (e : RandomEngine) (solutionMap : SolutionMap) :
    BoundedSAT independent_vars multisample maxSolutions minSolutions solver assumptions e
        solutionMap =
      (if (BoundedSAT.enumerate independent_vars maxSolutions solver
            assumptions).current_nr_of_solutions < maxSolutions ∧
          (BoundedSAT.enumerate independent_vars maxSolutions solver
            assumptions).current_nr_of_solutions > minSolutions then
        match BoundedSAT.emit independent_vars
            (BoundedSAT.enumerate independent_vars maxSolutions solver assumptions).modelsSet
            (shuffle ((List.range (BoundedSAT.enumerate independent_vars maxSolutions solver
              assumptions).modelsSet.length).foldl (fun l i => l ++ [i]) []) e).1
            (SolutionsToReturn multisample minSolutions) 0 solutionMap with
        | none => none
        | some solutionMap1 =>
          some ⟨l_True,
            (BoundedSAT.enumerate independent_vars maxSolutions solver assumptions).solver,
            (shuffle ((List.range (BoundedSAT.enumerate independent_vars maxSolutions solver
              assumptions).modelsSet.length).foldl (fun l i => l ++ [i]) []) e).2,
            solutionMap1,
            (BoundedSAT.enumerate independent_vars maxSolutions solver
              assumptions).modelsSet.length⟩
      else
        some ⟨l_False,
          (BoundedSAT.enumerate independent_vars maxSolutions solver assumptions).solver, e,
          solutionMap,
          (BoundedSAT.enumerate independent_vars maxSolutions solver
            assumptions).modelsSet.length⟩) := rfl

/-- The loop of `BoundedSAT` runs the loop of `BoundedSATCount` on its counter, verdict and
solver. -/
theorem BoundedSAT.loop_toCount (independent_vars : List Nat)
    (maxSolutions activationVar : Nat) (allSATAssumptions : List Lit) :
    ∀ (fuel : Nat) (st : SampleLoop),
      (BoundedSAT.loop independent_vars maxSolutions activationVar allSATAssumptions
          fuel st).toCount =
        BoundedSATCount.loop independent_vars maxSolutions activationVar allSATAssumptions
          fuel st.toCount := by
  intro fuel
  induction fuel with
  | zero => intro st; rfl
  | succ fuel ih =>
    intro st
    simp only [BoundedSAT.loop, BoundedSATCount.loop]
    have hb : (BoundedSAT.body independent_vars maxSolutions activationVar allSATAssumptions
        st).toCount =
        BoundedSATCount.body independent_vars maxSolutions activationVar allSATAssumptions
          st.toCount := by
      simp only [BoundedSAT.body, BoundedSATCount.body, SampleLoop.toCount]
      split <;> rfl
    show (if st.current_nr_of_solutions < maxSolutions ∧ st.ret = l_True then _ else _
      : SampleLoop).toCount = _
    split
    · rw [ih, hb]
      simp only [SampleLoop.toCount, if_pos (by assumption)]
    · simp only [SampleLoop.toCount, if_neg (by assumption)]

/-- The solver that `BoundedSAT` holds after its cleanup clause is the solver that
`BoundedSATCount` returns on the same arguments. -/
theorem BoundedSAT.enumerate_solver (independent_vars : List Nat) (maxSolutions : Nat)
    (solver : SATSolver) (assumptions : List Lit) :
    (BoundedSAT.enumerate independent_vars maxSolutions solver assumptions).solver =
      (BoundedSATCount independent_vars maxSolutions solver assumptions).2 := by
  have h := BoundedSAT.loop_toCount independent_vars maxSolutions (solver.new_var.nVars - 1)
    (assumptions ++ [Lit.mk (solver.new_var.nVars - 1) true]) maxSolutions
    ⟨0, l_True, solver.new_var, []⟩
  have hs := congrArg CountLoop.solver h
  simp only [SampleLoop.toCount] at hs
  simp only [BoundedSAT.enumerate, BoundedSATCount]
  rw [hs]
  split <;> rfl

end Main

namespace Main

/-- The loop of `BoundedSAT` appends to the clauses of the solver one blocking clause per
model it saves, in the order in which it saves them, and nothing else. -/
theorem BoundedSAT.loop_clauses (independent_vars : List Nat)
    (maxSolutions activationVar : Nat) (allSATAssumptions : List Lit) :
    ∀ (fuel : Nat) (st : SampleLoop), ∃ ms,
      (BoundedSAT.loop independent_vars maxSolutions activationVar allSATAssumptions
          fuel st).modelsSet = st.modelsSet ++ ms ∧
      (BoundedSAT.loop independent_vars maxSolutions activationVar allSATAssumptions
          fuel st).solver.clauses =
        st.solver.clauses ++ ms.map (banLits independent_vars activationVar) := by
  intro fuel
  induction fuel with
  | zero => intro st; exact ⟨[], by simp [BoundedSAT.loop], by simp [BoundedSAT.loop]⟩
  | succ fuel ih =>
    intro st
    simp only [BoundedSAT.loop]
    split
    · obtain ⟨ms, h1, h2⟩ := ih (BoundedSAT.body independent_vars maxSolutions activationVar
        allSATAssumptions st)
      by_cases hsat : (st.solver.solve allSATAssumptions).1 = l_True ∧
          st.current_nr_of_solutions + 1 < maxSolutions
      · refine ⟨(st.solver.solve allSATAssumptions).2.get_model :: ms, ?_, ?_⟩
        · rw [h1]
          simp only [BoundedSAT.body, if_pos hsat, List.append_assoc, List.singleton_append]
        · rw [h2]
          simp only [BoundedSAT.body, if_pos hsat]
          simp only [SATSolver.add_clause, SATSolver.solve, List.append_assoc,
            List.singleton_append, List.map_cons]
      · refine ⟨ms, ?_, ?_⟩
        · rw [h1]
          simp only [BoundedSAT.body, if_neg hsat]
        · rw [h2]
          simp only [BoundedSAT.body, if_neg hsat]
          simp only [SATSolver.solve]
    · exact ⟨[], by simp, by simp⟩

/-- The clauses of the solver after the first part of `BoundedSAT`: those it held before, one
blocking clause per saved model, then the cleanup clause. -/
theorem BoundedSAT.enumerate_clauses (independent_vars : List Nat) (maxSolutions : Nat)
    (solver : SATSolver) (assumptions : List Lit) :
    (BoundedSAT.enumerate independent_vars maxSolutions solver assumptions).solver.clauses =
      solver.clauses ++
        (BoundedSAT.enumerate independent_vars maxSolutions solver assumptions).modelsSet.map
          (banLits independent_vars solver.numVars) ++
        [[Lit.mk solver.numVars false]] := by
  obtain ⟨ms, h1, h2⟩ := BoundedSAT.loop_clauses independent_vars maxSolutions
    (solver.new_var.nVars - 1) (assumptions ++ [Lit.mk (solver.new_var.nVars - 1) true])
    maxSolutions ⟨0, l_True, solver.new_var, []⟩
  have he : solver.new_var.nVars - 1 = solver.numVars := Nat.add_sub_cancel solver.numVars 1
  rw [he] at h1 h2
  simp only [BoundedSAT.enumerate, SATSolver.add_clause, he]
  rw [h1, h2]
  rfl

end Main

/-! ## Meaning of the blocking and cleanup clauses -/

namespace Main

/-- The blocking clause in closed form: the positive literal of the activation variable, then
for each independent variable that the model defines the literal that the model falsifies. -/
theorem banLits_eq (independent_vars : List Nat) (activationVar : Nat) (model : List lbool) :
    banLits independent_vars activationVar model =
      Lit.mk activationVar false :: independent_vars.filterMap (fun var =>
        if modelAt model var ≠ l_Undef then
          some (Lit.mk var (decide (modelAt model var = l_True)))
        else none) := by
  have h : ∀ (l : List Nat) (acc : List Lit),
      l.foldl (fun lits var =>
        if modelAt model var ≠ l_Undef then
          lits ++ [Lit.mk var (decide (modelAt model var = l_True))]
        else lits) acc =
      acc ++ l.filterMap (fun var =>
        if modelAt model var ≠ l_Undef then
          some (Lit.mk var (decide (modelAt model var = l_True)))
        else none) := by
    intro l
    induction l with
    | nil => intro acc; simp
    | cons v l ih =>
      intro acc
      rw [List.foldl_cons, ih]
      by_cases hv : modelAt model v = l_Undef
      · simp [hv]
      · simp [hv]
  rw [banLits, h]
  rfl

theorem BoundedSATCount.loop_xors (independent_vars : List Nat)
    (maxSolutions activationVar : Nat) (allSATAssumptions : List Lit) :
    ∀ (fuel : Nat) (st : CountLoop),
      (BoundedSATCount.loop independent_vars maxSolutions activationVar allSATAssumptions
          fuel st).solver.xors = st.solver.xors := by
  intro fuel
  induction fuel with
  | zero => intro st; rfl
  | succ fuel ih =>
    intro st
    simp only [BoundedSATCount.loop]
    split
    · rw [ih]
      simp only [BoundedSATCount.body]
      split <;> rfl
    · rfl

/-- `BoundedSATCount` adds no XOR. -/
theorem BoundedSATCount_xors (independent_vars : List Nat) (maxSolutions : Nat)
    (solver : SATSolver) (assumptions : List Lit) :
    (BoundedSATCount independent_vars maxSolutions solver assumptions).2.xors = solver.xors := by
  have h := BoundedSATCount.loop_xors independent_vars maxSolutions (solver.new_var.nVars - 1)
    (assumptions ++ [Lit.mk (solver.new_var.nVars - 1) true]) maxSolutions
    ⟨0, l_True, solver.new_var⟩
  simp only [BoundedSATCount]
  split
  · exact h
  · exact h

end Main

/-- A clause that does not mention the variable `e` has the same truth value whatever `e` is
given. -/
theorem clauseHolds_update (σ : Nat → Bool) (e : Nat) (b : Bool) (c : List Lit)
    (h : ∀ l, l ∈ c → l.var ≠ e) :
    clauseHolds (Function.update σ e b) c = clauseHolds σ c := by
  unfold clauseHolds
  induction c with
  | nil => rfl
  | cons l c ih =>
    have hl : litHolds (Function.update σ e b) l = litHolds σ l := by
      unfold litHolds
      rw [Function.update_noteq (h l (List.mem_cons_self _ _))]
    rw [List.any_cons, List.any_cons, hl, ih (fun l1 h1 => h l1 (List.mem_cons_of_mem _ h1))]

theorem all_eq_of_forall_mem {α : Type} (f g : α → Bool) (l : List α)
    (h : ∀ x, x ∈ l → f x = g x) : l.all f = l.all g := by
  induction l with
  | nil => rfl
  | cons a l ih =>
    rw [List.all_cons, List.all_cons, h a (List.mem_cons_self _ _),
      ih (fun x hx => h x (List.mem_cons_of_mem _ hx))]

/-- A clause that contains the positive literal of `e` is true once `e` is given true. -/
theorem clauseHolds_of_mem (σ : Nat → Bool) (e : Nat) (c : List Lit)
    (h : Lit.mk e false ∈ c) : clauseHolds (Function.update σ e true) c = true := by
  unfold clauseHolds
  rw [List.any_eq_true]
  exact ⟨Lit.mk e false, h, by simp [litHolds]⟩

namespace Main

end Main

/-! ## The projection string as a key -/

theorem SolutionMap.increment_keys (m : SolutionMap) (k : String) :
    (SolutionMap.increment m k).map Prod.fst = m.map Prod.fst := by
  unfold SolutionMap.increment
  rw [List.map_map]
  apply List.map_congr_left
  intro p _
  simp only [Function.comp]
  split <;> rfl

theorem SolutionMap.increment_absent : ∀ (m : SolutionMap) (k : String),
    k ∉ m.map Prod.fst → SolutionMap.increment m k = m := by
  intro m k h
  unfold SolutionMap.increment
  conv => rhs; rw [← List.map_id m]
  apply List.map_congr_left
  intro p hp
  have : p.1 ≠ k := fun he => h (by rw [← he]; exact List.mem_map_of_mem _ hp)
  simp [this]

/-- Incrementing the count of a present key adds one to the sum of the counts, as long as
the sum stays below `2 ^ 32` (so that no 32-bit count wraps). -/
theorem SolutionMap.increment_sum : ∀ (m : SolutionMap) (k : String),
    (m.map Prod.fst).Nodup → k ∈ m.map Prod.fst → (m.map Prod.snd).sum + 1 < 2 ^ 32 →
    ((SolutionMap.increment m k).map Prod.snd).sum = (m.map Prod.snd).sum + 1 := by
  intro m
  induction m with
  | nil => intro k _ h; exact absurd h (List.not_mem_nil _)
  | cons p m ih =>
    intro k hnodup hk hfit
    rw [List.map_cons, List.nodup_cons] at hnodup
    rw [List.map_cons, List.sum_cons] at hfit
    have hcons : SolutionMap.increment (p :: m) k =
        (if p.1 = k then (p.1, (p.2 + 1) % 2 ^ 32) else p) :: SolutionMap.increment m k := rfl
    rw [hcons]
    by_cases hp : p.1 = k
    · rw [if_pos hp, SolutionMap.increment_absent m k (by rw [← hp]; exact hnodup.1)]
      have hmod : (p.2 + 1) % 2 ^ 32 = p.2 + 1 := Nat.mod_eq_of_lt (by omega)
      simp only [List.map_cons, List.sum_cons, hmod]
      omega
    · rw [if_neg hp]
      rw [List.map_cons, List.mem_cons] at hk
      rcases hk with hk | hk
      · exact absurd hk.symm hp
      · simp only [List.map_cons, List.sum_cons, ih k hnodup.2 hk (by omega)]
        omega

/-- Recording one sample keeps the keys of the map distinct and, as long as the sum of the
counts stays below `2 ^ 32`, adds one to it. -/
theorem SolutionMap.record_sum (m : SolutionMap) (k : String)
    (hnodup : (m.map Prod.fst).Nodup) (hfit : (m.map Prod.snd).sum + 1 < 2 ^ 32) :
    ((SolutionMap.record m k).map Prod.fst).Nodup ∧
    ((SolutionMap.record m k).map Prod.snd).sum = (m.map Prod.snd).sum + 1 := by
  unfold SolutionMap.record
  rw [SolutionMap.increment_keys]
  by_cases hk : k ∈ m.map Prod.fst
  · have hany : m.any (fun p => decide (p.1 = k)) = true := by
      rw [List.any_eq_true]
      rw [List.mem_map] at hk
      obtain ⟨p, hp, hpk⟩ := hk
      exact ⟨p, hp, by simp [hpk]⟩
    have hins : SolutionMap.insertZero m k = m := by
      unfold SolutionMap.insertZero
      rw [if_pos hany]
    rw [hins]
    exact ⟨hnodup, SolutionMap.increment_sum m k hnodup hk hfit⟩
  · have hany : ¬ m.any (fun p => decide (p.1 = k)) = true := by
      rw [List.any_eq_true]
      intro ⟨p, hp, hpk⟩
      exact hk (List.mem_map.mpr ⟨p, hp, by simpa using hpk⟩)
    have hins : SolutionMap.insertZero m k = m ++ [(k, 0)] := by
      unfold SolutionMap.insertZero
      rw [if_neg hany]
    rw [hins]
    have hnodup2 : ((m ++ [(k, 0)]).map Prod.fst).Nodup := by
      rw [List.map_append, List.map_singleton]
      exact List.Nodup.append hnodup (List.nodup_singleton _)
        (by
          intro a ha hb
          rw [List.mem_singleton] at hb
          have hb1 : a = k := hb
          rw [hb1] at ha
          exact hk ha)
    refine ⟨hnodup2, ?_⟩
    have hsum : ((m ++ [(k, 0)]).map Prod.snd).sum = (m.map Prod.snd).sum := by simp
    rw [SolutionMap.increment_sum _ k hnodup2 (by simp) (by rw [hsum]; exact hfit), hsum]

/-- The sampling loop of `BoundedSAT`, when it does not throw, records exactly as many samples
as it was asked for (the sum of the counts staying below `2 ^ 32`). -/
theorem Main.BoundedSAT.emit_sum (independent_vars : List Nat) (modelsSet : List (List lbool))
    (modelIndices : List Nat) :
    ∀ (remaining i : Nat) (m m1 : SolutionMap), (m.map Prod.fst).Nodup →
      (m.map Prod.snd).sum + remaining < 2 ^ 32 →
      Main.BoundedSAT.emit independent_vars modelsSet modelIndices remaining i m = some m1 →
      (m1.map Prod.fst).Nodup ∧ (m1.map Prod.snd).sum = (m.map Prod.snd).sum + remaining := by
  intro remaining
  induction remaining with
  | zero =>
    intro i m m1 hnodup _ h
    simp only [Main.BoundedSAT.emit, Option.some.injEq] at h
    rw [← h]
    exact ⟨hnodup, rfl⟩
  | succ remaining ih =>
    intro i m m1 hnodup hfit h
    simp only [Main.BoundedSAT.emit] at h
    split at h
    · exact absurd h (by simp)
    · split at h
      · exact absurd h (by simp)
      · rename_i model _
        have hrec := SolutionMap.record_sum m (Main.solutionString independent_vars model) hnodup
          (by omega)
        have := ih _ _ _ hrec.1 (by rw [hrec.2]; omega) h
        exact ⟨this.1, by rw [this.2, hrec.2]; omega⟩

/-- The vector `modelIndices` that `BoundedSAT` fills holds 0, 1, ... in order. -/
theorem Main.BoundedSAT.modelIndices_eq (n : Nat) :
    (List.range n).foldl (fun l i => l ++ [i]) [] = List.range n := by
  have hfold : ∀ (l : List Nat) (acc : List Nat),
      l.foldl (fun l i => l ++ [i]) acc = acc ++ l := by
    intro l
    induction l with
    | nil => intro acc; simp
    | cons a l ih => intro acc; simp [ih]
  rw [hfold, List.nil_append]

/-- Exchanging two entries keeps the length of a vector. -/
theorem swapAt_length (xs : List Nat) (i k : Nat) : (swapAt xs i k).length = xs.length := by
  simp [swapAt]

/-- Exchanging two entries at positions inside a vector brings in no new entry. -/
theorem swapAt_mem (xs : List Nat) (i k : Nat) (hi : i < xs.length) (hk : k < xs.length) :
    ∀ x, x ∈ swapAt xs i k → x ∈ xs := by
  intro x hx
  unfold swapAt at hx
  rcases List.mem_or_eq_of_mem_set hx with h | h
  · rcases List.mem_or_eq_of_mem_set h with h2 | h2
    · exact h2
    · rw [h2, List.getD_eq_getElem _ _ hk]
      exact List.getElem_mem _
  · rw [h, List.getD_eq_getElem _ _ hi]
    exact List.getElem_mem _

/-- The exchange steps of `shuffle` keep the length of the vector and bring in no new entry. -/
theorem shuffle_fold_bounds (xs : List Nat) :
    ∀ (l : List Nat) (acc : List Nat × RandomEngine),
      (∀ i, i ∈ l → i < xs.length) → acc.1.length = xs.length → (∀ x, x ∈ acc.1 → x ∈ xs) →
      (l.foldl
        (fun (acc : List Nat × RandomEngine) i =>
          if i = 0 then acc
          else (swapAt acc.1 i (acc.2.uid i).1, (acc.2.uid i).2)) acc).1.length = xs.length ∧
      ∀ x, x ∈ (l.foldl
        (fun (acc : List Nat × RandomEngine) i =>
          if i = 0 then acc
          else (swapAt acc.1 i (acc.2.uid i).1, (acc.2.uid i).2)) acc).1 → x ∈ xs := by
  intro l
  induction l with
  | nil => intro acc _ hlen hmem; exact ⟨hlen, hmem⟩
  | cons a l ih =>
    intro acc hl hlen hmem
    rw [List.foldl_cons]
    apply ih
    · intro i hi
      exact hl i (List.mem_cons_of_mem _ hi)
    · split
      · exact hlen
      · show (swapAt acc.1 a (acc.2.uid a).1).length = xs.length
        rw [swapAt_length, hlen]
    · split
      · exact hmem
      · intro x hx
        have ha : a < xs.length := hl a (List.mem_cons_self _ _)
        have hdraw : (acc.2.uid a).1 < acc.1.length := by
          show acc.2.draws acc.2.pos % (a + 1) < acc.1.length
          have := Nat.mod_lt (acc.2.draws acc.2.pos) (by omega : 0 < a + 1)
          omega
        exact hmem x (swapAt_mem acc.1 a _ (by omega) hdraw x hx)

/-- The library call `std::shuffle` returns a vector of the same length whose entries are
entries of the vector it was given. -/
theorem shuffle_bounds (xs : List Nat) (e : RandomEngine) :
    (shuffle xs e).1.length = xs.length ∧ ∀ x, x ∈ (shuffle xs e).1 → x ∈ xs :=
  shuffle_fold_bounds xs (List.range xs.length) (xs, e)
    (fun _ hi => List.mem_range.mp hi) rfl (fun _ hx => hx)

/-- The sampling loop of `BoundedSAT` does not throw when the index vector is long enough and
indexes saved models only. -/
theorem Main.BoundedSAT.emit_returns (independent_vars : List Nat)
    (modelsSet : List (List lbool)) (modelIndices : List Nat)
    (hidx : ∀ x, x ∈ modelIndices → x < modelsSet.length) :
    ∀ (remaining i : Nat) (m : SolutionMap), i + remaining ≤ modelIndices.length →
      ∃ m1, Main.BoundedSAT.emit independent_vars modelsSet modelIndices remaining i m =
        some m1 := by
  intro remaining
  induction remaining with
  | zero => intro i m _; exact ⟨m, rfl⟩
  | succ remaining ih =>
    intro i m hlen
    have hi : i < modelIndices.length := by omega
    have hx : modelIndices[i] < modelsSet.length := hidx _ (List.getElem_mem _)
    simp only [Main.BoundedSAT.emit, List.get?_eq_getElem?, List.getElem?_eq_getElem hi,
      List.getElem?_eq_getElem hx]
    exact ih (i + 1) _ (by omega)

/-- The sampling loop of `BoundedSAT` throws when it is asked for more samples than the index
vector has entries left. -/
theorem Main.BoundedSAT.emit_throws (independent_vars : List Nat)
    (modelsSet : List (List lbool)) (modelIndices : List Nat) :
    ∀ (remaining i : Nat) (m : SolutionMap), i ≤ modelIndices.length →
      modelIndices.length < i + remaining →
      Main.BoundedSAT.emit independent_vars modelsSet modelIndices remaining i m = none := by
  intro remaining
  induction remaining with
  | zero => intro i m h1 h2; omega
  | succ remaining ih =>
    intro i m hi hlen
    by_cases hlt : i < modelIndices.length
    · simp only [Main.BoundedSAT.emit, List.get?_eq_getElem?, List.getElem?_eq_getElem hlt]
      split
      · rfl
      · exact ih (i + 1) _ (by omega) (by omega)
    · simp only [Main.BoundedSAT.emit, List.get?_eq_getElem?,
        List.getElem?_eq_none (by omega : modelIndices.length ≤ i)]

/-- The local variables with which `BoundedSAT` is left are those its first part
`BoundedSAT.enumerate` computes. -/
theorem Main.BoundedSAT.exit_locals (independent_vars : List Nat) (multisample : Bool)
    (maxSolutions minSolutions : Nat) (solver : SATSolver) (assumptions : List Lit)
    (e : RandomEngine) (solutionMap : SolutionMap) :
    (Main.BoundedSAT.exit independent_vars multisample maxSolutions minSolutions solver
      assumptions e solutionMap).2 =
      Main.BoundedSAT.enumerate independent_vars maxSolutions solver assumptions := rfl

/-- A call of `BoundedSAT` whose call counter is outside the band returns `l_False` and leaves
the solution map and the engine as they were. -/
theorem Main.BoundedSAT_outOfRange (independent_vars : List Nat) (multisample : Bool)
    (maxSolutions minSolutions : Nat) (solver : SATSolver) (assumptions : List Lit)
    (e : RandomEngine) (solutionMap : SolutionMap)
    (hband : ¬ ((Main.BoundedSAT.enumerate independent_vars maxSolutions solver
        assumptions).current_nr_of_solutions < maxSolutions ∧
      (Main.BoundedSAT.enumerate independent_vars maxSolutions solver
        assumptions).current_nr_of_solutions > minSolutions)) :
    Main.BoundedSAT independent_vars multisample maxSolutions minSolutions solver assumptions e
        solutionMap =
      some ⟨l_False,
        (Main.BoundedSAT.enumerate independent_vars maxSolutions solver assumptions).solver, e,
        solutionMap,
        (Main.BoundedSAT.enumerate independent_vars maxSolutions solver
          assumptions).modelsSet.length⟩ := by
  rw [Main.BoundedSAT_eq_enumerate, if_neg hband]

/-- A call of `BoundedSAT` whose call counter is inside the band and which saved at least as
many models as it has samples to return, returns `l_True` with the map the sampling loop
built. -/
theorem Main.BoundedSAT_inRange (independent_vars : List Nat) (multisample : Bool)
    (maxSolutions minSolutions : Nat) (solver : SATSolver) (assumptions : List Lit)
    (e : RandomEngine) (solutionMap : SolutionMap)
    (hband : (Main.BoundedSAT.enumerate independent_vars maxSolutions solver
        assumptions).current_nr_of_solutions < maxSolutions ∧
      (Main.BoundedSAT.enumerate independent_vars maxSolutions solver
        assumptions).current_nr_of_solutions > minSolutions)
    (henough : Main.SolutionsToReturn multisample minSolutions ≤
      (Main.BoundedSAT.enumerate independent_vars maxSolutions solver
        assumptions).modelsSet.length) :
    ∃ m1 e1,
      Main.BoundedSAT.emit independent_vars
        (Main.BoundedSAT.enumerate independent_vars maxSolutions solver assumptions).modelsSet
        (shuffle ((List.range (Main.BoundedSAT.enumerate independent_vars maxSolutions solver
          assumptions).modelsSet.length).foldl (fun l i => l ++ [i]) []) e).1
        (Main.SolutionsToReturn multisample minSolutions) 0 solutionMap = some m1 ∧
      Main.BoundedSAT independent_vars multisample maxSolutions minSolutions solver assumptions
          e solutionMap =
        some ⟨l_True,
          (Main.BoundedSAT.enumerate independent_vars maxSolutions solver assumptions).solver,
          e1, m1,
          (Main.BoundedSAT.enumerate independent_vars maxSolutions solver
            assumptions).modelsSet.length⟩ := by
  rw [Main.BoundedSAT_eq_enumerate, if_pos hband]
  generalize Main.BoundedSAT.enumerate independent_vars maxSolutions solver assumptions = st
    at henough ⊢
  have hidx := shuffle_bounds
    ((List.range st.modelsSet.length).foldl (fun l i => l ++ [i]) []) e
  rw [Main.BoundedSAT.modelIndices_eq] at hidx
  obtain ⟨m1, hm1⟩ := Main.BoundedSAT.emit_returns independent_vars st.modelsSet
    (shuffle ((List.range st.modelsSet.length).foldl (fun l i => l ++ [i]) []) e).1
    (by
      rw [Main.BoundedSAT.modelIndices_eq]
      exact fun x hx => List.mem_range.mp (hidx.2 x hx))
    (Main.SolutionsToReturn multisample minSolutions) 0 solutionMap
    (by rw [Main.BoundedSAT.modelIndices_eq, hidx.1, List.length_range]; omega)
  refine ⟨m1,
    (shuffle ((List.range st.modelsSet.length).foldl (fun l i => l ++ [i]) []) e).2, hm1, ?_⟩
  rw [hm1]

/-- A call of `BoundedSAT` whose call counter is inside the band and which saved fewer models
than it has samples to return, leaves by `std::out_of_range`. -/
theorem Main.BoundedSAT_throws (independent_vars : List Nat) (multisample : Bool)
    (maxSolutions minSolutions : Nat) (solver : SATSolver) (assumptions : List Lit)
    (e : RandomEngine) (solutionMap : SolutionMap)
    (hband : (Main.BoundedSAT.enumerate independent_vars maxSolutions solver
        assumptions).current_nr_of_solutions < maxSolutions ∧
      (Main.BoundedSAT.enumerate independent_vars maxSolutions solver
        assumptions).current_nr_of_solutions > minSolutions)
    (hfew : (Main.BoundedSAT.enumerate independent_vars maxSolutions solver
        assumptions).modelsSet.length < Main.SolutionsToReturn multisample minSolutions) :
    Main.BoundedSAT independent_vars multisample maxSolutions minSolutions solver assumptions e
        solutionMap = none := by
  rw [Main.BoundedSAT_eq_enumerate, if_pos hband]
  generalize Main.BoundedSAT.enumerate independent_vars maxSolutions solver assumptions = st
    at hfew ⊢
  have hidx := shuffle_bounds
    ((List.range st.modelsSet.length).foldl (fun l i => l ++ [i]) []) e
  rw [Main.BoundedSAT.modelIndices_eq] at hidx
  rw [Main.BoundedSAT.emit_throws independent_vars st.modelsSet _
    (Main.SolutionsToReturn multisample minSolutions) 0 solutionMap (Nat.zero_le _)
    (by rw [Main.BoundedSAT.modelIndices_eq, hidx.1, List.length_range]; omega)]

/-! ## The aggregation of `ApproxMC` does not depend on the order of the trials -/

theorem findMin_perm (l1 l2 : List Int) (h : l1.Perm l2) : findMin l1 = findMin l2 := by
  unfold findMin
  apply List.Perm.foldl_eq' h
  intro x _ y _ z
  by_cases h1 : x < z <;> by_cases h2 : y < z <;> by_cases h3 : y < x <;>
    by_cases h4 : x < y <;> simp [h1, h2, h3, h4] <;> omega

theorem findMedian_perm (l1 l2 : List Int) (h : l1.Perm l2) :
    findMedian l1 = findMedian l2 := by
  have hsort : l1.insertionSort (fun a b => a ≤ b) = l2.insertionSort (fun a b => a ≤ b) :=
    List.eq_of_perm_of_sorted
      (((List.perm_insertionSort _ l1).trans h).trans (List.perm_insertionSort _ l2).symm)
      (List.sorted_insertionSort _ l1) (List.sorted_insertionSort _ l2)
  unfold findMedian
  rw [hsort]

/-- The scaling loop of `ApproxMC` on the two lists of a list of records. -/
theorem Main.ApproxMC.scale_records (minHash : Int) (rs : List (Int × Int)) :
    Main.ApproxMC.scale minHash (rs.map Prod.fst) (rs.map Prod.snd) =
      rs.map (fun r => r.2 * 2 ^ (r.1 - minHash).toNat) := by
  induction rs with
  | nil => rfl
  | cons r rs ih => simp only [List.map_cons, Main.ApproxMC.scale, ih]

/-! ## The trials of `ApproxMC`: records and hash bank -/

namespace Main

theorem BoundedSATCount.loop_count_le (independent_vars : List Nat)
    (maxSolutions activationVar : Nat) (allSATAssumptions : List Lit) :
    ∀ (fuel : Nat) (st : CountLoop), st.current_nr_of_solutions ≤ maxSolutions →
      (BoundedSATCount.loop independent_vars maxSolutions activationVar allSATAssumptions
          fuel st).current_nr_of_solutions ≤ maxSolutions := by
  intro fuel
  induction fuel with
  | zero => intro st h; exact h
  | succ fuel ih =>
    intro st h
    rw [BoundedSATCount.loop]
    split
    · rename_i hc
      exact ih _ (by rw [BoundedSATCount.body_count]; omega)
    · exact h

/-- A positive value returned by `BoundedSATCount` is at most the cap. -/
theorem BoundedSATCount_result_le (independent_vars : List Nat) (maxSolutions : Nat)
    (solver : SATSolver) (assumptions : List Lit) (hM : maxSolutions < 2 ^ 32)
    (hpos : 0 < (BoundedSATCount independent_vars maxSolutions solver assumptions).1) :
    (BoundedSATCount independent_vars maxSolutions solver assumptions).1 ≤
      (maxSolutions : Int) := by
  have hle := BoundedSATCount.loop_count_le independent_vars maxSolutions
    (solver.new_var.nVars - 1) (assumptions ++ [Lit.mk (solver.new_var.nVars - 1) true])
    maxSolutions ⟨0, l_True, solver.new_var⟩ (Nat.zero_le _)
  simp only [BoundedSATCount] at hpos ⊢
  generalize (BoundedSATCount.loop independent_vars maxSolutions (solver.new_var.nVars - 1)
    (assumptions ++ [Lit.mk (solver.new_var.nVars - 1) true]) maxSolutions
    ⟨0, l_True, solver.new_var⟩) = st at hle hpos ⊢
  split at hpos
  · rename_i hu
    rw [if_pos hu]
    have hb : st.current_nr_of_solutions < 2 ^ 32 := by omega
    rcases Nat.eq_zero_or_pos st.current_nr_of_solutions with h0 | h0
    · rw [h0] at hpos
      have hz : toInt32 (negUnsignedLong 0) = 0 := by decide
      simp only [hz] at hpos
      exact absurd hpos (by decide)
    · have e : ((2 ^ 64 - 1) * st.current_nr_of_solutions) % 2 ^ 64 % 2 ^ 32 =
          2 ^ 32 - st.current_nr_of_solutions := by omega
      simp only [toInt32, negUnsignedLong, e] at hpos ⊢
      split at hpos <;> rename_i h1
      · rw [if_pos h1]
        omega
      · omega
  · rename_i hu
    rw [if_neg hu]
    simp only [toInt32] at hpos ⊢
    split at hpos <;> rename_i h1
    · rw [if_pos h1]
      omega
    · omega

theorem AddHash_numVars (independent_vars : List Nat) (k : Nat) (solver : SATSolver)
    (assumptions : List Lit) (e : RandomEngine) :
    (AddHash independent_vars k solver assumptions e).1.numVars = solver.numVars + k := by
  simp only [AddHash]
  exact (AddHash.fold_spec independent_vars _ k (solver, assumptions)).1

theorem AddHash_assumptions (independent_vars : List Nat) (k : Nat) (solver : SATSolver)
    (assumptions : List Lit) (e : RandomEngine) :
    (AddHash independent_vars k solver assumptions e).2.1 =
      assumptions ++ (List.range k).map (fun i => Lit.mk (solver.numVars + i) true) := by
  simp only [AddHash]
  exact (AddHash.fold_spec independent_vars _ k (solver, assumptions)).2.2.1

end Main

namespace Main

/-- One inner loop of `ApproxMC`, entered below the number of variables with a deadline that
never fires: it stores nothing in the two lists, the guard `hashCount < nVars` stays true, and
when it is left the last count is in the range `1 .. pivot`. -/
theorem ApproxMC.inner_in_range (independent_vars : List Nat) (conf : ApproxMCConf) :
    ∀ (fuel hashCount : Nat) (st : MCState), hashCount < st.solver.numVars →
      (∀ k, st.clock.fires k = false) →
      (ApproxMC.inner independent_vars conf fuel hashCount st).2.numCountList =
          st.numCountList ∧
      (ApproxMC.inner independent_vars conf fuel hashCount st).2.numHashList =
          st.numHashList ∧
      1 ≤ (ApproxMC.inner independent_vars conf fuel hashCount st).2.solver.numVars ∧
      (∀ k, (ApproxMC.inner independent_vars conf fuel hashCount st).2.clock.fires k = false) ∧
      (∀ h1, (ApproxMC.inner independent_vars conf fuel hashCount st).1 = some h1 →
        (ApproxMC.inner independent_vars conf fuel hashCount st).2.elapsedOver = false ∧
        1 ≤ (ApproxMC.inner independent_vars conf fuel hashCount st).2.currentNumSolutions ∧
        (ApproxMC.inner independent_vars conf fuel hashCount st).2.currentNumSolutions ≤
          (conf.pivotApproxMC : Int)) := by
  intro fuel
  induction fuel with
  | zero =>
    intro hashCount st hlt hclk
    refine ⟨rfl, rfl, ?_, hclk, fun h1 h => absurd h (by simp [ApproxMC.inner])⟩
    show 1 ≤ st.solver.numVars
    omega
  | succ fuel ih =>
    intro hashCount st hlt hclk
    have hguard : hashCount < st.solver.nVars := hlt
    have hpoll : st.clock.poll.1 = false := hclk _
    have hframe := BoundedSATCount_frame independent_vars ((conf.pivotApproxMC + 1) % 2 ^ 32)
      st.solver st.assumptions
    have hM : (conf.pivotApproxMC + 1) % 2 ^ 32 < 2 ^ 32 := Nat.mod_lt _ (by decide)
    have hMle : (conf.pivotApproxMC + 1) % 2 ^ 32 ≤ conf.pivotApproxMC + 1 := Nat.mod_le _ _
    rw [ApproxMC.inner.eq_def]
    simp only [hguard, if_true, hpoll, Bool.false_eq_true, if_false]
    split
    · split
      · apply ih
        · simp only [AddHash_numVars, hframe.2]
          omega
        · exact hclk
      · apply ih
        · simp only [AddHash_numVars, hframe.2]
          have : (hashCount + 1) % 2 ^ 32 ≤ hashCount + 1 := Nat.mod_le _ _
          omega
        · exact hclk
    · rename_i hpos
      split
      · apply ih
        · simp only [AddHash_numVars, hframe.2]
          have : (hashCount + 1) % 2 ^ 32 ≤ hashCount + 1 := Nat.mod_le _ _
          omega
        · exact hclk
      · rename_i hne
        have hle := BoundedSATCount_result_le independent_vars
          ((conf.pivotApproxMC + 1) % 2 ^ 32) st.solver st.assumptions hM (by omega)
        refine ⟨rfl, rfl, ?_, hclk, fun h1 _ => ⟨rfl, ?_, ?_⟩⟩
        · simp only [hframe.2]
          omega
        · simp only
          omega
        · simp only
          omega

end Main

namespace Main

/-- The trials of `ApproxMC` on an input with at least one variable and a deadline that never
fires keep every stored count in the range `1 .. pivot`, and store counts and hash counts in
pairs. -/
theorem ApproxMC.trials_in_range (independent_vars : List Nat) (conf : ApproxMCConf)
    (fuel : Nat) :
    ∀ (t : Nat) (st : MCState), 1 ≤ st.solver.numVars → (∀ k, st.clock.fires k = false) →
      (∀ c, c ∈ st.numCountList → 1 ≤ c ∧ c ≤ (conf.pivotApproxMC : Int)) →
      st.numHashList.length = st.numCountList.length →
      (∀ c, c ∈ (ApproxMC.trials independent_vars conf fuel t st).2.numCountList →
        1 ≤ c ∧ c ≤ (conf.pivotApproxMC : Int)) ∧
      (ApproxMC.trials independent_vars conf fuel t st).2.numHashList.length =
        (ApproxMC.trials independent_vars conf fuel t st).2.numCountList.length := by
  intro t
  induction t with
  | zero => intro st _ _ h1 h2; exact ⟨h1, h2⟩
  | succ t ih =>
    intro st hv hclk hrange hlen
    have hin := ApproxMC.inner_in_range independent_vars conf fuel 0 st (by omega) hclk
    rw [ApproxMC.trials.eq_def]
    simp only
    generalize ApproxMC.inner independent_vars conf fuel 0 st = r at hin ⊢
    obtain ⟨o, st1⟩ := r
    obtain ⟨hc, hh, hv1, hclk1, hexit⟩ := hin
    simp only at hc hh hv1 hclk1 hexit
    cases o with
    | none =>
      simp only
      rw [hc, hh]
      exact ⟨hrange, hlen⟩
    | some h1 =>
      obtain ⟨hover, hlo, hhi⟩ := hexit h1 rfl
      simp only [hover, Bool.false_eq_true, if_false]
      apply ih
      · exact hv1
      · exact hclk1
      · intro c hcmem
        simp only [List.mem_append, List.mem_singleton] at hcmem
        rcases hcmem with hcmem | hcmem
        · exact hrange c (hc ▸ hcmem)
        · rw [hcmem]
          exact ⟨hlo, hhi⟩
      · simp only [List.length_append, List.length_singleton, hc, hh, hlen]

end Main

namespace Main

theorem AddHash.vars_head (independent_vars : List Nat) (randomBits : String)
    (i activationVar : Nat) :
    (AddHash.vars independent_vars randomBits i activationVar).head? = some activationVar := by
  have h : ∀ (l : List Nat) (acc : List Nat) (a : Nat), acc.head? = some a →
      (l.foldl (fun vars j =>
        if charAt randomBits ((independent_vars.length + 1) * i + j) = '1' then
          vars ++ [independent_vars.getD j 0]
        else vars) acc).head? = some a := by
    intro l
    induction l with
    | nil => intro acc a h; exact h
    | cons j l ih =>
      intro acc a h
      rw [List.foldl_cons]
      apply ih
      split
      · cases acc with
        | nil => simp at h
        | cons b acc => simpa using h
      · exact h
  exact h _ _ _ rfl

theorem hashBank_nil (solver : SATSolver) : hashBank [] solver :=
  ⟨List.nodup_nil, fun l hl => absurd hl (List.not_mem_nil l)⟩

/-- `BoundedSATCount` keeps a bank of hashes a bank of hashes. -/
theorem hashBank_BoundedSATCount (independent_vars : List Nat) (maxSolutions : Nat)
    (solver : SATSolver) (assumptions bank : List Lit) (h : hashBank bank solver) :
    hashBank bank (BoundedSATCount independent_vars maxSolutions solver assumptions).2 := by
  refine ⟨h.1, fun l hl => ?_⟩
  obtain ⟨hs, hv, hx⟩ := h.2 l hl
  rw [(BoundedSATCount_frame independent_vars maxSolutions solver assumptions).2,
    BoundedSATCount_xors]
  exact ⟨hs, by omega, hx⟩

/-- `AddHash(k)` extends a bank of hashes by `k` hashes. -/
theorem hashBank_AddHash (independent_vars : List Nat) (k : Nat) (solver : SATSolver)
    (assumptions : List Lit) (e : RandomEngine) (h : hashBank assumptions solver) :
    hashBank (AddHash independent_vars k solver assumptions e).2.1
      (AddHash independent_vars k solver assumptions e).1 ∧
    (AddHash independent_vars k solver assumptions e).2.1.length = assumptions.length + k := by
  rw [AddHash_assumptions]
  refine ⟨⟨?_, ?_⟩, by simp⟩
  · apply List.Nodup.append h.1
    · apply List.Nodup.map _ (List.nodup_range k)
      intro a b hab
      simp only [Lit.mk.injEq, and_true] at hab
      omega
    · intro l hl hnew
      rw [List.mem_map] at hnew
      obtain ⟨i, _, hi⟩ := hnew
      have := (h.2 l hl).2.1
      rw [← hi] at this
      simp only at this
      omega
  · intro l hl
    rw [AddHash_numVars, AddHash_xors]
    rw [List.mem_append] at hl
    rcases hl with hl | hl
    · obtain ⟨hs, hv, x, hx, hhead⟩ := h.2 l hl
      exact ⟨hs, by omega, x, List.mem_append.mpr (Or.inl hx), hhead⟩
    · rw [List.mem_map] at hl
      obtain ⟨i, hi, hl⟩ := hl
      rw [List.mem_range] at hi
      rw [← hl]
      refine ⟨rfl, by simp only; omega, _, List.mem_append.mpr (Or.inr
        (List.mem_map.mpr ⟨i, List.mem_range.mpr hi, rfl⟩)), ?_⟩
      exact AddHash.vars_head _ _ _ _

end Main

namespace Main

/-- One inner loop of `ApproxMC` entered with `hashCount` hashes in the assumption list: at
every call of `BoundedSATCount` it makes, the assumption list is a bank of exactly `hashCount`
hashes, as long as the number of variables fits the 32 bits of `hashCount`. -/
theorem ApproxMC.inner_calls (independent_vars : List Nat) (conf : ApproxMCConf) :
    ∀ (fuel hashCount : Nat) (st : MCState),
      (st.solver.numVars < 2 ^ 32 →
        st.assumptions.length = hashCount ∧ hashBank st.assumptions st.solver) →
      (∀ c, c ∈ st.calls → c.solver.numVars < 2 ^ 32 →
        c.assumptions.length = c.hashCount ∧ hashBank c.assumptions c.solver) →
      ∀ c, c ∈ (ApproxMC.inner independent_vars conf fuel hashCount st).2.calls →
        c.solver.numVars < 2 ^ 32 →
        c.assumptions.length = c.hashCount ∧ hashBank c.assumptions c.solver := by
  intro fuel
  induction fuel with
  | zero => intro hashCount st _ hcalls; exact hcalls
  | succ fuel ih =>
    intro hashCount st hbank hcalls
    have hframe := BoundedSATCount_frame independent_vars ((conf.pivotApproxMC + 1) % 2 ^ 32)
      st.solver st.assumptions
    have hcalls1 : ∀ c, c ∈ st.calls ++ [(⟨hashCount, st.assumptions, st.repeatTry, st.solver,
        (BoundedSATCount independent_vars ((conf.pivotApproxMC + 1) % 2 ^ 32) st.solver
          st.assumptions).1⟩ : CountCall)] → c.solver.numVars < 2 ^ 32 →
        c.assumptions.length = c.hashCount ∧ hashBank c.assumptions c.solver := by
      intro c hc
      rw [List.mem_append, List.mem_singleton] at hc
      rcases hc with hc | hc
      · exact hcalls c hc
      · rw [hc]
        exact hbank
    rw [ApproxMC.inner.eq_def]
    simp only
    split
    · rename_i hguard
      have hguard1 : hashCount < st.solver.numVars := hguard
      split
      · exact hcalls
      · split
        · split
          · apply ih _ _ ?_ hcalls1
            intro hsmall
            simp only [AddHash_numVars, hframe.2] at hsmall
            have hb := hashBank_AddHash independent_vars hashCount
              (BoundedSATCount independent_vars ((conf.pivotApproxMC + 1) % 2 ^ 32) st.solver
                st.assumptions).2 [] st.randomEngine (hashBank_nil _)
            refine ⟨?_, hb.1⟩
            rw [hb.2]
            simp only [List.length_nil]
            omega
          · apply ih _ _ ?_ hcalls1
            intro _
            have hb := hashBank_AddHash independent_vars ((hashCount + 1) % 2 ^ 32)
              (BoundedSATCount independent_vars ((conf.pivotApproxMC + 1) % 2 ^ 32) st.solver
                st.assumptions).2 [] st.randomEngine (hashBank_nil _)
            refine ⟨?_, hb.1⟩
            rw [hb.2]
            simp only [List.length_nil]
            omega
        · split
          · apply ih _ _ ?_ hcalls1
            intro hsmall
            simp only [AddHash_numVars, hframe.2] at hsmall
            have hst := hbank (by omega)
            have hb := hashBank_AddHash independent_vars 1
              (BoundedSATCount independent_vars ((conf.pivotApproxMC + 1) % 2 ^ 32) st.solver
                st.assumptions).2 st.assumptions st.randomEngine
              (hashBank_BoundedSATCount _ _ _ _ _ hst.2)
            refine ⟨?_, hb.1⟩
            rw [hb.2, hst.1]
            omega
          · exact hcalls1
    · exact hcalls

/-- The trials of `ApproxMC` started with an empty assumption list: at every call of
`BoundedSATCount` the assumption list is a bank of exactly `hashCount` hashes. -/
theorem ApproxMC.trials_calls (independent_vars : List Nat) (conf : ApproxMCConf)
    (fuel : Nat) :
    ∀ (t : Nat) (st : MCState), st.assumptions = [] →
      (∀ c, c ∈ st.calls → c.solver.numVars < 2 ^ 32 →
        c.assumptions.length = c.hashCount ∧ hashBank c.assumptions c.solver) →
      ∀ c, c ∈ (ApproxMC.trials independent_vars conf fuel t st).2.calls →
        c.solver.numVars < 2 ^ 32 →
        c.assumptions.length = c.hashCount ∧ hashBank c.assumptions c.solver := by
  intro t
  induction t with
  | zero => intro st _ h; exact h
  | succ t ih =>
    intro st hnil hcalls
    have hin := ApproxMC.inner_calls independent_vars conf fuel 0 st
      (fun _ => by rw [hnil]; exact ⟨rfl, hashBank_nil _⟩) hcalls
    rw [ApproxMC.trials.eq_def]
    simp only
    generalize ApproxMC.inner independent_vars conf fuel 0 st = r at hin ⊢
    obtain ⟨o, st1⟩ := r
    cases o with
    | none => exact hin
    | some h1 =>
      simp only
      split
      · exact hin
      · exact ih _ rfl hin

end Main

/-! ## The return value of the driver -/

/-- The sampling part of `UniSolve` from the choice of the batch size on, for any number
`need` of calls and any choice `sized`: when it returns, the batch size was chosen, the
sampling calls returned, and the result is what `UniSolve.finish` makes of their state. -/
theorem Main.UniSolve.sized_returned (conf : UniGenConf) (inv : Invocation) (fuel : Nat)
    (b0 : Main.BatchState) (need : Nat) (sized : Option Nat) (r : SolveResult)
    (h : (match sized with
      | none => Outcome.crashed
      | some numCallsInOneLoop =>
        match Main.UniSolve.batches conf inv fuel need numCallsInOneLoop b0 with
        | Outcome.crashed => Outcome.crashed
        | Outcome.outOfFuel => Outcome.outOfFuel
        | Outcome.returned b => Outcome.returned (Main.UniSolve.finish inv b)) =
      Outcome.returned r) :
    ∃ n b, sized = some n ∧ Main.UniSolve.batches conf inv fuel need n b0 = Outcome.returned b ∧
      r = Main.UniSolve.finish inv b := by
  cases sized with
  | none => exact Outcome.noConfusion h
  | some n =>
    dsimp only at h
    cases hb : Main.UniSolve.batches conf inv fuel need n b0 with
    | crashed => rw [hb] at h; exact Outcome.noConfusion h
    | outOfFuel => rw [hb] at h; exact Outcome.noConfusion h
    | returned b =>
      rw [hb] at h
      injection h with h
      exact ⟨n, b, rfl, hb, h.symm⟩

/-- When the sampling part of `UniSolve` returns, `samplesPerCall` was not 0, the batch size
was chosen, the sampling calls returned, and the result is what `UniSolve.finish` makes of
their state. -/
theorem Main.UniSolve.sample_returned (conf : UniGenConf) (inv : Invocation) (fuel : Nat)
    (obj : MainObj) (clock : Clock) (r : SolveResult)
    (h : Main.UniSolve.sample conf inv fuel obj clock = Outcome.returned r) :
    Main.SolutionsToReturn conf.multisample conf.loThresh ≠ 0 ∧
    ∃ n b, Main.UniSolve.numCallsInOneLoop conf (obj.heap obj.solver).nVars = some n ∧
      Main.UniSolve.batches conf inv fuel (Main.UniSolve.callsNeeded conf) n
        { obj := obj, sampleCounter := 0, threadSolutionMap := [],
          randomEngine := inv.samplingEngine, lastSuccessfulHashOffset := 0, clock := clock,
          calls := 0, requests := [] } = Outcome.returned b ∧
      r = Main.UniSolve.finish inv b := by
  unfold Main.UniSolve.sample at h
  dsimp only at h
  by_cases h0 : Main.SolutionsToReturn conf.multisample conf.loThresh = 0
  · rw [if_pos h0] at h
    exact Outcome.noConfusion h
  · rw [if_neg h0] at h
    exact ⟨h0, Main.UniSolve.sized_returned conf inv fuel _ _ _ r h⟩

/-- When the sampling part of `UniSolve` returns, it returns 10, or 0 under
`zero_exit_status`. -/
theorem Main.UniSolve.sample_value (conf : UniGenConf) (inv : Invocation) (fuel : Nat)
    (obj : MainObj) (clock : Clock) (r : SolveResult)
    (h : Main.UniSolve.sample conf inv fuel obj clock = Outcome.returned r) :
    r.value = if inv.zero_exit_status then 0 else 10 := by
  obtain ⟨_, n, b, _, _, hr⟩ := Main.UniSolve.sample_returned conf inv fuel obj clock r h
  rw [hr]
  rfl

/-! ## The activation variables of `AddHash` -/

namespace Main

/-- Every variable of an XOR of `AddHash` is its activation variable or a member of the
independent set. -/
theorem AddHash.vars_mem (independent_vars : List Nat) (randomBits : String)
    (i activationVar : Nat) :
    ∀ v, v ∈ AddHash.vars independent_vars randomBits i activationVar →
      v = activationVar ∨ v ∈ independent_vars := by
  have h : ∀ (l : List Nat) (acc : List Nat),
      (∀ j, j ∈ l → j < independent_vars.length) →
      (∀ v, v ∈ acc → v = activationVar ∨ v ∈ independent_vars) →
      ∀ v, v ∈ (l.foldl (fun vars j =>
        if charAt randomBits ((independent_vars.length + 1) * i + j) = '1' then
          vars ++ [independent_vars.getD j 0]
        else vars) acc) → v = activationVar ∨ v ∈ independent_vars := by
    intro l
    induction l with
    | nil => intro acc _ hacc; exact hacc
    | cons j l ih =>
      intro acc hl hacc
      rw [List.foldl_cons]
      apply ih
      · intro j2 hj2; exact hl j2 (List.mem_cons_of_mem _ hj2)
      · intro v hv
        split at hv
        · rw [List.mem_append, List.mem_singleton] at hv
          rcases hv with hv | hv
          · exact hacc v hv
          · right
            have hj : j < independent_vars.length := hl j (List.mem_cons_self _ _)
            rw [hv, List.getD_eq_getElem _ _ hj]
            exact List.getElem_mem _
        · exact hacc v hv
  apply h
  · intro j hj; exact List.mem_range.mp hj
  · intro v hv
    left
    exact List.mem_singleton.mp hv

end Main

/-! ## The random bits cover what `AddHash` reads -/

namespace Main

/-- As long as the 32-bit counter does not wrap, `GenerateRandomBits` on an empty string
gives whole blocks of 31 characters, at least `size` characters in all. -/
theorem GenerateRandomBits_length (size : Nat) (e : RandomEngine)
    (hsize : size + 31 ≤ 2 ^ 32) :
    (GenerateRandomBits "" size e).1.length = 31 * ((size + 30) / 31) ∧
    size ≤ (GenerateRandomBits "" size e).1.length := by
  have hlen := GenerateRandomBits.loop_length size hsize size 0 "" e (by omega)
  have hlen2 : (GenerateRandomBits "" size e).1.length = 31 * ((size + 30) / 31) := by
    rw [GenerateRandomBits, hlen]
    show 0 + _ = _
    simp
  refine ⟨hlen2, ?_⟩
  rw [hlen2]
  omega

end Main

/-! ## `findMin` returns the minimum -/

/-- The loop of `findMin` started at `min`: the result is at most `min` and at most every
element, and it is `min` or an element. -/
theorem findMin_fold : ∀ (l : List Int) (min : Int),
    l.foldl (fun min x => if x < min then x else min) min ≤ min ∧
    (∀ x, x ∈ l → l.foldl (fun min x => if x < min then x else min) min ≤ x) ∧
    (l.foldl (fun min x => if x < min then x else min) min = min ∨
      l.foldl (fun min x => if x < min then x else min) min ∈ l) := by
  intro l
  induction l with
  | nil => intro min; exact ⟨le_refl _, fun x hx => absurd hx (List.not_mem_nil x), Or.inl rfl⟩
  | cons a l ih =>
    intro min
    rw [List.foldl_cons]
    obtain ⟨h1, h2, h3⟩ := ih (if a < min then a else min)
    have ha : (if a < min then a else min) ≤ min := by split <;> omega
    have ha2 : (if a < min then a else min) ≤ a := by split <;> omega
    refine ⟨le_trans h1 ha, ?_, ?_⟩
    · intro x hx
      rcases List.mem_cons.mp hx with hx | hx
      · rw [hx]; exact le_trans h1 ha2
      · exact h2 x hx
    · rcases h3 with h3 | h3
      · by_cases hlt : a < min
        · right
          rw [h3, if_pos hlt]
          exact List.mem_cons_self _ _
        · left
          rw [h3, if_neg hlt]
      · exact Or.inr (List.mem_cons_of_mem _ h3)

/-- On a non-empty list of `int` values `findMin` is an element of the list that is at most
every element. -/
theorem findMin_spec (l : List Int) (hne : l ≠ []) (hint : ∀ x, x ∈ l → x ≤ 2147483647) :
    findMin l ∈ l ∧ ∀ x, x ∈ l → findMin l ≤ x := by
  obtain ⟨h1, h2, h3⟩ := findMin_fold l 2147483647
  refine ⟨?_, h2⟩
  rcases h3 with h3 | h3
  · obtain ⟨a, ha⟩ := List.exists_mem_of_ne_nil l hne
    have hle := h2 a ha
    have hge := hint a ha
    have hfm : findMin l = 2147483647 := h3
    have heq : a = findMin l := by
      have : findMin l ≤ a := hle
      omega
    rw [← heq]
    exact ha
  · exact h3

/-! ## Reasoning rules for the loops of `UniGen` -/

namespace Main

/-- Rule for the loop over `j` of `UniGen`. `I fuel j st` is to hold at the head of every
iteration, `Q` of the state in which the loop is left. `BoundedSAT` never returns `l_Undef`,
so an iteration ends at the deadline, with an exception, with `l_True`, or goes on to
`j + 1` after `l_False`. -/
theorem UniGen.probes_rule (independent_vars : List Nat) (conf : UniGenConf)
    (I : Nat → Nat → GenState → Prop) (Q : GenState → Prop)
    (h0 : ∀ j st, I 0 j st → Q st)
    (hexit : ∀ fuel j st, I (fuel + 1) j st → ¬ j < 3 → Q st)
    (hdead : ∀ fuel j st, I (fuel + 1) j st → j < 3 →
      (UniGen.approach independent_vars conf j st).elapsedOver = true →
      Q (UniGen.approach independent_vars conf j st))
    (htrue : ∀ fuel j st r, I (fuel + 1) j st → j < 3 →
      (UniGen.approach independent_vars conf j st).elapsedOver = false →
      BoundedSAT independent_vars conf.multisample ((conf.hiThresh + 1) % 2 ^ 32)
        conf.loThresh (UniGen.approach independent_vars conf j st).solver
        (UniGen.approach independent_vars conf j st).assumptions
        (UniGen.approach independent_vars conf j st).randomEngine
        (UniGen.approach independent_vars conf j st).solutionMap = some r →
      r.ret = l_True →
      Q { UniGen.record conf j (UniGen.approach independent_vars conf j st) r with
          lastSuccessfulHashOffset := st.hashOffsets.getD j 0 })
    (hfalse : ∀ fuel j st r, I (fuel + 1) j st → j < 3 →
      (UniGen.approach independent_vars conf j st).elapsedOver = false →
      BoundedSAT independent_vars conf.multisample ((conf.hiThresh + 1) % 2 ^ 32)
        conf.loThresh (UniGen.approach independent_vars conf j st).solver
        (UniGen.approach independent_vars conf j st).assumptions
        (UniGen.approach independent_vars conf j st).randomEngine
        (UniGen.approach independent_vars conf j st).solutionMap = some r →
      r.ret = l_False →
      I fuel (j + 1) (UniGen.adaptTail conf j (st.hashOffsets.getD j 0)
        (UniGen.record conf j (UniGen.approach independent_vars conf j st) r))) :
    ∀ fuel j st, I fuel j st →
      ∀ st1, UniGen.probes independent_vars conf fuel j st = some st1 → Q st1 := by
  intro fuel
  induction fuel with
  | zero =>
    intro j st hI st1 h
    rw [UniGen.probes] at h
    injection h with h
    rw [← h]
    exact h0 j st hI
  | succ fuel ih =>
    intro j st hI st1 h
    rw [UniGen.probes] at h
    by_cases hj : j < 3
    · rw [if_pos hj] at h
      dsimp only at h
      by_cases hd : (UniGen.approach independent_vars conf j st).elapsedOver = true
      · rw [if_pos hd] at h
        injection h with h
        rw [← h]
        exact hdead fuel j st hI hj hd
      · rw [if_neg hd] at h
        have hd2 : (UniGen.approach independent_vars conf j st).elapsedOver = false := by
          simpa using hd
        cases hb : BoundedSAT independent_vars conf.multisample
            ((conf.hiThresh + 1) % 2 ^ 32) conf.loThresh
            (UniGen.approach independent_vars conf j st).solver
            (UniGen.approach independent_vars conf j st).assumptions
            (UniGen.approach independent_vars conf j st).randomEngine
            (UniGen.approach independent_vars conf j st).solutionMap with
        | none =>
          rw [hb] at h
          exact Option.noConfusion h
        | some r =>
          rw [hb] at h
          dsimp only at h
          have hne : r.ret ≠ l_Undef := BoundedSAT_ret_ne_Undef _ _ _ _ _ _ _ _ r hb
          have hret : (UniGen.record conf j (UniGen.approach independent_vars conf j st)
              r).ret = r.ret := rfl
          rw [hret, if_neg hne] at h
          by_cases ht : r.ret = l_True
          · rw [if_pos ht] at h
            injection h with h
            rw [← h]
            exact htrue fuel j st r hI hj hd2 hb ht
          · rw [if_neg ht] at h
            have hf : r.ret = l_False := by
              cases hr : r.ret with
              | l_True => exact absurd hr ht
              | l_False => rfl
              | l_Undef => exact absurd hr hne
            exact ih _ _ (hfalse fuel j st r hI hj hd2 hb hf) st1 h
    · rw [if_neg hj] at h
      injection h with h
      rw [← h]
      exact hexit fuel j st hI hj

/-- Rule for the loop over the samples of `UniGen`. `I i st` is to hold at the head of every
iteration; `Q b st` of the result, where `b` tells whether the loop was left. -/
theorem UniGen.attempts_rule (independent_vars : List Nat) (conf : UniGenConf)
    (samples : Nat) (I : Nat → GenState → Prop) (Q : Bool → GenState → Prop)
    (hfuel : ∀ i st, I i st → Q false st)
    (hdone : ∀ i st, I i st → ¬ i < samples → Q true st)
    (hover : ∀ i st st1, I i st → i < samples →
      UniGen.probes independent_vars conf 9 0 (UniGen.beginAttempt st) = some st1 →
      st1.elapsedOver = true → Q true { st1 with assumptions := [] })
    (hstep : ∀ i st st1, I i st → i < samples →
      UniGen.probes independent_vars conf 9 0 (UniGen.beginAttempt st) = some st1 →
      st1.elapsedOver = false →
      I (((if st1.ret ≠ l_True then ((2 ^ 32 - 1) + i) % 2 ^ 32 else i) + 1) % 2 ^ 32)
        { st1 with assumptions := [] }) :
    ∀ fuel i st, I i st →
      ∀ b st1, UniGen.attempts independent_vars conf samples fuel i st = some (b, st1) →
        Q b st1 := by
  intro fuel
  induction fuel with
  | zero =>
    intro i st hI b st1 h
    rw [UniGen.attempts] at h
    injection h with h
    injection h with hb hs
    rw [← hb, ← hs]
    exact hfuel i st hI
  | succ fuel ih =>
    intro i st hI b st1 h
    rw [UniGen.attempts] at h
    by_cases hi : i < samples
    · rw [if_pos hi] at h
      cases hp : UniGen.probes independent_vars conf 9 0 (UniGen.beginAttempt st) with
      | none =>
        rw [hp] at h
        exact Option.noConfusion h
      | some st2 =>
        rw [hp] at h
        dsimp only at h
        by_cases hd : st2.elapsedOver = true
        · rw [if_pos hd] at h
          injection h with h
          injection h with hb hs
          rw [← hb, ← hs]
          exact hover i st st2 hI hi hp hd
        · rw [if_neg hd] at h
          have hd2 : st2.elapsedOver = false := by simpa using hd
          exact ih _ _ (hstep i st st2 hI hi hp hd2) b st1 h
    · rw [if_neg hi] at h
      injection h with h
      injection h with hb hs
      rw [← hb, ← hs]
      exact hdone i st hI hi

end Main

/-! ## What the steps of `UniGen` leave unchanged -/

namespace Main

/-- Moving the hashes changes the solver, the assumptions, the engine and `lastHashCount`,
which becomes the new hash count, and nothing else. -/
theorem UniGen.moveHashes_frame (independent_vars : List Nat) (currentHashCount : Nat)
    (st : GenState) :
    (UniGen.moveHashes independent_vars currentHashCount st).clock = st.clock ∧
    (UniGen.moveHashes independent_vars currentHashCount st).calls = st.calls ∧
    (UniGen.moveHashes independent_vars currentHashCount st).hashOffsets = st.hashOffsets ∧
    (UniGen.moveHashes independent_vars currentHashCount st).lastSuccessfulHashOffset =
      st.lastSuccessfulHashOffset ∧
    (UniGen.moveHashes independent_vars currentHashCount st).ret = st.ret ∧
    (UniGen.moveHashes independent_vars currentHashCount st).sampleCounter =
      st.sampleCounter ∧
    (UniGen.moveHashes independent_vars currentHashCount st).solutionMap = st.solutionMap ∧
    (UniGen.moveHashes independent_vars currentHashCount st).lastHashCount =
      currentHashCount := by
  unfold UniGen.moveHashes
  dsimp only
  split
  · exact ⟨rfl, rfl, rfl, rfl, rfl, rfl, rfl, rfl⟩
  · split
    · exact ⟨rfl, rfl, rfl, rfl, rfl, rfl, rfl, rfl⟩
    · exact ⟨rfl, rfl, rfl, rfl, rfl, rfl, rfl, rfl⟩

/-- The first half of an iteration reads the clock once and otherwise changes what moving
the hashes changes. -/
theorem UniGen.approach_frame (independent_vars : List Nat) (conf : UniGenConf) (j : Nat)
    (st : GenState) :
    (UniGen.approach independent_vars conf j st).clock.fires = st.clock.fires ∧
    (UniGen.approach independent_vars conf j st).calls = st.calls ∧
    (UniGen.approach independent_vars conf j st).hashOffsets = st.hashOffsets ∧
    (UniGen.approach independent_vars conf j st).lastSuccessfulHashOffset =
      st.lastSuccessfulHashOffset ∧
    (UniGen.approach independent_vars conf j st).ret = st.ret ∧
    (UniGen.approach independent_vars conf j st).sampleCounter = st.sampleCounter ∧
    (UniGen.approach independent_vars conf j st).solutionMap = st.solutionMap ∧
    (UniGen.approach independent_vars conf j st).lastHashCount =
      (st.hashOffsets.getD j 0 + conf.startIteration) % 2 ^ 32 ∧
    (UniGen.approach independent_vars conf j st).assumptions =
      (UniGen.moveHashes independent_vars
        ((st.hashOffsets.getD j 0 + conf.startIteration) % 2 ^ 32) st).assumptions := by
  obtain ⟨h1, h2, h3, h4, h5, h6, h7, h8⟩ := UniGen.moveHashes_frame independent_vars
    ((st.hashOffsets.getD j 0 + conf.startIteration) % 2 ^ 32) st
  unfold UniGen.approach
  dsimp only [Clock.poll]
  rw [h1]
  exact ⟨rfl, h2, h3, h4, h5, h6, h7, h8, rfl⟩

/-- Choosing the tail of the schedule changes `hashOffsets` only. -/
theorem UniGen.adaptTail_frame (conf : UniGenConf) (j currentHashOffset : Nat)
    (st : GenState) :
    (UniGen.adaptTail conf j currentHashOffset st).clock = st.clock ∧
    (UniGen.adaptTail conf j currentHashOffset st).calls = st.calls ∧
    (UniGen.adaptTail conf j currentHashOffset st).lastSuccessfulHashOffset =
      st.lastSuccessfulHashOffset ∧
    (UniGen.adaptTail conf j currentHashOffset st).ret = st.ret ∧
    (UniGen.adaptTail conf j currentHashOffset st).assumptions = st.assumptions ∧
    (UniGen.adaptTail conf j currentHashOffset st).lastHashCount = st.lastHashCount ∧
    (UniGen.adaptTail conf j currentHashOffset st).elapsedOver = st.elapsedOver := by
  unfold UniGen.adaptTail
  split
  · split
    · exact ⟨rfl, rfl, rfl, rfl, rfl, rfl, rfl⟩
    · exact ⟨rfl, rfl, rfl, rfl, rfl, rfl, rfl⟩
  · exact ⟨rfl, rfl, rfl, rfl, rfl, rfl, rfl⟩

/-- The loop over `j` of `UniGen` does not change what the clock will answer. -/
theorem UniGen.probes_clock (independent_vars : List Nat) (conf : UniGenConf) :
    ∀ (fuel j : Nat) (st st1 : GenState),
      UniGen.probes independent_vars conf fuel j st = some st1 →
        st1.clock.fires = st.clock.fires := by
  intro fuel j st st1 h
  refine UniGen.probes_rule independent_vars conf (fun _ _ s => s.clock.fires = st.clock.fires)
    (fun s => s.clock.fires = st.clock.fires) ?_ ?_ ?_ ?_ ?_ fuel j st rfl st1 h
  · intro j s hI; exact hI
  · intro fuel j s hI _; exact hI
  · intro fuel j s hI _ _
    exact (UniGen.approach_frame independent_vars conf j s).1.trans hI
  · intro fuel j s r hI _ _ _ _
    exact (UniGen.approach_frame independent_vars conf j s).1.trans hI
  · intro fuel j s r hI _ _ _ _
    rw [(UniGen.adaptTail_frame conf j _ _).1]
    exact (UniGen.approach_frame independent_vars conf j s).1.trans hI

/-- The loop over the samples of `UniGen` does not change what the clock will answer. -/
theorem UniGen.attempts_clock (independent_vars : List Nat) (conf : UniGenConf)
    (samples : Nat) :
    ∀ (fuel i : Nat) (st : GenState) (b : Bool) (st1 : GenState),
      UniGen.attempts independent_vars conf samples fuel i st = some (b, st1) →
        st1.clock.fires = st.clock.fires := by
  intro fuel i st b st1 h
  refine UniGen.attempts_rule independent_vars conf samples
    (fun _ s => s.clock.fires = st.clock.fires)
    (fun _ s => s.clock.fires = st.clock.fires) ?_ ?_ ?_ ?_ fuel i st rfl b st1 h
  · intro i s hI; exact hI
  · intro i s hI _; exact hI
  · intro i s s1 hI _ hp _
    exact (UniGen.probes_clock independent_vars conf 9 0 _ s1 hp).trans hI
  · intro i s s1 hI _ hp _
    exact (UniGen.probes_clock independent_vars conf 9 0 _ s1 hp).trans hI

end Main

/-! ## The sampling calls of the driver -/

theorem Outcome.get?_eq_some {α : Type} (o : Outcome α) (a : α) (h : o.get? = some a) :
    o = Outcome.returned a := by
  cases o with
  | returned b =>
    injection h with h
    rw [h]
  | crashed => exact Option.noConfusion h
  | outOfFuel => exact Option.noConfusion h

namespace Main

/-- A returning call of `singleThreadUniGenCall` enters its `samples` argument into
`requests` and does not change what the clock will answer. -/
theorem singleThreadUniGenCall_requests (conf : UniGenConf) (inv : Invocation)
    (fuel samples : Nat) (b b1 : BatchState)
    (h : singleThreadUniGenCall conf inv fuel samples b = Outcome.returned b1) :
    b1.requests = b.requests ++ [samples] ∧ b1.clock.fires = b.clock.fires := by
  unfold singleThreadUniGenCall at h
  dsimp only at h
  cases hU : UniGen (parseInAllFiles b.obj (b.calls + 1) inv.filesToRead inv.fileNamePresent
      inv.standardInput).independent_vars conf fuel samples
      ((parseInAllFiles b.obj (b.calls + 1) inv.filesToRead inv.fileNamePresent
        inv.standardInput).heap (b.calls + 1)) b.sampleCounter b.randomEngine
      b.threadSolutionMap b.lastSuccessfulHashOffset b.clock with
  | none =>
    rw [hU] at h
    exact Outcome.noConfusion h
  | some p =>
    obtain ⟨ok, st⟩ := p
    rw [hU] at h
    cases ok with
    | false => exact Outcome.noConfusion h
    | true =>
      dsimp only at h
      injection h with h
      rw [← h]
      exact ⟨rfl, UniGen.attempts_clock _ _ _ _ _ _ _ _ hU⟩

/-- While the deadline does not fire, the loops of `UniSolve` enter `numCallsInOneLoop` into
`requests` once per loop. -/
theorem UniSolve.callLoops_requests (conf : UniGenConf) (inv : Invocation)
    (fuel numCallsInOneLoop : Nat) :
    ∀ (loops : Nat) (b b1 : BatchState), (∀ k, b.clock.fires k = false) →
      UniSolve.callLoops conf inv fuel numCallsInOneLoop loops false b = Outcome.returned b1 →
      b1.requests = b.requests ++ List.replicate loops numCallsInOneLoop := by
  intro loops
  induction loops with
  | zero =>
    intro b b1 _ h
    rw [UniSolve.callLoops] at h
    injection h with h
    rw [← h]
    simp
  | succ loops ih =>
    intro b b1 hq h
    rw [UniSolve.callLoops] at h
    rw [if_pos (by rfl)] at h
    cases hs : singleThreadUniGenCall conf inv fuel numCallsInOneLoop b with
    | crashed => rw [hs] at h; exact Outcome.noConfusion h
    | outOfFuel => rw [hs] at h; exact Outcome.noConfusion h
    | returned b2 =>
      rw [hs] at h
      dsimp only at h
      obtain ⟨hreq, hfires⟩ := singleThreadUniGenCall_requests conf inv fuel _ b b2 hs
      have hq2 : ∀ k, b2.clock.fires k = false := by
        intro k
        rw [hfires]
        exact hq k
      have hp : b2.clock.poll.1 = false := hq2 _
      rw [hp] at h
      have := ih _ b1 (by exact hq2) h
      rw [this]
      show b2.requests ++ _ = _
      rw [hreq, List.replicate_succ]
      simp

/-- While the deadline does not fire, the sampling calls of `UniSolve` ask for the remaining
calls, if any, and then for `numCallsInOneLoop` calls once per loop. -/
theorem UniSolve.batches_requests (conf : UniGenConf) (inv : Invocation)
    (fuel callsNeeded numCallsInOneLoop : Nat) (b b1 : BatchState)
    (hq : ∀ k, b.clock.fires k = false)
    (h : UniSolve.batches conf inv fuel callsNeeded numCallsInOneLoop b =
      Outcome.returned b1) :
    b1.requests = b.requests ++
      ((if callsNeeded % numCallsInOneLoop > 0 then [callsNeeded % numCallsInOneLoop] else []) ++
        List.replicate (callsNeeded / numCallsInOneLoop) numCallsInOneLoop) := by
  unfold UniSolve.batches at h
  dsimp only at h
  by_cases hr : callsNeeded % numCallsInOneLoop > 0
  · rw [if_pos hr] at h
    rw [if_pos hr]
    cases hs : singleThreadUniGenCall conf inv fuel (callsNeeded % numCallsInOneLoop) b with
    | crashed => rw [hs] at h; exact Outcome.noConfusion h
    | outOfFuel => rw [hs] at h; exact Outcome.noConfusion h
    | returned b2 =>
      rw [hs] at h
      dsimp only at h
      obtain ⟨hreq, hfires⟩ := singleThreadUniGenCall_requests conf inv fuel _ b b2 hs
      have hq2 : ∀ k, b2.clock.fires k = false := by
        intro k
        rw [hfires]
        exact hq k
      rw [UniSolve.callLoops_requests conf inv fuel _ _ b2 b1 hq2 h, hreq]
      simp
  · rw [if_neg hr] at h
    rw [if_neg hr]
    dsimp only at h
    rw [UniSolve.callLoops_requests conf inv fuel _ _ b b1 hq h]
    simp

end Main

/-! ## Counting the sample attempts that end in range -/

namespace Main

/-- The loop over `j` of `UniGen`, entered when `ret` is not `l_True`, adds one call that
returned `l_True` when it ends with `ret == l_True`, and none otherwise. -/
theorem UniGen.probes_inRange_count (independent_vars : List Nat) (conf : UniGenConf) :
    ∀ (fuel j : Nat) (st st1 : GenState), st.ret ≠ l_True →
      UniGen.probes independent_vars conf fuel j st = some st1 →
      st1.calls.countP (fun c => decide (c.ret = l_True)) =
        st.calls.countP (fun c => decide (c.ret = l_True)) +
          (if st1.ret = l_True then 1 else 0) := by
  intro fuel j st st1 hret h
  refine UniGen.probes_rule independent_vars conf
    (fun _ _ s => s.ret ≠ l_True ∧
      s.calls.countP (fun c => decide (c.ret = l_True)) =
        st.calls.countP (fun c => decide (c.ret = l_True)))
    (fun s => s.calls.countP (fun c => decide (c.ret = l_True)) =
      st.calls.countP (fun c => decide (c.ret = l_True)) + (if s.ret = l_True then 1 else 0))
    ?_ ?_ ?_ ?_ ?_ fuel j st ⟨hret, rfl⟩ st1 h
  · intro j s hI
    rw [if_neg hI.1, hI.2]
    rfl
  · intro fuel j s hI _
    rw [if_neg hI.1, hI.2]
    rfl
  · intro fuel j s hI _ _
    obtain ⟨_, h2, _, _, h5, _⟩ := UniGen.approach_frame independent_vars conf j s
    rw [h2, h5, if_neg hI.1, hI.2]
    rfl
  · intro fuel j s r hI _ _ _ ht
    obtain ⟨_, h2, _, _, _, _⟩ := UniGen.approach_frame independent_vars conf j s
    show ((UniGen.approach independent_vars conf j s).calls ++ [_]).countP _ =
      _ + (if r.ret = l_True then 1 else 0)
    rw [if_pos ht, List.countP_append, h2, hI.2]
    simp [ht]
  · intro fuel j s r hI _ _ _ hf
    obtain ⟨_, h2, _, _, _, _⟩ := UniGen.approach_frame independent_vars conf j s
    obtain ⟨_, a2, _, a4, _⟩ := UniGen.adaptTail_frame conf j (s.hashOffsets.getD j 0)
      (UniGen.record conf j (UniGen.approach independent_vars conf j s) r)
    rw [a2, a4]
    constructor
    · show r.ret ≠ l_True
      rw [hf]
      decide
    · show ((UniGen.approach independent_vars conf j s).calls ++ [_]).countP _ = _
      rw [List.countP_append, h2, hI.2]
      simp [hf]

/-- At the head of every iteration of the loop over the samples, started at 0 with an empty
list of calls, `i` is the number of calls that returned `l_True`; so the loop ends, without
the deadline, after exactly `samples` such calls. -/
theorem UniGen.attempts_inRange_count (independent_vars : List Nat) (conf : UniGenConf)
    (samples : Nat) (hs : samples < 2 ^ 32) :
    ∀ (fuel i : Nat) (st st1 : GenState), i ≤ samples →
      st.calls.countP (fun c => decide (c.ret = l_True)) = i →
      UniGen.attempts independent_vars conf samples fuel i st = some (true, st1) →
      st1.elapsedOver = false ∨ samples = 0 →
      st1.calls.countP (fun c => decide (c.ret = l_True)) = samples := by
  intro fuel i st st1 hi hcount h
  refine UniGen.attempts_rule independent_vars conf samples
    (fun i s => i ≤ samples ∧ s.calls.countP (fun c => decide (c.ret = l_True)) = i)
    (fun b s => b = true → (s.elapsedOver = false ∨ samples = 0) →
      s.calls.countP (fun c => decide (c.ret = l_True)) = samples)
    ?_ ?_ ?_ ?_ fuel i st ⟨hi, hcount⟩ true st1 h rfl
  · intro i s _ hb
    exact Bool.noConfusion hb
  · intro i s hI hge _ _
    rw [hI.2]
    omega
  · intro i s s1 hI hlt _ hd _ hq
    rcases hq with hq | hq
    · have hq2 : s1.elapsedOver = false := hq
      rw [hd] at hq2
      exact Bool.noConfusion hq2
    · omega
  · intro i s s1 hI hlt hp _
    have hc := UniGen.probes_inRange_count independent_vars conf 9 0 _ s1
      (by show l_False ≠ l_True; decide) hp
    have hc2 : s1.calls.countP (fun c => decide (c.ret = l_True)) =
        i + (if s1.ret = l_True then 1 else 0) := by
      rw [hc]
      show s.calls.countP _ + _ = _
      rw [hI.2]
    show _ ∧ s1.calls.countP _ = _
    rw [hc2]
    by_cases hr : s1.ret = l_True
    · rw [if_pos hr, if_neg (not_not.mpr hr)]
      have : (i + 1) % 2 ^ 32 = i + 1 := Nat.mod_eq_of_lt (by omega)
      rw [this]
      omega
    · rw [if_neg hr, if_pos hr]
      have : ((2 ^ 32 - 1 + i) % 2 ^ 32 + 1) % 2 ^ 32 = i := by omega
      rw [this]
      omega

end Main

/-! ## The hash bank of `UniGen` -/

namespace Main

/-- An entry `hashOffsets[j]` of offsets that are all at most 2 is at most 2. -/
theorem getD_le_two (l : List Nat) (j : Nat) (h : ∀ x, x ∈ l → x ≤ 2) : l.getD j 0 ≤ 2 := by
  by_cases hj : j < l.length
  · rw [List.getD_eq_getElem _ _ hj]
    exact h _ (List.getElem_mem _)
  · rw [List.getD_eq_default _ _ (by omega)]
    omega

end Main

/-! ## The probe schedule of a sample attempt -/

theorem probeSchedule_cases (l : Nat) (b : Bool) (hl : l ≤ 2) :
    (probeSchedule l b).length = 3 ∧ (probeSchedule l b).getD 0 0 = l ∧
    (∀ x, x ∈ probeSchedule l b → x ≤ 2) ∧
    (l ≠ 1 → probeSchedule l b = probeSchedule l false) := by
  unfold probeSchedule
  by_cases h0 : l = 0
  · rw [if_pos h0, h0]
    simp
  · rw [if_neg h0]
    by_cases h2 : l = 2
    · rw [if_pos h2, h2]
      simp
    · rw [if_neg h2]
      have h1 : l = 1 := by omega
      cases b <;> simp [h1]

theorem firstBelow_append (conf : UniGenConf) (c : SampleCall) (cs : List SampleCall)
    (x : SampleCall) : firstBelow conf ((c :: cs) ++ [x]) = firstBelow conf (c :: cs) := rfl

theorem take_succ_getD (l : List Nat) (j : Nat) (hj : j < l.length) :
    l.take j ++ [l.getD j 0] = l.take (j + 1) := by
  rw [List.take_succ, List.getD_eq_getElem _ _ hj, List.getElem?_eq_getElem hj]
  rfl

namespace Main

/-- Outside the first probe at offset 1, choosing the tail leaves `hashOffsets` as it is. -/
theorem UniGen.adaptTail_same (conf : UniGenConf) (j currentHashOffset : Nat) (st : GenState)
    (h : ¬ (j = 0 ∧ currentHashOffset = 1)) :
    (UniGen.adaptTail conf j currentHashOffset st).hashOffsets = st.hashOffsets := by
  unfold UniGen.adaptTail
  rw [if_neg h]

/-- After a first probe at offset 1 that was out of range, `hashOffsets` is the schedule for
the last successful offset 1 and the `solutionCount` of that probe. -/
theorem UniGen.adaptTail_first (conf : UniGenConf) (st : GenState)
    (hlen : st.hashOffsets.length = 3) (hhead : st.hashOffsets.getD 0 0 = 1) :
    (UniGen.adaptTail conf 0 1 st).hashOffsets =
      probeSchedule 1 (decide (st.solutionCount < conf.loThresh)) := by
  obtain ⟨a, b, c, habc⟩ := List.length_eq_three.mp hlen
  rw [habc] at hhead
  have ha : a = 1 := hhead
  unfold UniGen.adaptTail
  rw [if_pos ⟨rfl, rfl⟩]
  by_cases hlt : st.solutionCount < conf.loThresh
  · rw [if_pos hlt]
    show (st.hashOffsets.set 1 0).set 2 2 = _
    rw [habc, ha]
    simp [probeSchedule, hlt]
  · rw [if_neg hlt]
    show (st.hashOffsets.set 1 2).set 2 0 = _
    rw [habc, ha]
    simp [probeSchedule, hlt]

/-- The offsets with which a sample attempt starts. -/
theorem UniGen.beginAttempt_offsets (st : GenState) (hlen : st.hashOffsets.length = 3)
    (hlso : st.lastSuccessfulHashOffset ≤ 2) :
    (UniGen.beginAttempt st).hashOffsets.length = 3 ∧
    (UniGen.beginAttempt st).hashOffsets.getD 0 0 = st.lastSuccessfulHashOffset ∧
    (st.lastSuccessfulHashOffset ≠ 1 →
      (UniGen.beginAttempt st).hashOffsets = probeSchedule st.lastSuccessfulHashOffset false) := by
  obtain ⟨a, b, c, habc⟩ := List.length_eq_three.mp hlen
  unfold UniGen.beginAttempt
  dsimp only
  rw [habc]
  by_cases h0 : st.lastSuccessfulHashOffset = 0
  · simp [h0, probeSchedule]
  · by_cases h2 : st.lastSuccessfulHashOffset = 2
    · simp [h2, probeSchedule]
    · have h1 : st.lastSuccessfulHashOffset = 1 := by omega
      simp [h1]

end Main

namespace Main

/-- The offsets of `j` calls that follow the schedule, followed by the entry `j` of the
offsets in force, follow the schedule that the longer list of calls determines. -/
theorem UniGen.schedule_extend (conf : UniGenConf) (L j : Nat) (hL : L ≤ 2) (hj : j < 3)
    (cs : List SampleCall) (c : SampleCall) (offs : List Nat)
    (hlen : cs.length = j)
    (hmap : cs.map (fun c => c.currentHashOffset) =
      (probeSchedule L (firstBelow conf cs)).take j)
    (hoff : (j = 0 ∧ offs.getD 0 0 = L) ∨
      (0 < j ∧ offs = probeSchedule L (firstBelow conf cs)))
    (hc : c.currentHashOffset = offs.getD j 0) :
    (cs ++ [c]).map (fun c => c.currentHashOffset) =
      (probeSchedule L (firstBelow conf (cs ++ [c]))).take (j + 1) := by
  rcases hoff with ⟨hj0, hhead⟩ | ⟨hjpos, hoffs⟩
  · have hnil : cs = [] := List.length_eq_zero.mp (hlen.trans hj0)
    obtain ⟨h3, hh, _, _⟩ := probeSchedule_cases L (firstBelow conf ([] ++ [c])) hL
    rw [hnil, hj0]
    rw [hj0] at hc
    rw [← take_succ_getD _ 0 (by omega), hh]
    show [c.currentHashOffset] = [] ++ [L]
    rw [hc, hhead]
    rfl
  · obtain ⟨c0, rest, hcs⟩ : ∃ c0 rest, cs = c0 :: rest := by
      cases cs with
      | nil => exact absurd hlen (by simp; omega)
      | cons c0 rest => exact ⟨c0, rest, rfl⟩
    have hfb : firstBelow conf (cs ++ [c]) = firstBelow conf cs := by
      rw [hcs]
      rfl
    obtain ⟨h3, _, _, _⟩ := probeSchedule_cases L (firstBelow conf cs) hL
    rw [hfb, List.map_append, hmap, ← take_succ_getD _ j (by omega)]
    show _ ++ [c.currentHashOffset] = _
    rw [hc, hoffs]

/-- The calls of `BoundedSAT` of one sample attempt: their offsets follow the probe schedule,
the attempt ends at the first call that returns `l_True`, and the last successful offset
changes at that call only, to the offset of the call. -/
theorem UniGen.probes_schedule (independent_vars : List Nat) (conf : UniGenConf)
    (st st1 : GenState) (hlen : st.hashOffsets.length = 3)
    (hlso : st.lastSuccessfulHashOffset ≤ 2)
    (h : UniGen.probes independent_vars conf 9 0 (UniGen.beginAttempt st) = some st1) :
    ∃ cs, st1.calls = st.calls ++ cs ∧
      (cs.map (fun c => c.currentHashOffset) <+:
        probeSchedule st.lastSuccessfulHashOffset (firstBelow conf cs)) ∧
      (st1.elapsedOver = false → (∀ c, c ∈ cs → c.ret ≠ l_True) →
        cs.map (fun c => c.currentHashOffset) =
          probeSchedule st.lastSuccessfulHashOffset (firstBelow conf cs)) ∧
      (∀ c, c ∈ cs.dropLast → c.ret = l_False) ∧
      (∀ c, cs.getLast? = some c → c.ret = l_True →
        st1.lastSuccessfulHashOffset = c.currentHashOffset) ∧
      ((∀ c, c ∈ cs → c.ret ≠ l_True) →
        st1.lastSuccessfulHashOffset = st.lastSuccessfulHashOffset) ∧
      st1.lastSuccessfulHashOffset ≤ 2 := by
  obtain ⟨hb1, hb2, hb3⟩ := UniGen.beginAttempt_offsets st hlen hlso
  -- what holds when the loop is left after `j` calls that all returned `l_False`
  have hQ : ∀ (s : GenState) (cs : List SampleCall) (j : Nat),
      s.calls = st.calls ++ cs → cs.length = j → (∀ c, c ∈ cs → c.ret = l_False) →
      cs.map (fun c => c.currentHashOffset) =
        (probeSchedule st.lastSuccessfulHashOffset (firstBelow conf cs)).take j →
      s.lastSuccessfulHashOffset = st.lastSuccessfulHashOffset →
      (s.elapsedOver = true ∨ j = 3) →
      ∃ cs, s.calls = st.calls ++ cs ∧
        (cs.map (fun c => c.currentHashOffset) <+:
          probeSchedule st.lastSuccessfulHashOffset (firstBelow conf cs)) ∧
        (s.elapsedOver = false → (∀ c, c ∈ cs → c.ret ≠ l_True) →
          cs.map (fun c => c.currentHashOffset) =
            probeSchedule st.lastSuccessfulHashOffset (firstBelow conf cs)) ∧
        (∀ c, c ∈ cs.dropLast → c.ret = l_False) ∧
        (∀ c, cs.getLast? = some c → c.ret = l_True →
          s.lastSuccessfulHashOffset = c.currentHashOffset) ∧
        ((∀ c, c ∈ cs → c.ret ≠ l_True) →
          s.lastSuccessfulHashOffset = st.lastSuccessfulHashOffset) ∧
        s.lastSuccessfulHashOffset ≤ 2 := by
    intro s cs j hcalls hlenj hfalse hmap hl hend
    refine ⟨cs, hcalls, ?_, ?_, ?_, ?_, ?_, ?_⟩
    · rw [hmap]
      exact List.take_prefix _ _
    · intro hover _
      rcases hend with hend | hend
      · rw [hend] at hover
        exact Bool.noConfusion hover
      · obtain ⟨h3, _, _, _⟩ := probeSchedule_cases st.lastSuccessfulHashOffset
          (firstBelow conf cs) hlso
        rw [hmap, hend, List.take_of_length_le (by omega)]
    · intro c hc
      exact hfalse c (List.mem_of_mem_dropLast hc)
    · intro c hc ht
      have := hfalse c (List.mem_of_mem_getLast? hc)
      rw [this] at ht
      exact lbool.noConfusion ht
    · intro _
      exact hl
    · rw [hl]
      exact hlso
  refine UniGen.probes_rule independent_vars conf
    (fun fuel j s => 3 ≤ j + fuel ∧ j ≤ 3 ∧
      s.lastSuccessfulHashOffset = st.lastSuccessfulHashOffset ∧
      ∃ cs, s.calls = st.calls ++ cs ∧ cs.length = j ∧ (∀ c, c ∈ cs → c.ret = l_False) ∧
        cs.map (fun c => c.currentHashOffset) =
          (probeSchedule st.lastSuccessfulHashOffset (firstBelow conf cs)).take j ∧
        ((j = 0 ∧ s.hashOffsets.length = 3 ∧
            s.hashOffsets.getD 0 0 = st.lastSuccessfulHashOffset ∧
            (st.lastSuccessfulHashOffset ≠ 1 →
              s.hashOffsets = probeSchedule st.lastSuccessfulHashOffset false)) ∨
          (0 < j ∧
            s.hashOffsets = probeSchedule st.lastSuccessfulHashOffset (firstBelow conf cs))))
    (fun s => ∃ cs, s.calls = st.calls ++ cs ∧
      (cs.map (fun c => c.currentHashOffset) <+:
        probeSchedule st.lastSuccessfulHashOffset (firstBelow conf cs)) ∧
      (s.elapsedOver = false → (∀ c, c ∈ cs → c.ret ≠ l_True) →
        cs.map (fun c => c.currentHashOffset) =
          probeSchedule st.lastSuccessfulHashOffset (firstBelow conf cs)) ∧
      (∀ c, c ∈ cs.dropLast → c.ret = l_False) ∧
      (∀ c, cs.getLast? = some c → c.ret = l_True →
        s.lastSuccessfulHashOffset = c.currentHashOffset) ∧
      ((∀ c, c ∈ cs → c.ret ≠ l_True) →
        s.lastSuccessfulHashOffset = st.lastSuccessfulHashOffset) ∧
      s.lastSuccessfulHashOffset ≤ 2)
    ?_ ?_ ?_ ?_ ?_ 9 0 (UniGen.beginAttempt st) ?_ st1 h
  · -- the fuel is used up: three calls were made
    intro j s hI
    obtain ⟨h3, hj3, hl, cs, hcalls, hlenj, hfalse, hmap, _⟩ := hI
    exact hQ s cs j hcalls hlenj hfalse hmap hl (Or.inr (by omega))
  · -- `j = 3`
    intro fuel j s hI hge
    obtain ⟨h3, hj3, hl, cs, hcalls, hlenj, hfalse, hmap, _⟩ := hI
    exact hQ s cs j hcalls hlenj hfalse hmap hl (Or.inr (by omega))
  · -- the deadline
    intro fuel j s hI hj hd
    obtain ⟨h3, hj3, hl, cs, hcalls, hlenj, hfalse, hmap, _⟩ := hI
    obtain ⟨_, a2, _, a4, _⟩ := UniGen.approach_frame independent_vars conf j s
    exact hQ _ cs j (a2.trans hcalls) hlenj hfalse hmap (a4.trans hl) (Or.inl hd)
  · -- a call that returns `l_True`
    intro fuel j s r hI hj _ _ ht
    obtain ⟨h3, hj3, hl, cs, hcalls, hlenj, hfalse, hmap, hoffs⟩ := hI
    obtain ⟨_, a2, a3, a4, _⟩ := UniGen.approach_frame independent_vars conf j s
    have hoffs2 : (j = 0 ∧ s.hashOffsets.getD 0 0 = st.lastSuccessfulHashOffset) ∨
        (0 < j ∧
          s.hashOffsets = probeSchedule st.lastSuccessfulHashOffset (firstBelow conf cs)) := by
      rcases hoffs with ⟨h1, _, h2, _⟩ | h1
      · exact Or.inl ⟨h1, h2⟩
      · exact Or.inr h1
    obtain ⟨c, hc⟩ : ∃ c : SampleCall, c =
        ⟨(UniGen.approach independent_vars conf j s).sampleCounter, j,
          (UniGen.approach independent_vars conf j s).hashOffsets.getD j 0,
          ((UniGen.approach independent_vars conf j s).hashOffsets.getD j 0 +
            conf.startIteration) % 2 ^ 32,
          (UniGen.approach independent_vars conf j s).assumptions,
          (UniGen.approach independent_vars conf j s).solver, r.ret, r.solutionCount⟩ :=
      ⟨_, rfl⟩
    have hcall : (UniGen.record conf j (UniGen.approach independent_vars conf j s) r).calls =
        (UniGen.approach independent_vars conf j s).calls ++ [c] := by
      rw [hc]
      rfl
    have hcoff : c.currentHashOffset = s.hashOffsets.getD j 0 := by
      rw [hc, ← a3]
    have hcret : c.ret = r.ret := by rw [hc]
    have hccount : c.solutionCount = r.solutionCount := by rw [hc]
    have hext := UniGen.schedule_extend conf st.lastSuccessfulHashOffset j hlso hj cs c
      s.hashOffsets hlenj hmap hoffs2 hcoff
    have hctrue : c.ret = l_True := hcret.trans ht
    refine ⟨cs ++ [c], ?_, ?_, ?_, ?_, ?_, ?_, ?_⟩
    · show (UniGen.record conf j (UniGen.approach independent_vars conf j s) r).calls = _
      rw [hcall, a2, hcalls, List.append_assoc]
    · rw [hext]
      exact List.take_prefix _ _
    · intro _ hall
      exact absurd hctrue (hall _ (List.mem_append_right _ (List.mem_singleton.mpr rfl)))
    · intro c2 hc2
      rw [List.dropLast_concat] at hc2
      exact hfalse c2 hc2
    · intro c2 hc2 _
      rw [List.getLast?_concat] at hc2
      injection hc2 with hc2
      rw [← hc2, hcoff]
    · intro hall
      exact absurd hctrue (hall _ (List.mem_append_right _ (List.mem_singleton.mpr rfl)))
    · show s.hashOffsets.getD j 0 ≤ 2
      rcases hoffs with ⟨h1, _, h2, _⟩ | ⟨_, h1⟩
      · rw [h1, h2]
        exact hlso
      · rw [h1]
        exact getD_le_two _ _ (probeSchedule_cases _ _ hlso).2.2.1
  · -- a call that returns `l_False`
    intro fuel j s r hI hj _ _ hf
    obtain ⟨h3, hj3, hl, cs, hcalls, hlenj, hfalse, hmap, hoffs⟩ := hI
    obtain ⟨_, a2, a3, a4, _⟩ := UniGen.approach_frame independent_vars conf j s
    obtain ⟨_, b2, b3, _⟩ := UniGen.adaptTail_frame conf j (s.hashOffsets.getD j 0)
      (UniGen.record conf j (UniGen.approach independent_vars conf j s) r)
    have hoffs2 : (j = 0 ∧ s.hashOffsets.getD 0 0 = st.lastSuccessfulHashOffset) ∨
        (0 < j ∧
          s.hashOffsets = probeSchedule st.lastSuccessfulHashOffset (firstBelow conf cs)) := by
      rcases hoffs with ⟨h1, _, h2, _⟩ | h1
      · exact Or.inl ⟨h1, h2⟩
      · exact Or.inr h1
    obtain ⟨c, hc⟩ : ∃ c : SampleCall, c =
        ⟨(UniGen.approach independent_vars conf j s).sampleCounter, j,
          (UniGen.approach independent_vars conf j s).hashOffsets.getD j 0,
          ((UniGen.approach independent_vars conf j s).hashOffsets.getD j 0 +
            conf.startIteration) % 2 ^ 32,
          (UniGen.approach independent_vars conf j s).assumptions,
          (UniGen.approach independent_vars conf j s).solver, r.ret, r.solutionCount⟩ :=
      ⟨_, rfl⟩
    have hcall : (UniGen.record conf j (UniGen.approach independent_vars conf j s) r).calls =
        (UniGen.approach independent_vars conf j s).calls ++ [c] := by
      rw [hc]
      rfl
    have hcoff : c.currentHashOffset = s.hashOffsets.getD j 0 := by
      rw [hc, ← a3]
    have hcret : c.ret = r.ret := by rw [hc]
    have hccount : c.solutionCount = r.solutionCount := by rw [hc]
    have hext := UniGen.schedule_extend conf st.lastSuccessfulHashOffset j hlso hj cs c
      s.hashOffsets hlenj hmap hoffs2 hcoff
    refine ⟨by omega, by omega, ?_, cs ++ [c], ?_, ?_, ?_, hext, Or.inr ⟨by omega, ?_⟩⟩
    · rw [b3]
      exact a4.trans hl
    · rw [b2, hcall, a2, hcalls, List.append_assoc]
    · rw [List.length_append, hlenj]
      rfl
    · intro c2 hc2
      rcases List.mem_append.mp hc2 with hc2 | hc2
      · exact hfalse c2 hc2
      · rw [List.mem_singleton.mp hc2]
        exact hcret.trans hf
    · rcases hoffs with ⟨h1, h2, h4, h5⟩ | ⟨h1, h2⟩
      · have hnil : cs = [] := List.length_eq_zero.mp (hlenj.trans h1)
        rw [hnil, h1, h4]
        by_cases hone : st.lastSuccessfulHashOffset = 1
        · rw [hone]
          have hrec : (UniGen.record conf 0 (UniGen.approach independent_vars conf 0 s)
              r).hashOffsets = s.hashOffsets := by
            show (UniGen.approach independent_vars conf 0 s).hashOffsets = _
            exact (UniGen.approach_frame independent_vars conf 0 s).2.2.1
          rw [UniGen.adaptTail_first conf _ (by rw [hrec]; exact h2)
            (by rw [hrec, h4]; exact hone)]
          show probeSchedule 1 (decide (r.solutionCount < conf.loThresh)) =
            probeSchedule 1 (decide (c.solutionCount < conf.loThresh))
          rw [hccount]
        · rw [UniGen.adaptTail_same conf 0 _ _ (by
            intro hcon
            exact hone hcon.2)]
          show (UniGen.approach independent_vars conf 0 s).hashOffsets = _
          rw [(UniGen.approach_frame independent_vars conf 0 s).2.2.1, h5 hone]
          exact ((probeSchedule_cases _ _ hlso).2.2.2 hone).symm
      · rw [UniGen.adaptTail_same conf j _ _ (by
          intro hcon
          omega)]
        show (UniGen.approach independent_vars conf j s).hashOffsets = _
        rw [a3, h2]
        obtain ⟨c0, rest, hcs⟩ : ∃ c0 rest, cs = c0 :: rest := by
          cases cs with
          | nil => exact absurd hlenj (by simp; omega)
          | cons c0 rest => exact ⟨c0, rest, rfl⟩
        rw [hcs]
        rfl
  · -- the head of the first iteration
    refine ⟨by omega, by omega, rfl, [], ?_, rfl, ?_, rfl, Or.inl ⟨rfl, hb1, hb2, hb3⟩⟩
    · show st.calls = st.calls ++ []
      rw [List.append_nil]
    · intro c hc
      exact absurd hc (List.not_mem_nil c)

end Main

namespace Main

/-- The loop over `j` of `UniGen` keeps the three entries of `hashOffsets`. -/
theorem UniGen.probes_offsets_length (independent_vars : List Nat) (conf : UniGenConf) :
    ∀ (fuel j : Nat) (st st1 : GenState), st.hashOffsets.length = 3 →
      UniGen.probes independent_vars conf fuel j st = some st1 →
      st1.hashOffsets.length = 3 := by
  intro fuel j st st1 hlen h
  refine UniGen.probes_rule independent_vars conf (fun _ _ s => s.hashOffsets.length = 3)
    (fun s => s.hashOffsets.length = 3) ?_ ?_ ?_ ?_ ?_ fuel j st hlen st1 h
  · intro j s hI; exact hI
  · intro fuel j s hI _; exact hI
  · intro fuel j s hI _ _
    rw [(UniGen.approach_frame independent_vars conf j s).2.2.1]
    exact hI
  · intro fuel j s r hI _ _ _ _
    show (UniGen.approach independent_vars conf j s).hashOffsets.length = 3
    rw [(UniGen.approach_frame independent_vars conf j s).2.2.1]
    exact hI
  · intro fuel j s r hI _ _ _ _
    have hrec : (UniGen.record conf j (UniGen.approach independent_vars conf j s)
        r).hashOffsets.length = 3 := by
      show (UniGen.approach independent_vars conf j s).hashOffsets.length = 3
      rw [(UniGen.approach_frame independent_vars conf j s).2.2.1]
      exact hI
    unfold UniGen.adaptTail
    split
    · split
      · show ((_ : List Nat).set 1 0 |>.set 2 2).length = 3
        rw [List.length_set, List.length_set]
        exact hrec
      · show ((_ : List Nat).set 1 2 |>.set 2 0).length = 3
        rw [List.length_set, List.length_set]
        exact hrec
    · exact hrec

/-- At the head of every iteration of the loop over the samples of `UniGen`, `hashOffsets`
has its three entries. -/
theorem UniGen.attempts_offsets_length (independent_vars : List Nat) (conf : UniGenConf)
    (samples : Nat) :
    ∀ (fuel i : Nat) (st : GenState) (b : Bool) (st1 : GenState),
      st.hashOffsets.length = 3 →
      UniGen.attempts independent_vars conf samples fuel i st = some (b, st1) →
      st1.hashOffsets.length = 3 := by
  intro fuel i st b st1 hlen h
  have hbegin : ∀ s : GenState, s.hashOffsets.length = 3 →
      (UniGen.beginAttempt s).hashOffsets.length = 3 := by
    intro s hs
    unfold UniGen.beginAttempt
    dsimp only
    split
    · rw [List.length_set, List.length_set, List.length_set]
      exact hs
    · split
      · rw [List.length_set, List.length_set, List.length_set]
        exact hs
      · rw [List.length_set]
        exact hs
  refine UniGen.attempts_rule independent_vars conf samples
    (fun _ s => s.hashOffsets.length = 3) (fun _ s => s.hashOffsets.length = 3)
    ?_ ?_ ?_ ?_ fuel i st hlen b st1 h
  · intro i s hs; exact hs
  · intro i s hs _; exact hs
  · intro i s s1 hs _ hp _
    exact UniGen.probes_offsets_length independent_vars conf 9 0 _ s1 (hbegin s hs) hp
  · intro i s s1 hs _ hp _
    exact UniGen.probes_offsets_length independent_vars conf 9 0 _ s1 (hbegin s hs) hp

end Main

/-! ## The retries of `ApproxMC` -/

namespace Main

/-- The inner loop of `ApproxMC` follows the retry rule, keeps the retry counter at most 2,
and is left, unless by the deadline or for lack of fuel, after a call that returned a
positive count. -/
theorem ApproxMC.inner_retry (independent_vars : List Nat) (conf : ApproxMCConf) :
    ∀ (fuel hashCount : Nat) (st : MCState),
      List.Chain' retryStep st.calls →
      (∀ c, c ∈ st.calls → c.repeatTry ≤ 2) → st.repeatTry ≤ 2 →
      (∀ c, st.calls.getLast? = some c → c.result ≤ 0 → c.solver.numVars < 2 ^ 32 →
        hashCount < st.solver.numVars ∧
        (c.repeatTry < 2 →
          hashCount = c.hashCount ∧ st.repeatTry = c.repeatTry + 1 ∧
          st.assumptions =
            (List.range c.hashCount).map (fun i => Lit.mk (c.solver.nVars + 1 + i) true)) ∧
        (2 ≤ c.repeatTry →
          hashCount = c.hashCount + 1 ∧ st.repeatTry = 0 ∧
          st.assumptions = (List.range (c.hashCount + 1)).map
            (fun i => Lit.mk (c.solver.nVars + 1 + i) true))) →
      List.Chain' retryStep (ApproxMC.inner independent_vars conf fuel hashCount st).2.calls ∧
      (∀ c, c ∈ (ApproxMC.inner independent_vars conf fuel hashCount st).2.calls →
        c.repeatTry ≤ 2) ∧
      (ApproxMC.inner independent_vars conf fuel hashCount st).2.repeatTry ≤ 2 ∧
      ((ApproxMC.inner independent_vars conf fuel hashCount st).1 = none ∨
        (ApproxMC.inner independent_vars conf fuel hashCount st).2.elapsedOver = true ∨
        ∀ c, (ApproxMC.inner independent_vars conf fuel hashCount st).2.calls.getLast? =
          some c → c.solver.numVars < 2 ^ 32 → 0 < c.result) := by
  intro fuel
  induction fuel with
  | zero =>
    intro hashCount st hchain hall hrt _
    exact ⟨hchain, hall, hrt, Or.inl rfl⟩
  | succ fuel ih =>
    intro hashCount st hchain hall hrt hlast
    have hframe := BoundedSATCount_frame independent_vars ((conf.pivotApproxMC + 1) % 2 ^ 32)
      st.solver st.assumptions
    -- the call made in this iteration, and the list of calls with it
    obtain ⟨cnew, hcnew⟩ : ∃ c : CountCall, c = ⟨hashCount, st.assumptions, st.repeatTry,
        st.solver, (BoundedSATCount independent_vars ((conf.pivotApproxMC + 1) % 2 ^ 32)
          st.solver st.assumptions).1⟩ := ⟨_, rfl⟩
    have hchain1 : List.Chain' retryStep (st.calls ++ [cnew]) := by
      rw [List.chain'_append]
      refine ⟨hchain, List.chain'_singleton _, ?_⟩
      intro x hx y hy
      have hy2 : y = cnew := by
        simp only [List.head?_cons, Option.mem_def, Option.some.injEq] at hy
        exact hy.symm
      intro hres hsmall
      obtain ⟨_, h1, h2⟩ := hlast x hx hres hsmall
      rw [hy2, hcnew]
      refine ⟨fun hlt => ?_, fun hge => ?_⟩
      · obtain ⟨e1, e2, e3⟩ := h1 hlt
        exact ⟨e1, e2, e3⟩
      · obtain ⟨e1, e2, e3⟩ := h2 hge
        exact ⟨e1, e2, e3⟩
    have hall1 : ∀ c, c ∈ st.calls ++ [cnew] → c.repeatTry ≤ 2 := by
      intro c hc
      rw [List.mem_append, List.mem_singleton] at hc
      rcases hc with hc | hc
      · exact hall c hc
      · rw [hc, hcnew]
        exact hrt
    have hlastnew : ∀ c, (st.calls ++ [cnew]).getLast? = some c → c = cnew := by
      intro c hc
      rw [List.getLast?_concat] at hc
      injection hc with hc
      exact hc.symm
    rw [ApproxMC.inner.eq_def]
    simp only
    rw [← hcnew]
    split
    · rename_i hguard
      have hguard1 : hashCount < st.solver.numVars := hguard
      split
      · -- the deadline
        exact ⟨hchain, hall, hrt, Or.inr (Or.inl (by assumption))⟩
      · split
        · rename_i hnonpos
          split
          · -- a retry
            rename_i hlt
            refine ih _ _ hchain1 hall1 (by show st.repeatTry + 1 ≤ 2; omega) ?_
            intro c hc hres hsmall
            have hc2 := hlastnew c hc
            rw [hc2, hcnew] at hsmall ⊢
            have hsmall2 : st.solver.numVars < 2 ^ 32 := hsmall
            have hback : ((2 ^ 32 - 1 + hashCount) % 2 ^ 32 + 1) % 2 ^ 32 = hashCount := by
              omega
            rw [hback]
            refine ⟨?_, fun _ => ⟨rfl, rfl, ?_⟩, fun hge => ?_⟩
            · show hashCount < (AddHash independent_vars hashCount _ [] _).1.numVars
              rw [AddHash_numVars, hframe.2]
              omega
            · show (AddHash independent_vars hashCount _ [] _).2.1 = _
              rw [AddHash_assumptions, hframe.2, List.nil_append]
              rfl
            · have hge2 : 2 ≤ st.repeatTry := hge
              omega
          · -- two retries were made: on to the next hash count
            rename_i hge
            refine ih _ _ hchain1 hall1 (by show 0 ≤ 2; omega) ?_
            intro c hc hres hsmall
            have hc2 := hlastnew c hc
            rw [hc2, hcnew] at hsmall ⊢
            have hsmall2 : st.solver.numVars < 2 ^ 32 := hsmall
            have hnext : (hashCount + 1) % 2 ^ 32 = hashCount + 1 :=
              Nat.mod_eq_of_lt (by omega)
            rw [hnext]
            refine ⟨?_, fun hlt => ?_, fun _ => ⟨rfl, rfl, ?_⟩⟩
            · show hashCount + 1 < (AddHash independent_vars (hashCount + 1) _ [] _).1.numVars
              rw [AddHash_numVars, hframe.2]
              omega
            · have hlt2 : st.repeatTry < 2 := hlt
              exact absurd hlt2 hge
            · show (AddHash independent_vars (hashCount + 1) _ [] _).2.1 = _
              rw [AddHash_assumptions, hframe.2, List.nil_append]
              rfl
        · rename_i hpos
          have hpos1 : 0 < cnew.result := by
            rw [hcnew]
            show 0 < (BoundedSATCount independent_vars ((conf.pivotApproxMC + 1) % 2 ^ 32)
              st.solver st.assumptions).1
            omega
          split
          · -- the count reached the cap: one more hash
            refine ih _ _ hchain1 hall1 hrt ?_
            intro c hc hres _
            have hc2 := hlastnew c hc
            rw [hc2] at hres
            omega
          · -- a count below the cap: the loop is left
            refine ⟨hchain1, hall1, hrt, Or.inr (Or.inr ?_)⟩
            intro c hc _
            rw [hlastnew c hc]
            exact hpos1
    · -- `hashCount < nVars` fails
      rename_i hguard
      refine ⟨hchain, hall, hrt, Or.inr (Or.inr ?_)⟩
      intro c hc hsmall
      by_contra hres
      have := (hlast c hc (by omega) hsmall).1
      exact hguard this

/-- The trials of `ApproxMC`, started after a call that returned a positive count (or before
any call): the calls follow the retry rule and the retry counter stays at most 2. -/
theorem ApproxMC.trials_retry (independent_vars : List Nat) (conf : ApproxMCConf)
    (fuel : Nat) :
    ∀ (t : Nat) (st : MCState),
      List.Chain' retryStep st.calls →
      (∀ c, c ∈ st.calls → c.repeatTry ≤ 2) → st.repeatTry ≤ 2 →
      (∀ c, st.calls.getLast? = some c → c.solver.numVars < 2 ^ 32 → 0 < c.result) →
      List.Chain' retryStep (ApproxMC.trials independent_vars conf fuel t st).2.calls ∧
      (∀ c, c ∈ (ApproxMC.trials independent_vars conf fuel t st).2.calls →
        c.repeatTry ≤ 2) ∧
      (ApproxMC.trials independent_vars conf fuel t st).2.repeatTry ≤ 2 := by
  intro t
  induction t with
  | zero => intro st h1 h2 h3 _; exact ⟨h1, h2, h3⟩
  | succ t ih =>
    intro st hchain hall hrt hpos
    have hin := ApproxMC.inner_retry independent_vars conf fuel 0 st hchain hall hrt
      (fun c hc hres hsmall => absurd (hpos c hc hsmall) (by omega))
    rw [ApproxMC.trials.eq_def]
    simp only
    generalize ApproxMC.inner independent_vars conf fuel 0 st = r at hin ⊢
    obtain ⟨o, st1⟩ := r
    cases o with
    | none => exact ⟨hin.1, hin.2.1, hin.2.2.1⟩
    | some h1 =>
      simp only
      split
      · exact ⟨hin.1, hin.2.1, hin.2.2.1⟩
      · rename_i hnot
        refine ih _ hin.1 hin.2.1 hin.2.2.1 ?_
        rcases hin.2.2.2 with h | h | h
        · exact Option.noConfusion h
        · exact absurd h hnot
        · exact h

end Main

/-- In a list of calls that follows the retry rule with retry counters at most 2: after
three calls in a row at one `hashCount` with a non-positive result, the next call is made at
`hashCount + 1` with the retry counter 0, so no fourth call in a row is made at that
`hashCount`. -/
theorem retryStep_fourth (l1 l2 : List Main.CountCall) (c1 c2 c3 c4 : Main.CountCall)
    (hchain : List.Chain' retryStep (l1 ++ c1 :: c2 :: c3 :: c4 :: l2))
    (hall : ∀ c, c ∈ l1 ++ c1 :: c2 :: c3 :: c4 :: l2 → c.repeatTry ≤ 2)
    (hs1 : c1.solver.nVars < 2 ^ 32) (hs2 : c2.solver.nVars < 2 ^ 32)
    (hs3 : c3.solver.nVars < 2 ^ 32)
    (hr1 : c1.result ≤ 0) (hr2 : c2.result ≤ 0) (hr3 : c3.result ≤ 0)
    (h2 : c2.hashCount = c1.hashCount) (h3 : c3.hashCount = c1.hashCount) :
    c1.repeatTry = 0 ∧ c2.repeatTry = 1 ∧ c3.repeatTry = 2 ∧
      c4.hashCount = c1.hashCount + 1 ∧ c4.repeatTry = 0 := by
  have hc := (List.chain'_append.mp hchain).2.1
  rw [List.chain'_cons] at hc
  obtain ⟨s12, hc⟩ := hc
  rw [List.chain'_cons] at hc
  obtain ⟨s23, hc⟩ := hc
  rw [List.chain'_cons] at hc
  obtain ⟨s34, -⟩ := hc
  have s12 := s12 hr1 hs1
  have s23 := s23 hr2 hs2
  have s34 := s34 hr3 hs3
  have b3 : c3.repeatTry ≤ 2 := hall c3 (by simp)
  have a1 : c1.repeatTry < 2 := by
    by_contra hge
    have := (s12.2 (by omega)).1
    omega
  have a2 : c2.repeatTry < 2 := by
    by_contra hge
    have := (s23.2 (by omega)).1
    omega
  have e2 := (s12.1 a1).2.1
  have e3 := (s23.1 a2).2.1
  have a3 : 2 ≤ c3.repeatTry := by omega
  obtain ⟨f1, f2, -⟩ := s34.2 a3
  exact ⟨by omega, by omega, by omega, by omega, f2⟩

/-- A list of four elements is the list of its four entries. -/
theorem four_entries {α : Type} (l : List α) (h : l.length = 4) :
    l = [] ++ l.get ⟨0, by omega⟩ :: l.get ⟨1, by omega⟩ :: l.get ⟨2, by omega⟩ ::
      l.get ⟨3, by omega⟩ :: [] := by
  match l, h with
  | [_, _, _, _], _ => rfl

/-! ## Defined reads of `AddHash` and defined arithmetic of the scaling loop -/

/-- When the size `(|S| + 1) * numClaus` and the loop counter of `GenerateRandomBits` fit 32
bits, every read of `AddHash` is inside the generated string. -/
theorem Main.AddHash.readsDefined_fits (independent_vars : List Nat) (numClaus : Nat)
    (e : RandomEngine) (hsize : (independent_vars.length + 1) * numClaus + 31 ≤ 2 ^ 32) :
    Main.AddHash.readsDefined independent_vars numClaus e = true := by
  have hmod : ((independent_vars.length + 1) * numClaus) % 2 ^ 32 =
      (independent_vars.length + 1) * numClaus := Nat.mod_eq_of_lt (by omega)
  have hlen := (Main.GenerateRandomBits_length ((independent_vars.length + 1) * numClaus) e
    hsize).2
  unfold Main.AddHash.readsDefined
  simp only
  rw [hmod, List.all_eq_true]
  intro i hi
  have hi2 : i < numClaus := List.mem_range.mp hi
  have hmul : (independent_vars.length + 1) * (i + 1) ≤
      (independent_vars.length + 1) * numClaus := Nat.mul_le_mul_left _ hi2
  rw [Nat.mul_add, Nat.mul_one] at hmul
  rw [Bool.and_eq_true, decide_eq_true_iff, List.all_eq_true]
  refine ⟨by omega, ?_⟩
  intro j hj
  have hj2 : j < independent_vars.length := List.mem_range.mp hj
  rw [decide_eq_true_iff]
  omega

/-- When the generated string is empty, a call of `AddHash` with at least one hash and at
least two independent variables reads index 1, outside the string. -/
theorem Main.AddHash.readsDefined_empty (independent_vars : List Nat) (numClaus : Nat)
    (e : RandomEngine) (hk : 0 < numClaus) (hS : 1 < independent_vars.length)
    (hlen : (Main.GenerateRandomBits ""
      (((independent_vars.length + 1) * numClaus) % 2 ^ 32) e).1.length = 0) :
    Main.AddHash.readsDefined independent_vars numClaus e = false := by
  unfold Main.AddHash.readsDefined
  simp only
  rw [List.all_eq_false]
  refine ⟨0, List.mem_range.mpr hk, ?_⟩
  intro h
  rw [Bool.and_eq_true] at h
  have h1 := List.all_eq_true.mp h.2 1 (List.mem_range.mpr hS)
  rw [decide_eq_true_iff, hlen] at h1
  omega

/-- The arithmetic of the scaling loop is defined on the two lists of a list of records iff
it is for every record. -/
theorem Main.ApproxMC.scaleFits_records (minHash : Int) (rs : List (Int × Int)) :
    Main.ApproxMC.scaleFits minHash (rs.map Prod.fst) (rs.map Prod.snd) = true ↔
      ∀ r, r ∈ rs → 0 ≤ r.1 - minHash ∧ r.1 - minHash ≤ 1023 ∧
        -2147483648 ≤ r.2 * 2 ^ (r.1 - minHash).toNat ∧
        r.2 * 2 ^ (r.1 - minHash).toNat ≤ 2147483647 := by
  induction rs with
  | nil => simp [Main.ApproxMC.scaleFits]
  | cons r rs ih =>
    simp only [List.map_cons, Main.ApproxMC.scaleFits, Bool.and_eq_true, decide_eq_true_iff,
      ih, List.mem_cons, forall_eq_or_imp]

/-! ## The claims -/

/-- C1 (the code departs from the claim). With cap 3, a solver that answers SAT once and then
UNSAT has one projected model, yet `BoundedSATCount` returns 2 and not min(3, 1) = 1; when the
first answer is already UNSAT it returns 1 and not 0. The count includes the `solve` call that
ended the loop. -/
theorem C1_BoundedSATCount_counts_closing_call :
    (Main.BoundedSATCount [0] 3 (solverWith 1 oneModel) []).1 = 2 ∧
    (Main.BoundedSATCount [0] 3 (solverWith 1 (fun _ => unsatAnswer)) []).1 = 1 := by
  decide

/-- C2 (the code departs from the claim). With SAT on the first two `solve` calls and
INDETERMINATE on the third, `BoundedSATCount` returns -3 and not -2: the absolute value is the
number of `solve` calls, not the partial count. -/
theorem C2_BoundedSATCount_timeout_value :
    (Main.BoundedSATCount [0] 5 (solverWith 1 twoThenIndet) []).1 = -3 := by
  decide

/-- C3 (the code departs from the claim). When the second `solve` call inside `BoundedSAT`
returns INDETERMINATE, the call returns `l_True` (band (0, 5)) or `l_False` (band (3, 5)),
never `l_Undef`. -/
theorem C3_BoundedSAT_hides_timeout :
    (Main.BoundedSAT [0] false 5 0 (solverWith 1 oneThenIndet) [] (constEngine 0) []).map
        (fun r => r.ret) = some l_True ∧
    (Main.BoundedSAT [0] false 5 3 (solverWith 1 oneThenIndet) [] (constEngine 0) []).map
        (fun r => r.ret) = some l_False := by
  decide

/-- C4 (the code departs from the claim). On a one-variable input with pivot 1 and one trial,
a solver that answers UNSAT to every call and a deadline that never fires, `ApproxMC` returns
(cellSolCount, hashCount) = (1, 0) and not (0, 0). -/
theorem C4_ApproxMC_unsat_reports_one :
    (Main.ApproxMC [0] ⟨1, 1⟩ 1 (solverWith 1 (fun _ => unsatAnswer)) (constEngine 0)
        quietClock).map (fun r => r.1) = some ⟨1, 0⟩ := by
  decide

/-- C5 (the code departs from the claim). For the three counts 1, 2, 3 `findMedian` returns 3,
the element at 1-indexed position 3 of the sorted list, while position ⌈(3+1)/2⌉ = 2 holds the
median 2. -/
theorem C5_findMedian_three_counts :
    findMedian [1, 2, 3] = 3 ∧
    ([1, 2, 3].insertionSort (fun (a b : Int) => a ≤ b)).get? ((3 + 1 + 1) / 2 - 1) = some 2 := by
  decide

/-- C6 (the code departs from the claim). `BoundedSAT(10, 2, ...)` on a solver with exactly two
models returns `l_True` and adds a sample although the number of models it enumerated and
reports, 2, is not above `minSolutions = 2`. -/
theorem C6_BoundedSAT_accepts_lower_bound :
    (Main.BoundedSAT [0] false 10 2 (solverWith 1 twoModels) [] (constEngine 0) []).map
        (fun r => (r.ret, r.solutionCount, r.solutionMap)) =
      some (l_True, 2, [("v-1 0", 1)]) := by
  decide

/-- C7 (the code departs from the claim). With `independent_vars = [0, 1]` and a block of
random bits that starts with the character `1`, the rhs `AddHash` passes to `add_xor_clause`
is `false`. -/
theorem C7_AddHash_rhs_ignores_first_bit :
    charAt (Main.GenerateRandomBits "" 3 highBitEngine).1 0 = '1' ∧
    ((Main.AddHash [0, 1] 1 (solverWith 2 (fun _ => unsatAnswer)) [] highBitEngine).1.xors.map
        (fun x => x.2)) = [false] := by
  decide

/-- C8 (the code departs from the claim). With `independent_vars = [0, 1]` and a block of
random bits b0 b1 b2 = 1 0 0, the variable list `AddHash` passes to `add_xor_clause` is the
activation variable 2 followed by `S[0] = 0`: bit b0 selected a variable although b1 and b2 are
not set. -/
theorem C8_AddHash_first_bit_selects_variable :
    charAt (Main.GenerateRandomBits "" 3 highBitEngine).1 0 = '1' ∧
    charAt (Main.GenerateRandomBits "" 3 highBitEngine).1 1 = '0' ∧
    charAt (Main.GenerateRandomBits "" 3 highBitEngine).1 2 = '0' ∧
    ((Main.AddHash [0, 1] 1 (solverWith 2 (fun _ => unsatAnswer)) [] highBitEngine).1.xors.map
        (fun x => x.1)) = [[2, 0]] := by
  decide

/-- C9 as stated fails: for S = [0,1,2] and the model (false, true, false) the string is not
`v -1 2 -3 0`. -/
theorem C9_projection_has_no_blank_after_v :
    Main.solutionString [0, 1, 2] [l_False, l_True, l_False] ≠ "v -1 2 -3 0" := by
  decide

/-- C9, amended. For every model that defines all variables of S, the string `BoundedSAT`
builds is `v`, then for each variable of S in order its 1-based index, prefixed with `-` when
the variable is false and followed by a blank, then `0`; there is no blank after `v`. For
S = [0,1,2] and the model (false, true, false) it is exactly `v-1 2 -3 0`. -/
theorem C9_projection_format (independent_vars : List Nat) (model : List lbool)
    (hdef : ∀ var, var ∈ independent_vars → modelAt model var ≠ l_Undef) :
    Main.solutionString independent_vars model =
        "v" ++ String.join (independent_vars.map (fun var =>
          (if modelAt model var = l_True then "" else "-") ++ toString (var + 1) ++ " ")) ++ "0" ∧
    Main.solutionString [0, 1, 2] [l_False, l_True, l_False] = "v-1 2 -3 0" := by
  refine ⟨?_, by decide⟩
  unfold Main.solutionString
  rw [Main.solutionString_loop model independent_vars "v" hdef]

/-- C9, amended, at S = [0,1,2] and the model (false, true, false). -/
theorem C9_projection_format_witness :
    (∀ var, var ∈ [0, 1, 2] → modelAt [l_False, l_True, l_False] var ≠ l_Undef) ∧
    Main.solutionString [0, 1, 2] [l_False, l_True, l_False] =
        "v" ++ String.join ([0, 1, 2].map (fun var =>
          (if modelAt [l_False, l_True, l_False] var = l_True then "" else "-") ++
            toString (var + 1) ++ " ")) ++ "0" :=
  ⟨by decide, (C9_projection_format [0, 1, 2] [l_False, l_True, l_False] (by decide)).1⟩

/-- C10 (the code departs from the claim). After `ApproxMC` has run on the first solver, a new
solver object loaded from the same one-variable CNF (no declared independent set) has 1
variable, yet `independent_vars` becomes [0, 1], the range of the first solver's 2 variables;
for the first solver itself the default was [0]. -/
theorem C10_default_set_reads_first_solver :
    (loadedObj.independent_vars, (loadedObj.heap 0).nVars) = ([0], 1) ∧
    reloadedObj.map (fun m => (m.independent_vars, (m.heap 1).nVars, (m.heap 0).nVars)) =
      some ([0, 1], 1, 2) := by
  decide

/-- C11 as stated fails: asked for 1 bit on an empty string, `GenerateRandomBits` produces a
string whose length is not 1 (it is 31, one whole block). -/
theorem C11_one_bit_gives_a_block :
    (Main.GenerateRandomBits "" 1 (constEngine 0)).1.length ≠ 1 ∧
    (Main.GenerateRandomBits "" 1 (constEngine 0)).1.length = 31 := by
  decide

/-- C11, amended. For every size `n` that the 32-bit counter reaches without wrapping
(`n + 31 ≤ 2 ^ 32`), `GenerateRandomBits` called with size `n` on an empty string produces a
string of whole 31-character blocks: its length is 31 * ⌈n / 31⌉, which is at least `n`, and
every character is `0` or `1`. -/
theorem C11_random_bits_blocks (n : Nat) (e : RandomEngine) (hsize : n + 31 ≤ 2 ^ 32) :
    (Main.GenerateRandomBits "" n e).1.length = 31 * ((n + 30) / 31) ∧
    n ≤ (Main.GenerateRandomBits "" n e).1.length ∧
    ∀ c, c ∈ (Main.GenerateRandomBits "" n e).1.data → c = '0' ∨ c = '1' := by
  have hlen := Main.GenerateRandomBits.loop_length n hsize n 0 "" e (by omega)
  have hlen2 : (Main.GenerateRandomBits "" n e).1.length = 31 * ((n + 30) / 31) := by
    rw [Main.GenerateRandomBits, hlen]
    show 0 + _ = _
    simp
  refine ⟨hlen2, ?_, Main.GenerateRandomBits.loop_bits n n 0 "" e (by simp)⟩
  rw [hlen2]
  omega

/-- C11, amended, at size 40: two blocks, 62 characters. -/
theorem C11_random_bits_blocks_witness :
    40 + 31 ≤ 2 ^ 32 ∧
    (Main.GenerateRandomBits "" 40 (constEngine 5)).1.length = 31 * ((40 + 30) / 31) ∧
    40 ≤ (Main.GenerateRandomBits "" 40 (constEngine 5)).1.length ∧
    ∀ c, c ∈ (Main.GenerateRandomBits "" 40 (constEngine 5)).1.data → c = '0' ∨ c = '1' :=
  ⟨by decide, C11_random_bits_blocks 40 (constEngine 5) (by decide)⟩

/-- C12. In both `BoundedSATCount` and `BoundedSAT`, whatever the solver answers, the clauses
the call adds are one blocking clause per model saved by the enumeration followed by exactly
one unit clause on the fresh activation variable `e` (the variable with index `nVars` before
the call), which therefore comes after every blocking clause. For `BoundedSAT` this holds of
the solver with which the call is left on every path, the one that throws
`std::out_of_range` included; a returning call hands back that solver; and the call throws
exactly when its call counter is in the band and it saved fewer models than it has samples to
return, so in every other case it returns. -/
theorem C12_cleanup_clause_once_and_last (independent_vars : List Nat) (multisample : Bool)
    (maxSolutions minSolutions : Nat) (solver : SATSolver) (assumptions : List Lit)
    (e : RandomEngine) (solutionMap : SolutionMap) :
    (Main.BoundedSATCount independent_vars maxSolutions solver assumptions).2.clauses =
      solver.clauses ++
        (Main.BoundedSAT.enumerate independent_vars maxSolutions solver
          assumptions).modelsSet.map (Main.banLits independent_vars solver.numVars) ++
        [[Lit.mk solver.numVars false]] ∧
    (Main.BoundedSAT.exit independent_vars multisample maxSolutions minSolutions solver
        assumptions e solutionMap).2.solver.clauses =
      solver.clauses ++
        (Main.BoundedSAT.exit independent_vars multisample maxSolutions minSolutions solver
          assumptions e solutionMap).2.modelsSet.map
            (Main.banLits independent_vars solver.numVars) ++
        [[Lit.mk solver.numVars false]] ∧
    (∀ r, Main.BoundedSAT independent_vars multisample maxSolutions minSolutions solver
        assumptions e solutionMap = some r →
      r.solver = (Main.BoundedSAT.exit independent_vars multisample maxSolutions minSolutions
        solver assumptions e solutionMap).2.solver) ∧
    (Main.BoundedSAT independent_vars multisample maxSolutions minSolutions solver
        assumptions e solutionMap = none ↔
      ((Main.BoundedSAT.exit independent_vars multisample maxSolutions minSolutions solver
          assumptions e solutionMap).2.current_nr_of_solutions < maxSolutions ∧
        (Main.BoundedSAT.exit independent_vars multisample maxSolutions minSolutions solver
          assumptions e solutionMap).2.current_nr_of_solutions > minSolutions) ∧
      (Main.BoundedSAT.exit independent_vars multisample maxSolutions minSolutions solver
        assumptions e solutionMap).2.modelsSet.length <
        Main.SolutionsToReturn multisample minSolutions) := by
  rw [Main.BoundedSAT.exit_locals]
  refine ⟨?_, Main.BoundedSAT.enumerate_clauses _ _ _ _, ?_, ?_⟩
  · rw [← Main.BoundedSAT.enumerate_solver]
    exact Main.BoundedSAT.enumerate_clauses _ _ _ _
  · intro r hr
    rw [Main.BoundedSAT_eq_enumerate] at hr
    split at hr
    · split at hr
      · exact absurd hr (by simp)
      · injection hr with hr
        rw [← hr]
    · injection hr with hr
      rw [← hr]
  · constructor
    · intro hnone
      by_cases hband : (Main.BoundedSAT.enumerate independent_vars maxSolutions solver
          assumptions).current_nr_of_solutions < maxSolutions ∧
        (Main.BoundedSAT.enumerate independent_vars maxSolutions solver
          assumptions).current_nr_of_solutions > minSolutions
      · refine ⟨hband, ?_⟩
        by_contra hfew
        obtain ⟨m1, e1, _, hret⟩ := Main.BoundedSAT_inRange independent_vars multisample
          maxSolutions minSolutions solver assumptions e solutionMap hband (by omega)
        rw [hret] at hnone
        exact Option.noConfusion hnone
      · rw [Main.BoundedSAT_outOfRange independent_vars multisample maxSolutions minSolutions
          solver assumptions e solutionMap hband] at hnone
        exact Option.noConfusion hnone
    · intro h
      exact Main.BoundedSAT_throws independent_vars multisample maxSolutions minSolutions
        solver assumptions e solutionMap h.1 h.2

/-- C12 on the call `BoundedSAT(5, 0, ...)` without multisample on a one-variable solver
that answers UNSAT at once: the call counter 1 is in the band and no model is saved, so the
call throws; the solver it leaves behind holds the unit clause on the fresh variable 1 and
nothing else. -/
theorem C12_cleanup_clause_once_and_last_witness :
    Main.BoundedSAT [0] false 5 0 (solverWith 1 (fun _ => unsatAnswer)) [] (constEngine 0) [] =
      none ∧
    (Main.BoundedSAT.exit [0] false 5 0 (solverWith 1 (fun _ => unsatAnswer)) [] (constEngine 0)
      []).2.solver.clauses = [[Lit.mk 1 false]] :=
  ⟨(C12_cleanup_clause_once_and_last [0] false 5 0 (solverWith 1 (fun _ => unsatAnswer)) []
      (constEngine 0) []).2.2.2.mpr (by decide),
    (C12_cleanup_clause_once_and_last [0] false 5 0 (solverWith 1 (fun _ => unsatAnswer)) []
      (constEngine 0) []).2.1.trans (by decide)⟩

/-- C13. Whatever the solver answers, every clause `BoundedSATCount` adds contains the positive
literal of its fresh variable `e`, the literal its final unit clause asserts, and it adds no
XOR; so, on a solver whose clauses mention only existing variables, an assignment satisfies
the clause set before the call iff the assignment that also gives `e` the value true satisfies
the clause set after the call. -/
theorem C13_enumerator_keeps_satisfiability (independent_vars : List Nat) (maxSolutions : Nat)
    (solver : SATSolver) (assumptions : List Lit) (σ : Nat → Bool)
    (hwf : ∀ c, c ∈ solver.clauses → ∀ l, l ∈ c → l.var < solver.nVars) :
    (∃ added,
      (Main.BoundedSATCount independent_vars maxSolutions solver assumptions).2.clauses =
        solver.clauses ++ added ∧
      (∀ c, c ∈ added → Lit.mk solver.nVars false ∈ c) ∧
      added.getLast? = some [Lit.mk solver.nVars false]) ∧
    (Main.BoundedSATCount independent_vars maxSolutions solver assumptions).2.xors =
      solver.xors ∧
    clausesHold σ solver.clauses =
      clausesHold (Function.update σ solver.nVars true)
        (Main.BoundedSATCount independent_vars maxSolutions solver assumptions).2.clauses := by
  have hcl : (Main.BoundedSATCount independent_vars maxSolutions solver assumptions).2.clauses =
      solver.clauses ++
        ((Main.BoundedSAT.enumerate independent_vars maxSolutions solver
          assumptions).modelsSet.map (Main.banLits independent_vars solver.numVars) ++
        [[Lit.mk solver.numVars false]]) := by
    rw [← Main.BoundedSAT.enumerate_solver, Main.BoundedSAT.enumerate_clauses,
      List.append_assoc]
  have hadded : ∀ c, c ∈ (Main.BoundedSAT.enumerate independent_vars maxSolutions solver
      assumptions).modelsSet.map (Main.banLits independent_vars solver.numVars) ++
      [[Lit.mk solver.numVars false]] → Lit.mk solver.nVars false ∈ c := by
    intro c hc
    rw [List.mem_append] at hc
    rcases hc with hc | hc
    · rw [List.mem_map] at hc
      obtain ⟨m, _, rfl⟩ := hc
      rw [Main.banLits_eq]
      exact List.mem_cons_self _ _
    · rw [List.mem_singleton] at hc
      rw [hc]
      exact List.mem_singleton.mpr rfl
  refine ⟨⟨_, hcl, hadded, by simp [SATSolver.nVars]⟩, Main.BoundedSATCount_xors _ _ _ _, ?_⟩
  rw [hcl]
  unfold clausesHold
  rw [List.all_append]
  have hold : solver.clauses.all (clauseHolds (Function.update σ solver.nVars true)) =
      solver.clauses.all (clauseHolds σ) := by
    apply all_eq_of_forall_mem
    intro c hc
    exact clauseHolds_update σ _ true c (fun l hl => Nat.ne_of_lt (hwf c hc l hl))
  have hnew : (((Main.BoundedSAT.enumerate independent_vars maxSolutions solver
      assumptions).modelsSet.map (Main.banLits independent_vars solver.numVars) ++
      [[Lit.mk solver.numVars false]]).all
        (clauseHolds (Function.update σ solver.nVars true))) = true := by
    rw [List.all_eq_true]
    intro c hc
    exact clauseHolds_of_mem σ _ c (hadded c hc)
  rw [hold, hnew, Bool.and_true]

/-- C13 on the solver loaded with the unit clause `x0`, cap 3, and the assignment that makes
every variable true. -/
theorem C13_enumerator_keeps_satisfiability_witness :
    (∀ c, c ∈ unitSolver.clauses → ∀ l, l ∈ c → l.var < unitSolver.nVars) ∧
    clausesHold (fun _ => true) unitSolver.clauses =
      clausesHold (Function.update (fun _ => true) unitSolver.nVars true)
        (Main.BoundedSATCount [0] 3 unitSolver []).2.clauses :=
  ⟨by decide,
    (C13_enumerator_keeps_satisfiability [0] 3 unitSolver [] (fun _ => true) (by decide)).2.2⟩

/-- C15. On a solution map with distinct keys whose counts, with the samples of this call
added, sum to less than `2 ^ 32` (so that no 32-bit count wraps): a call of `BoundedSAT` whose
call counter is in the band and which saved at least `SolutionsToReturn(minSolutions)` models
returns `l_True`, and the sum of all counts has grown by exactly
`SolutionsToReturn(minSolutions)`, which is 1 without multisample and `minSolutions` with it;
a call whose counter is outside the band returns `l_False` and leaves the map unchanged; and
these are the only ways in which the call returns. -/
theorem C15_samples_per_successful_attempt (independent_vars : List Nat) (multisample : Bool)
    (maxSolutions minSolutions : Nat) (solver : SATSolver) (assumptions : List Lit)
    (e : RandomEngine) (solutionMap : SolutionMap)
    (hkeys : (solutionMap.map Prod.fst).Nodup)
    (hfit : (solutionMap.map Prod.snd).sum +
      Main.SolutionsToReturn multisample minSolutions < 2 ^ 32) :
    (((Main.BoundedSAT.exit independent_vars multisample maxSolutions minSolutions solver
          assumptions e solutionMap).2.current_nr_of_solutions < maxSolutions ∧
        (Main.BoundedSAT.exit independent_vars multisample maxSolutions minSolutions solver
          assumptions e solutionMap).2.current_nr_of_solutions > minSolutions) →
      Main.SolutionsToReturn multisample minSolutions ≤
        (Main.BoundedSAT.exit independent_vars multisample maxSolutions minSolutions solver
          assumptions e solutionMap).2.modelsSet.length →
      ∃ r, Main.BoundedSAT independent_vars multisample maxSolutions minSolutions solver
          assumptions e solutionMap = some r ∧ r.ret = l_True ∧
        (r.solutionMap.map Prod.snd).sum =
          (solutionMap.map Prod.snd).sum + Main.SolutionsToReturn multisample minSolutions) ∧
    (¬ ((Main.BoundedSAT.exit independent_vars multisample maxSolutions minSolutions solver
          assumptions e solutionMap).2.current_nr_of_solutions < maxSolutions ∧
        (Main.BoundedSAT.exit independent_vars multisample maxSolutions minSolutions solver
          assumptions e solutionMap).2.current_nr_of_solutions > minSolutions) →
      ∃ r, Main.BoundedSAT independent_vars multisample maxSolutions minSolutions solver
          assumptions e solutionMap = some r ∧ r.ret = l_False ∧
        r.solutionMap = solutionMap) ∧
    (∀ r, Main.BoundedSAT independent_vars multisample maxSolutions minSolutions solver
        assumptions e solutionMap = some r →
      (r.ret = l_True →
        (r.solutionMap.map Prod.snd).sum =
          (solutionMap.map Prod.snd).sum + Main.SolutionsToReturn multisample minSolutions) ∧
      (r.ret = l_False → r.solutionMap = solutionMap)) ∧
    Main.SolutionsToReturn false minSolutions = 1 ∧
    Main.SolutionsToReturn true minSolutions = minSolutions := by
  rw [Main.BoundedSAT.exit_locals]
  have hin : ((Main.BoundedSAT.enumerate independent_vars maxSolutions solver
        assumptions).current_nr_of_solutions < maxSolutions ∧
      (Main.BoundedSAT.enumerate independent_vars maxSolutions solver
        assumptions).current_nr_of_solutions > minSolutions) →
      Main.SolutionsToReturn multisample minSolutions ≤
        (Main.BoundedSAT.enumerate independent_vars maxSolutions solver
          assumptions).modelsSet.length →
      ∃ r, Main.BoundedSAT independent_vars multisample maxSolutions minSolutions solver
          assumptions e solutionMap = some r ∧ r.ret = l_True ∧
        (r.solutionMap.map Prod.snd).sum =
          (solutionMap.map Prod.snd).sum + Main.SolutionsToReturn multisample minSolutions := by
    intro hband henough
    obtain ⟨m1, e1, hm1, hret⟩ := Main.BoundedSAT_inRange independent_vars multisample
      maxSolutions minSolutions solver assumptions e solutionMap hband henough
    exact ⟨_, hret, rfl, (Main.BoundedSAT.emit_sum _ _ _ _ _ _ _ hkeys hfit hm1).2⟩
  refine ⟨hin, ?_, ?_, rfl, rfl⟩
  · intro hband
    exact ⟨_, Main.BoundedSAT_outOfRange independent_vars multisample maxSolutions minSolutions
      solver assumptions e solutionMap hband, rfl, rfl⟩
  · intro r hr
    by_cases hband : (Main.BoundedSAT.enumerate independent_vars maxSolutions solver
        assumptions).current_nr_of_solutions < maxSolutions ∧
      (Main.BoundedSAT.enumerate independent_vars maxSolutions solver
        assumptions).current_nr_of_solutions > minSolutions
    · by_cases henough : Main.SolutionsToReturn multisample minSolutions ≤
          (Main.BoundedSAT.enumerate independent_vars maxSolutions solver
            assumptions).modelsSet.length
      · obtain ⟨r1, hr1, hret, hsum⟩ := hin hband henough
        rw [hr1] at hr
        injection hr with hr
        rw [← hr]
        exact ⟨fun _ => hsum, fun h => by rw [hret] at h; exact lbool.noConfusion h⟩
      · rw [Main.BoundedSAT_throws independent_vars multisample maxSolutions minSolutions
          solver assumptions e solutionMap hband (by omega)] at hr
        exact Option.noConfusion hr
    · rw [Main.BoundedSAT_outOfRange independent_vars multisample maxSolutions minSolutions
        solver assumptions e solutionMap hband] at hr
      injection hr with hr
      rw [← hr]
      exact ⟨fun h => lbool.noConfusion h, fun _ => rfl⟩

/-- C15 on a solver with exactly four models, the band (2, 10) and multisample on: the call
counter 5 is in the band, four models are saved, the call returns `l_True` and the sum of the
counts has grown from 0 to 2. -/
theorem C15_samples_per_successful_attempt_witness :
    (([] : SolutionMap).map Prod.fst).Nodup ∧
    (([] : SolutionMap).map Prod.snd).sum + Main.SolutionsToReturn true 2 < 2 ^ 32 ∧
    (Main.BoundedSAT.exit [0, 1] true 10 2 (solverWith 2 fourModels) [] (constEngine 0)
      []).2.current_nr_of_solutions = 5 ∧
    (Main.BoundedSAT.exit [0, 1] true 10 2 (solverWith 2 fourModels) [] (constEngine 0)
      []).2.modelsSet.length = 4 ∧
    ∃ r, Main.BoundedSAT [0, 1] true 10 2 (solverWith 2 fourModels) [] (constEngine 0) [] =
        some r ∧ r.ret = l_True ∧
      (r.solutionMap.map Prod.snd).sum =
        (([] : SolutionMap).map Prod.snd).sum + Main.SolutionsToReturn true 2 :=
  ⟨by decide, by decide, by decide, by decide,
    (C15_samples_per_successful_attempt [0, 1] true 10 2 (solverWith 2 fourModels) []
      (constEngine 0) [] (by decide) (by decide)).1 (by decide) (by decide)⟩

/-- C17. The (cellSolCount, hashCount) pair that `ApproxMC` computes from the recorded
per-trial (hashCount, count) pairs is the same for any two orders of the same records. -/
theorem C17_aggregation_order_independent (rs1 rs2 : List (Int × Int)) (h : rs1.Perm rs2) :
    Main.ApproxMC.aggregate (rs1.map Prod.fst) (rs1.map Prod.snd) =
      Main.ApproxMC.aggregate (rs2.map Prod.fst) (rs2.map Prod.snd) := by
  have hmin : findMin (rs1.map Prod.fst) = findMin (rs2.map Prod.fst) :=
    findMin_perm _ _ (h.map _)
  have hlen : (rs1.map Prod.fst).length = (rs2.map Prod.fst).length := (h.map _).length_eq
  simp only [Main.ApproxMC.aggregate, hlen, hmin, Main.ApproxMC.scale_records]
  split
  · rfl
  · rw [findMedian_perm _ _ (h.map (fun r => r.2 * 2 ^ (r.1 - findMin (rs2.map Prod.fst)).toNat))]

/-- C17 on the records (0, 3), (2, 1), (1, 2) and the same records in another order. -/
theorem C17_aggregation_order_independent_witness :
    [((0 : Int), (3 : Int)), (2, 1), (1, 2)].Perm [(1, 2), (0, 3), (2, 1)] ∧
    Main.ApproxMC.aggregate ([((0 : Int), (3 : Int)), (2, 1), (1, 2)].map Prod.fst)
        ([((0 : Int), (3 : Int)), (2, 1), (1, 2)].map Prod.snd) =
      Main.ApproxMC.aggregate ([((1 : Int), (2 : Int)), (0, 3), (2, 1)].map Prod.fst)
        ([((1 : Int), (2 : Int)), (0, 3), (2, 1)].map Prod.snd) :=
  ⟨by decide, C17_aggregation_order_independent _ _ (by decide)⟩

/-- C19. On an input with at least one variable, when the deadline test never fires, whatever
the solver answers and however far the run has got, every count `ApproxMC` has stored for a
trial lies between 1 and the pivot (so no trial ended through the guard
`hashCount < nVars`), and counts and hash counts are stored in pairs. -/
theorem C19_ApproxMC_records_in_range (independent_vars : List Nat) (conf : ApproxMCConf)
    (fuel : Nat) (solver : SATSolver) (e : RandomEngine) (clock : Clock)
    (hvars : 1 ≤ solver.nVars) (hclock : ∀ k, clock.fires k = false) :
    (∀ c, c ∈ (Main.ApproxMC.trials independent_vars conf fuel conf.tApproxMC
        (Main.ApproxMC.start solver e clock)).2.numCountList →
      1 ≤ c ∧ c ≤ (conf.pivotApproxMC : Int)) ∧
    (Main.ApproxMC.trials independent_vars conf fuel conf.tApproxMC
        (Main.ApproxMC.start solver e clock)).2.numHashList.length =
      (Main.ApproxMC.trials independent_vars conf fuel conf.tApproxMC
        (Main.ApproxMC.start solver e clock)).2.numCountList.length :=
  Main.ApproxMC.trials_in_range independent_vars conf fuel conf.tApproxMC
    (Main.ApproxMC.start solver e clock) hvars hclock
    (fun c hc => absurd hc (List.not_mem_nil c)) rfl

/-- C19 on a one-variable input with two models, pivot 5 and two trials: the stored counts
are 3 and 1. -/
theorem C19_ApproxMC_records_in_range_witness :
    1 ≤ (solverWith 1 twoModels).nVars ∧ (∀ k, quietClock.fires k = false) ∧
    (Main.ApproxMC.trials [0] ⟨2, 5⟩ 3 2
        (Main.ApproxMC.start (solverWith 1 twoModels) (constEngine 0) quietClock)).2.numCountList
      = [3, 1] ∧
    ∀ c, c ∈ (Main.ApproxMC.trials [0] ⟨2, 5⟩ 3 2
        (Main.ApproxMC.start (solverWith 1 twoModels) (constEngine 0) quietClock)).2.numCountList →
      1 ≤ c ∧ c ≤ ((5 : Nat) : Int) :=
  ⟨by decide, fun _ => rfl, by decide,
    (C19_ApproxMC_records_in_range [0] ⟨2, 5⟩ 3 (solverWith 1 twoModels) (constEngine 0)
      quietClock (by decide) (fun _ => rfl)).1⟩

/-- C20. Whatever the solver answers (timeouts, retries, also at `hashCount = 0`, and the
advance after the third failure included) and however far the run has got, at every call of
`BoundedSATCount` inside `ApproxMC` made while the number of variables fits 32 bits, the
assumption list holds exactly `hashCount` literals, and they are pairwise distinct negated
literals of activation variables, each the first variable of an XOR the solver holds. -/
theorem C20_ApproxMC_hash_bank (independent_vars : List Nat) (conf : ApproxMCConf)
    (fuel : Nat) (solver : SATSolver) (e : RandomEngine) (clock : Clock) :
    ∀ c, c ∈ (Main.ApproxMC.trials independent_vars conf fuel conf.tApproxMC
        (Main.ApproxMC.start solver e clock)).2.calls →
      c.solver.nVars < 2 ^ 32 →
      c.assumptions.length = c.hashCount ∧ hashBank c.assumptions c.solver :=
  Main.ApproxMC.trials_calls independent_vars conf fuel conf.tApproxMC
    (Main.ApproxMC.start solver e clock) rfl (fun c hc => absurd hc (List.not_mem_nil c))

/-- C20 on a solver that runs out of time at every call: the fourth call of
`BoundedSATCount`, made after two retries at `hashCount = 0` and the advance, has
`hashCount = 1` and one assumption. -/
theorem C20_ApproxMC_hash_bank_witness :
    ∃ c, c ∈ timeoutRun.calls ∧ c.solver.nVars < 2 ^ 32 ∧ c.hashCount = 1 ∧
      c.assumptions.length = c.hashCount ∧ hashBank c.assumptions c.solver :=
  ⟨timeoutRun.calls.get ⟨3, by decide⟩, List.get_mem _ _ _, by decide, by decide,
    C20_ApproxMC_hash_bank [0] ⟨1, 5⟩ 4 (solverWith 1 (fun _ => indetAnswer)) (constEngine 0)
      quietClock _ (List.get_mem _ _ _) (by decide)⟩

/-- C18. With `S` the independent set after loading the input: when
`startIteration > |S|`, `UniSolve` returns -1 and leaves every solver as loading left it (no
`ApproxMC`, no `UniGen`, no `solve` call, no sampling call); when `startIteration ≤ |S|`, no
returning run of `UniSolve` returns -1. -/
theorem C18_configuration_error (conf : UniGenConf) (inv : Invocation) (fuel : Nat)
    (heap : Nat → SATSolver) :
    (conf.startIteration >
        (Main.parseInAllFiles ⟨heap, 0, []⟩ 0 inv.filesToRead inv.fileNamePresent
          inv.standardInput).independent_vars.length →
      Main.UniSolve conf inv fuel heap =
        Outcome.returned
          { value := -1,
            heap := (Main.parseInAllFiles ⟨heap, 0, []⟩ 0 inv.filesToRead inv.fileNamePresent
              inv.standardInput).heap,
            independent_vars := (Main.parseInAllFiles ⟨heap, 0, []⟩ 0 inv.filesToRead
              inv.fileNamePresent inv.standardInput).independent_vars,
            globalSolutionMap := [], samplingCalls := 0, requests := [] }) ∧
    (conf.startIteration ≤
        (Main.parseInAllFiles ⟨heap, 0, []⟩ 0 inv.filesToRead inv.fileNamePresent
          inv.standardInput).independent_vars.length →
      ∀ r, Main.UniSolve conf inv fuel heap = Outcome.returned r → r.value ≠ -1) := by
  constructor
  · intro hgt
    unfold Main.UniSolve
    simp only [if_pos hgt]
  · intro hle r hr
    unfold Main.UniSolve at hr
    simp only [if_neg (Nat.not_lt.mpr hle)] at hr
    split at hr
    · split at hr
      · exact absurd hr (by simp)
      · split at hr
        · injection hr with hr
          rw [← hr]
          exact (by decide : (0 : Int) ≠ -1)
        · split at hr
          · injection hr with hr
            rw [← hr]
            exact (by decide : (0 : Int) ≠ -1)
          · rw [Main.UniSolve.sample_value _ _ _ _ _ r hr]
            split
            · exact (by decide : (0 : Int) ≠ -1)
            · exact (by decide : (10 : Int) ≠ -1)
    · rw [Main.UniSolve.sample_value _ _ _ _ _ r hr]
      split
      · exact (by decide : (0 : Int) ≠ -1)
      · exact (by decide : (10 : Int) ≠ -1)

/-- C18 on a two-variable input: with start iteration 3 the driver returns -1 and the solvers
are as loading left them; with start iteration 1 it returns, and the value is not -1 (it is
10). -/
theorem C18_configuration_error_witness :
    ((oneSampleConf 3).startIteration >
        (Main.parseInAllFiles ⟨fourModelHeap, 0, []⟩ 0 twoVarInvocation.filesToRead
          twoVarInvocation.fileNamePresent twoVarInvocation.standardInput).independent_vars.length ∧
      (Main.UniSolve (oneSampleConf 3) twoVarInvocation 5 fourModelHeap).value = some (-1)) ∧
    ((oneSampleConf 1).startIteration ≤
        (Main.parseInAllFiles ⟨fourModelHeap, 0, []⟩ 0 twoVarInvocation.filesToRead
          twoVarInvocation.fileNamePresent twoVarInvocation.standardInput).independent_vars.length ∧
      (Main.UniSolve (oneSampleConf 1) twoVarInvocation 5 fourModelHeap).value = some 10 ∧
      ∀ r, Main.UniSolve (oneSampleConf 1) twoVarInvocation 5 fourModelHeap =
        Outcome.returned r → r.value ≠ -1) :=
  ⟨⟨by decide, by
      rw [(C18_configuration_error (oneSampleConf 3) twoVarInvocation 5 fourModelHeap).1
        (by decide)]
      rfl⟩,
    ⟨by decide, by decide,
      (C18_configuration_error (oneSampleConf 1) twoVarInvocation 5 fourModelHeap).2
        (by decide)⟩⟩

/-- C25 (the claim fails when the size does not fit 32 bits). With 65535 independent
variables and 65536 hashes the size `(|S| + 1) * k` is `2 ^ 32`, which `GenerateRandomBits`
receives as 0: the string is empty, and the read `randomBits[(|S| + 1) * 0 + 1]` that
`AddHash` makes for its first hash is outside the string, so the call has no defined
behaviour (`AddHash.checked` is `none`) and the postcondition is not met. -/
theorem C25_AddHash_reads_outside_the_bits :
    ((List.replicate 65535 0).length + 1) * 65536 = 2 ^ 32 ∧
    (Main.GenerateRandomBits ""
      ((((List.replicate 65535 0).length + 1) * 65536) % 2 ^ 32) (constEngine 0)).1.length = 0 ∧
    ¬ (((List.replicate 65535 0).length + 1) * 0 + 1 ≤
      (Main.GenerateRandomBits ""
        ((((List.replicate 65535 0).length + 1) * 65536) % 2 ^ 32) (constEngine 0)).1.length) ∧
    Main.AddHash.readsDefined (List.replicate 65535 0) 65536 (constEngine 0) = false ∧
    (Main.AddHash.checked (List.replicate 65535 0) 65536 (solverWith 1 (fun _ => unsatAnswer))
      [] (constEngine 0)).isNone = true := by
  have hsize : (((List.replicate 65535 0).length + 1) * 65536) % 2 ^ 32 = 0 := by
    rw [List.length_replicate]
    decide
  have hlen : (Main.GenerateRandomBits ""
      ((((List.replicate 65535 0).length + 1) * 65536) % 2 ^ 32) (constEngine 0)).1.length =
      0 := by
    rw [hsize]
    rfl
  have hreads : Main.AddHash.readsDefined (List.replicate 65535 0) 65536 (constEngine 0) =
      false :=
    Main.AddHash.readsDefined_empty _ _ _ (by decide)
      (by rw [List.length_replicate]; decide) hlen
  refine ⟨?_, hlen, ?_, hreads, ?_⟩
  · rw [List.length_replicate]
    decide
  · rw [hlen]
    omega
  · unfold Main.AddHash.checked
    rw [hreads]
    rfl

/-- C25, amended. When `(|S| + 1) * k + 31 ≤ 2 ^ 32` (the size fits its 32-bit parameter and
the loop counter of `GenerateRandomBits` does not wrap), every read that `AddHash(k)` makes
of the generated string is inside it (`AddHash.checked` gives the value of `AddHash`), and the
call keeps the entries of the assumption list and appends exactly `k` literals, the `i`-th
being the negated literal of the variable `nVars + i` (`nVars` read before the call); these
`k` variables are pairwise distinct; none is a member of the independent set when every index
of the set is below `nVars`; the call submits exactly `k` XORs, the `i`-th headed by the
`i`-th of these variables, so each variable heads exactly one of them, and when every index
of the set is below `nVars` it occurs in no other. -/
theorem C25_AddHash_postcondition (independent_vars : List Nat) (k : Nat) (solver : SATSolver)
    (assumptions : List Lit) (e : RandomEngine)
    (hsize : (independent_vars.length + 1) * k + 31 ≤ 2 ^ 32) :
    Main.AddHash.readsDefined independent_vars k e = true ∧
    Main.AddHash.checked independent_vars k solver assumptions e =
      some (Main.AddHash independent_vars k solver assumptions e) ∧
    (Main.AddHash independent_vars k solver assumptions e).2.1 =
        assumptions ++ (List.range k).map (fun i => Lit.mk (solver.nVars + i) true) ∧
    ((List.range k).map (fun i => solver.nVars + i)).Nodup ∧
    ((∀ v, v ∈ independent_vars → v < solver.nVars) →
      ∀ i, i < k → solver.nVars + i ∉ independent_vars) ∧
    (∃ xs : List (List Nat × Bool),
      (Main.AddHash independent_vars k solver assumptions e).1.xors = solver.xors ++ xs ∧
      xs.length = k ∧
      xs.map (fun x => x.1.head?) = (List.range k).map (fun i => some (solver.nVars + i)) ∧
      ((∀ v, v ∈ independent_vars → v < solver.nVars) →
        ∀ (i j : Nat) (hj : j < xs.length), i < k →
          solver.nVars + i ∈ (xs.get ⟨j, hj⟩).1 → i = j)) := by
  refine ⟨Main.AddHash.readsDefined_fits independent_vars k e hsize, ?_,
    Main.AddHash_assumptions _ _ _ _ _, ?_, ?_, ?_⟩
  · unfold Main.AddHash.checked
    rw [Main.AddHash.readsDefined_fits independent_vars k e hsize]
    rfl
  · apply List.Nodup.map _ (List.nodup_range k)
    intro a b hab
    exact Nat.add_left_cancel hab
  · intro hS i _ hmem
    have := hS _ hmem
    omega
  · refine ⟨_, Main.AddHash_xors _ _ _ _ _, ?_, ?_, ?_⟩
    · simp
    · rw [List.map_map]
      apply List.map_congr_left
      intro i _
      exact Main.AddHash.vars_head _ _ _ _
    · intro hS i j hj hi hmem
      have hj2 : j < k := by simpa using hj
      simp only [List.get_eq_getElem, List.getElem_map, List.getElem_range] at hmem
      rcases Main.AddHash.vars_mem _ _ _ _ _ hmem with h | h
      · exact Nat.add_left_cancel h
      · have := hS _ h
        have hn : solver.nVars = solver.numVars := rfl
        omega

/-- C25, amended, with two independent variables and three hashes on a solver with two
variables: the reads are inside the string and the call appends the negated literals of the
variables 2, 3 and 4. -/
theorem C25_AddHash_postcondition_witness :
    ([0, 1].length + 1) * 3 + 31 ≤ 2 ^ 32 ∧
    Main.AddHash.readsDefined [0, 1] 3 (constEngine 5) = true ∧
    (Main.AddHash [0, 1] 3 (solverWith 2 (fun _ => unsatAnswer)) [] (constEngine 5)).2.1 =
      [Lit.mk 2 true, Lit.mk 3 true, Lit.mk 4 true] :=
  ⟨by decide,
    (C25_AddHash_postcondition [0, 1] 3 (solverWith 2 (fun _ => unsatAnswer)) []
      (constEngine 5) (by decide)).1,
    (C25_AddHash_postcondition [0, 1] 3 (solverWith 2 (fun _ => unsatAnswer)) []
      (constEngine 5) (by decide)).2.2.1.trans (by decide)⟩

/-- C30 (the claim fails when the size does not fit 32 bits). With 65535 independent
variables and 65536 hashes the size `(|S| + 1) * k` is `2 ^ 32`, which the `uint32_t`
parameter of `GenerateRandomBits` receives as 0: the generated string is empty, and the index
`(|S| + 1) * 0 + 0 = 0` that `AddHash` reads for its first hash is not below its length (the
read yields the terminator, not a generated bit). -/
theorem C30_size_wraps_to_zero :
    ((List.replicate 65535 0).length + 1) * 65536 = 2 ^ 32 ∧
    (Main.GenerateRandomBits ""
      ((((List.replicate 65535 0).length + 1) * 65536) % 2 ^ 32) (constEngine 0)).1.length = 0 ∧
    ¬ (((List.replicate 65535 0).length + 1) * 0 + 0 <
      (Main.GenerateRandomBits ""
        ((((List.replicate 65535 0).length + 1) * 65536) % 2 ^ 32) (constEngine 0)).1.length) ∧
    charAt (Main.GenerateRandomBits ""
      ((((List.replicate 65535 0).length + 1) * 65536) % 2 ^ 32) (constEngine 0)).1
      (((List.replicate 65535 0).length + 1) * 0 + 0) = Char.ofNat 0 := by
  have hsize : (((List.replicate 65535 0).length + 1) * 65536) % 2 ^ 32 = 0 := by
    rw [List.length_replicate]
    decide
  rw [hsize]
  refine ⟨?_, rfl, ?_, rfl⟩
  · rw [List.length_replicate]
    decide
  · intro h
    exact absurd h (Nat.not_lt_zero _)

/-- C30, amended. When `(|S| + 1) * k + 31 ≤ 2 ^ 32` (the size fits its 32-bit parameter and
the loop counter does not wrap), the string that `GenerateRandomBits` produces for `AddHash(k)`
is made of blocks `binary(x, 31)` of exactly 31 characters, and every index
`(|S| + 1) * i + j` with `i < k` and `j ≤ |S|` is smaller than its length; the character read
there is a generated bit. -/
theorem C30_AddHash_reads_generated_bits (independent_vars : List Nat) (k : Nat)
    (e : RandomEngine) (hsize : (independent_vars.length + 1) * k + 31 ≤ 2 ^ 32) :
    (∀ x, x < 2 ^ 31 → (binary x 31).length = 31) ∧
    (Main.GenerateRandomBits "" (((independent_vars.length + 1) * k) % 2 ^ 32) e).1.length =
      31 * (((independent_vars.length + 1) * k + 30) / 31) ∧
    ∀ i j, i < k → j ≤ independent_vars.length →
      (independent_vars.length + 1) * i + j <
        (Main.GenerateRandomBits "" (((independent_vars.length + 1) * k) % 2 ^ 32)
          e).1.length ∧
      (charAt (Main.GenerateRandomBits "" (((independent_vars.length + 1) * k) % 2 ^ 32) e).1
          ((independent_vars.length + 1) * i + j) = '0' ∨
        charAt (Main.GenerateRandomBits "" (((independent_vars.length + 1) * k) % 2 ^ 32) e).1
          ((independent_vars.length + 1) * i + j) = '1') := by
  have hmod : ((independent_vars.length + 1) * k) % 2 ^ 32 = (independent_vars.length + 1) * k :=
    Nat.mod_eq_of_lt (by omega)
  rw [hmod]
  have hlen := Main.GenerateRandomBits_length ((independent_vars.length + 1) * k) e hsize
  refine ⟨binary_length, hlen.1, ?_⟩
  intro i j hi hj
  have hmul : (independent_vars.length + 1) * (i + 1) ≤ (independent_vars.length + 1) * k :=
    Nat.mul_le_mul_left _ hi
  have hlt : (independent_vars.length + 1) * i + j <
      (Main.GenerateRandomBits "" ((independent_vars.length + 1) * k) e).1.length := by
    rw [Nat.mul_add, Nat.mul_one] at hmul
    omega
  refine ⟨hlt, ?_⟩
  have hbits := Main.GenerateRandomBits.loop_bits ((independent_vars.length + 1) * k)
    ((independent_vars.length + 1) * k) 0 "" e (by simp)
  apply hbits
  rw [charAt, List.getD_eq_getElem _ _ hlt]
  exact List.getElem_mem _

/-- C30, amended, with two independent variables and three hashes: the size is 9, the string
has one block of 31 characters, and the last index read, `3 * 2 + 2 = 8`, is below 31. -/
theorem C30_AddHash_reads_generated_bits_witness :
    ([0, 1].length + 1) * 3 + 31 ≤ 2 ^ 32 ∧
    (Main.GenerateRandomBits "" ((([0, 1].length + 1) * 3) % 2 ^ 32) (constEngine 5)).1.length =
      31 ∧
    ([0, 1].length + 1) * 2 + 2 <
      (Main.GenerateRandomBits "" ((([0, 1].length + 1) * 3) % 2 ^ 32) (constEngine 5)).1.length :=
  ⟨by decide,
    (C30_AddHash_reads_generated_bits [0, 1] 3 (constEngine 5) (by decide)).2.1,
    ((C30_AddHash_reads_generated_bits [0, 1] 3 (constEngine 5) (by decide)).2.2 2 2
      (by decide) (by decide)).1⟩

/-- C26 (the claim fails when a scaled count is not an `int` value). For the records (0, 1)
and (31, 1), `minHash` is 0 and the count the claim prescribes for the second trial is
`1 * 2 ^ 31 = 2147483648`, one more than the largest `int`: the scaling loop cannot store it
in the `int` entry of `numCountList`, and the loop has no defined result
(`ApproxMC.scaleChecked` is `none`). -/
theorem C26_scaled_count_exceeds_int :
    findMin ([((0 : Int), (1 : Int)), (31, 1)].map Prod.fst) = 0 ∧
    (1 : Int) * 2 ^ ((31 : Int) - findMin ([((0 : Int), (1 : Int)), (31, 1)].map Prod.fst)).toNat =
      2147483648 ∧
    ¬ ((1 : Int) * 2 ^ ((31 : Int) - findMin ([((0 : Int), (1 : Int)), (31, 1)].map
      Prod.fst)).toNat ≤ 2147483647) ∧
    Main.ApproxMC.scaleFits (findMin ([((0 : Int), (1 : Int)), (31, 1)].map Prod.fst))
      ([((0 : Int), (1 : Int)), (31, 1)].map Prod.fst)
      ([((0 : Int), (1 : Int)), (31, 1)].map Prod.snd) = false ∧
    Main.ApproxMC.scaleChecked (findMin ([((0 : Int), (1 : Int)), (31, 1)].map Prod.fst))
      ([((0 : Int), (1 : Int)), (31, 1)].map Prod.fst)
      ([((0 : Int), (1 : Int)), (31, 1)].map Prod.snd) = none := by
  decide

/-- C26, amended. For every non-empty list of (hashCount, count) records with `int` hash
counts on which the arithmetic of the scaling loop is defined (every exponent
`hashCount - minHash` at most 1023 and every product `count * 2 ^ (hashCount - minHash)` an
`int` value), the hashCount that `ApproxMC` returns is the smallest recorded hashCount
`minHash`; the list entering the median holds, for each record,
`count * 2 ^ (hashCount - minHash)`, an `int` value; every exponent `hashCount - minHash` is a
non-negative integer, and at least one is 0. -/
theorem C26_ApproxMC_scaling (rs : List (Int × Int)) (hne : rs ≠ [])
    (hint : ∀ r, r ∈ rs → r.1 ≤ 2147483647)
    (hfits : Main.ApproxMC.scaleFits (findMin (rs.map Prod.fst)) (rs.map Prod.fst)
      (rs.map Prod.snd) = true) :
    (Main.ApproxMC.aggregate (rs.map Prod.fst) (rs.map Prod.snd)).hashCount =
      findMin (rs.map Prod.fst) ∧
    (∀ r, r ∈ rs → findMin (rs.map Prod.fst) ≤ r.1) ∧
    Main.ApproxMC.scaleChecked (findMin (rs.map Prod.fst)) (rs.map Prod.fst)
        (rs.map Prod.snd) =
      some (rs.map (fun r => r.2 * 2 ^ (r.1 - findMin (rs.map Prod.fst)).toNat)) ∧
    Main.ApproxMC.scale (findMin (rs.map Prod.fst)) (rs.map Prod.fst) (rs.map Prod.snd) =
      rs.map (fun r => r.2 * 2 ^ (r.1 - findMin (rs.map Prod.fst)).toNat) ∧
    (∀ r, r ∈ rs →
      -2147483648 ≤ r.2 * 2 ^ (r.1 - findMin (rs.map Prod.fst)).toNat ∧
      r.2 * 2 ^ (r.1 - findMin (rs.map Prod.fst)).toNat ≤ 2147483647) ∧
    (Main.ApproxMC.aggregate (rs.map Prod.fst) (rs.map Prod.snd)).cellSolCount =
      findMedian (rs.map (fun r => r.2 * 2 ^ (r.1 - findMin (rs.map Prod.fst)).toNat)) ∧
    (∀ r, r ∈ rs → 0 ≤ r.1 - findMin (rs.map Prod.fst) ∧
      (((r.1 - findMin (rs.map Prod.fst)).toNat : Nat) : Int) =
        r.1 - findMin (rs.map Prod.fst)) ∧
    (∃ r, r ∈ rs ∧ r.1 - findMin (rs.map Prod.fst) = 0) := by
  have hne2 : rs.map Prod.fst ≠ [] := by
    intro h
    exact hne (List.map_eq_nil_iff.mp h)
  have hint2 : ∀ x, x ∈ rs.map Prod.fst → x ≤ 2147483647 := by
    intro x hx
    obtain ⟨r, hr, hrx⟩ := List.mem_map.mp hx
    rw [← hrx]
    exact hint r hr
  obtain ⟨hmem, hmin⟩ := findMin_spec _ hne2 hint2
  have hlen : ¬ (rs.map Prod.fst).length = 0 := by
    intro h
    exact hne2 (List.length_eq_zero.mp h)
  have hle : ∀ r, r ∈ rs → findMin (rs.map Prod.fst) ≤ r.1 :=
    fun r hr => hmin r.1 (List.mem_map_of_mem _ hr)
  have hrec := (Main.ApproxMC.scaleFits_records _ rs).mp hfits
  refine ⟨?_, hle, ?_, Main.ApproxMC.scale_records _ _, ?_, ?_, ?_, ?_⟩
  · simp only [Main.ApproxMC.aggregate, if_neg hlen]
  · unfold Main.ApproxMC.scaleChecked
    rw [hfits, Main.ApproxMC.scale_records]
    rfl
  · intro r hr
    exact ⟨(hrec r hr).2.2.1, (hrec r hr).2.2.2⟩
  · simp only [Main.ApproxMC.aggregate, if_neg hlen, Main.ApproxMC.scale_records]
  · intro r hr
    have := hle r hr
    constructor
    · omega
    · exact Int.toNat_of_nonneg (by omega)
  · obtain ⟨r, hr, hrx⟩ := List.mem_map.mp hmem
    exact ⟨r, hr, by omega⟩

/-- C26, amended, on the records (3, 5), (1, 7), (2, 6): the arithmetic is defined,
`minHash = 1`, and the counts entering the median are 5 * 4, 7 * 1 and 6 * 2. -/
theorem C26_ApproxMC_scaling_witness :
    Main.ApproxMC.scaleFits (findMin ([((3 : Int), (5 : Int)), (1, 7), (2, 6)].map Prod.fst))
      ([((3 : Int), (5 : Int)), (1, 7), (2, 6)].map Prod.fst)
      ([((3 : Int), (5 : Int)), (1, 7), (2, 6)].map Prod.snd) = true ∧
    findMin ([((3 : Int), (5 : Int)), (1, 7), (2, 6)].map Prod.fst) = 1 ∧
    (Main.ApproxMC.aggregate ([((3 : Int), (5 : Int)), (1, 7), (2, 6)].map Prod.fst)
      ([((3 : Int), (5 : Int)), (1, 7), (2, 6)].map Prod.snd)).hashCount = 1 ∧
    Main.ApproxMC.scale (findMin ([((3 : Int), (5 : Int)), (1, 7), (2, 6)].map Prod.fst))
      ([((3 : Int), (5 : Int)), (1, 7), (2, 6)].map Prod.fst)
      ([((3 : Int), (5 : Int)), (1, 7), (2, 6)].map Prod.snd) = [20, 7, 12] :=
  ⟨by decide, by decide,
    (C26_ApproxMC_scaling [(3, 5), (1, 7), (2, 6)] (by decide) (by decide) (by decide)).1.trans
      (by decide),
    (C26_ApproxMC_scaling [(3, 5), (1, 7), (2, 6)] (by decide) (by decide)
      (by decide)).2.2.2.1.trans (by decide)⟩

/-- C28 (the code departs from the claim). With `minSolutions = 0 < maxSolutions = 5`,
`multisample` off and a solver that answers UNSAT at once, the loop of `BoundedSAT` ends with
the call counter at 1 and no saved model; the band test `1 < 5 && 1 > 0` holds, one sample is
asked for, and `modelIndices.at(0)` throws: the call leaves by `std::out_of_range`. -/
theorem C28_sampling_reads_past_saved_models :
    (0 : Nat) < 5 ∧
    (Main.BoundedSAT.enumerate [0] 5 (solverWith 1 (fun _ => unsatAnswer))
      []).current_nr_of_solutions = 1 ∧
    (Main.BoundedSAT.enumerate [0] 5 (solverWith 1 (fun _ => unsatAnswer))
      []).modelsSet.length = 0 ∧
    Main.SolutionsToReturn false 0 = 1 ∧
    (Main.BoundedSAT [0] false 5 0 (solverWith 1 (fun _ => unsatAnswer)) [] (constEngine 0)
      []).isNone = true := by
  decide

/-- C29 (the code departs from the claim). With `multisample` on and `loThresh = 0` the
driver divides `callsNeeded` by `samplesPerCall = 0`; with the start iteration computed from
the `ApproxMC` count (5, 0) as 0 and the batch size left to the driver, it divides `nVars` by
`startIteration * 14 = 0`. Both runs end abnormally. -/
theorem C29_driver_divides_by_zero :
    (Main.SolutionsToReturn multisampleZeroConf.multisample multisampleZeroConf.loThresh = 0 ∧
      (Main.UniSolve multisampleZeroConf twoVarInvocation 5 fourModelHeap).crashes = true) ∧
    ((Main.ApproxMC [0, 1] autoStartConf.approxMC 5
        ((Main.parseInAllFiles ⟨fourModelHeap, 0, []⟩ 0 twoVarInvocation.filesToRead
          twoVarInvocation.fileNamePresent twoVarInvocation.standardInput).heap 0)
        twoVarInvocation.countingEngine twoVarInvocation.clock).map (fun r => r.1) =
        some ⟨5, 0⟩ ∧
      (autoStartConf.startIterationOf ⟨5, 0⟩ * 14) % 2 ^ 32 = 0 ∧
      (Main.UniSolve autoStartConf twoVarInvocation 5 fourModelHeap).crashes = true) := by
  decide

/-- C27. For every `callsNeeded` and every `numCallsInOneLoop ≥ 1`, the numbers
`numCallLoops = callsNeeded / numCallsInOneLoop` and
`remainingCalls = callsNeeded % numCallsInOneLoop` satisfy
`numCallLoops * numCallsInOneLoop + remainingCalls = callsNeeded` and
`remainingCalls < numCallsInOneLoop`; and when the deadline never fires, the `samples`
arguments of the sampling calls of a returning run are `remainingCalls` (when it is not 0)
followed by `numCallLoops` times `numCallsInOneLoop`: their sum is `callsNeeded`. -/
theorem C27_batching_partition (conf : UniGenConf) (inv : Invocation)
    (fuel callsNeeded numCallsInOneLoop : Nat) (b b1 : Main.BatchState)
    (hn : 1 ≤ numCallsInOneLoop) (hquiet : ∀ k, b.clock.fires k = false)
    (h : Main.UniSolve.batches conf inv fuel callsNeeded numCallsInOneLoop b =
      Outcome.returned b1) :
    (callsNeeded / numCallsInOneLoop) * numCallsInOneLoop + callsNeeded % numCallsInOneLoop =
      callsNeeded ∧
    callsNeeded % numCallsInOneLoop < numCallsInOneLoop ∧
    b1.requests = b.requests ++
      ((if callsNeeded % numCallsInOneLoop > 0 then [callsNeeded % numCallsInOneLoop] else []) ++
        List.replicate (callsNeeded / numCallsInOneLoop) numCallsInOneLoop) ∧
    b1.requests.sum = b.requests.sum + callsNeeded := by
  have hreq := Main.UniSolve.batches_requests conf inv fuel callsNeeded numCallsInOneLoop b b1
    hquiet h
  have hdiv : (callsNeeded / numCallsInOneLoop) * numCallsInOneLoop +
      callsNeeded % numCallsInOneLoop = callsNeeded := Nat.div_add_mod' _ _
  refine ⟨hdiv, Nat.mod_lt _ hn, hreq, ?_⟩
  rw [hreq, List.sum_append, List.sum_append, List.sum_replicate, smul_eq_mul]
  by_cases hr : callsNeeded % numCallsInOneLoop > 0
  · rw [if_pos hr, List.sum_singleton]
    omega
  · rw [if_neg hr, List.sum_nil]
    omega

/-- C27 on the two-variable input with five calls needed and batches of two: the run returns,
and the calls ask for 1, 2 and 2 samples. -/
theorem C27_batching_partition_witness :
    ∃ b1, Main.UniSolve.batches fiveSampleConf twoVarInvocation 5 5 2 firstBatch =
        Outcome.returned b1 ∧
      (5 / 2) * 2 + 5 % 2 = 5 ∧ b1.requests = [1, 2, 2] ∧ b1.requests.sum = 5 := by
  have hsome : (Main.UniSolve.batches fiveSampleConf twoVarInvocation 5 5 2
      firstBatch).get?.isSome = true := by decide
  obtain ⟨b1, hb1⟩ := Option.isSome_iff_exists.mp hsome
  have hret := Outcome.get?_eq_some _ _ hb1
  have hc := C27_batching_partition fiveSampleConf twoVarInvocation 5 5 2 firstBatch b1
    (by decide) (fun _ => rfl) hret
  exact ⟨b1, hret, hc.1, hc.2.2.1, by rw [hc.2.2.2]; rfl⟩

/-- C24. Whenever a call `UniGen(samples, ...)` returns without the deadline test having
fired, exactly `samples` of its calls of `BoundedSAT` returned `l_True`, that is, exactly
`samples` of its sample attempts ended in range: an attempt that ends otherwise gives back
its sample slot and is repeated. -/
theorem C24_failed_attempts_keep_slot (independent_vars : List Nat) (conf : UniGenConf)
    (fuel samples : Nat) (solver : SATSolver) (sampleCounter : Nat) (e : RandomEngine)
    (solutionMap : SolutionMap) (lastSuccessfulHashOffset : Nat) (clock : Clock)
    (st : Main.GenState) (hs : samples < 2 ^ 32)
    (h : Main.UniGen independent_vars conf fuel samples solver sampleCounter e solutionMap
      lastSuccessfulHashOffset clock = some (true, st))
    (hquiet : st.elapsedOver = false ∨ samples = 0) :
    st.calls.countP (fun c => decide (c.ret = l_True)) = samples := by
  refine Main.UniGen.attempts_inRange_count independent_vars conf samples hs fuel 0 _ st
    (Nat.zero_le _) ?_ h hquiet
  rfl

/-- C24 on a run asked for two samples whose first attempt fails at all three probes: the run
makes five calls of `BoundedSAT`, and two of them return `l_True`. -/
theorem C24_failed_attempts_keep_slot_witness :
    ∃ st, Main.UniGen [0, 1] (oneSampleConf 1) 5 2 (solverWith 2 lateModels) 0 (constEngine 0)
        [] 0 quietClock = some (true, st) ∧
      st.elapsedOver = false ∧ st.calls.length = 5 ∧
      st.calls.countP (fun c => decide (c.ret = l_True)) = 2 := by
  have hrun : (Main.UniGen [0, 1] (oneSampleConf 1) 5 2 (solverWith 2 lateModels) 0
      (constEngine 0) [] 0 quietClock).map
        (fun p => (p.1, p.2.elapsedOver, p.2.calls.length)) = some (true, false, 5) := by
    decide
  obtain ⟨p, hp, hpe⟩ := Option.map_eq_some'.mp hrun
  obtain ⟨b, st⟩ := p
  have hb : b = true := congrArg Prod.fst hpe
  have hover : st.elapsedOver = false := congrArg (fun x => x.2.1) hpe
  have hlen : st.calls.length = 5 := congrArg (fun x => x.2.2) hpe
  rw [hb] at hp
  exact ⟨st, hp, hover, hlen,
    C24_failed_attempts_keep_slot [0, 1] (oneSampleConf 1) 5 2 (solverWith 2 lateModels) 0
      (constEngine 0) [] 0 quietClock st (by decide) hp (Or.inl hover)⟩

/-- C23. In a sample attempt of `UniGen` that starts with three offsets and a last successful
offset of at most 2 (as every attempt of a run does), the offsets of the calls of
`BoundedSAT` are a prefix of the probe schedule: `[0, 1, 2]` for the last successful offset
0, `[2, 1, 0]` for 2, and for 1 `[1, 0, 2]` if the first call found fewer solutions than
`loThresh` and `[1, 2, 0]` if not (the whole schedule when the deadline does not fire and no
call returns `l_True`); only the last call can return `l_True`; if it does, its offset becomes
the last successful offset, which is otherwise unchanged and always at most 2. -/
theorem C23_probe_schedule (independent_vars : List Nat) (conf : UniGenConf)
    (st st1 : Main.GenState) (hlen : st.hashOffsets.length = 3)
    (hlast : st.lastSuccessfulHashOffset ≤ 2)
    (h : Main.UniGen.probes independent_vars conf 9 0 (Main.UniGen.beginAttempt st) =
      some st1) :
    ∃ cs, st1.calls = st.calls ++ cs ∧
      (cs.map (fun c => c.currentHashOffset) <+:
        probeSchedule st.lastSuccessfulHashOffset (firstBelow conf cs)) ∧
      (st1.elapsedOver = false → (∀ c, c ∈ cs → c.ret ≠ l_True) →
        cs.map (fun c => c.currentHashOffset) =
          probeSchedule st.lastSuccessfulHashOffset (firstBelow conf cs)) ∧
      (∀ c, c ∈ cs.dropLast → c.ret = l_False) ∧
      (∀ c, cs.getLast? = some c → c.ret = l_True →
        st1.lastSuccessfulHashOffset = c.currentHashOffset) ∧
      ((∀ c, c ∈ cs → c.ret ≠ l_True) →
        st1.lastSuccessfulHashOffset = st.lastSuccessfulHashOffset) ∧
      st1.lastSuccessfulHashOffset ≤ 2 :=
  Main.UniGen.probes_schedule independent_vars conf st st1 hlen hlast h

/-- C23 on an attempt that starts from the last successful offset 1 and whose three calls all
find no solution (fewer than `loThresh = 1`): the offsets probed are 1, 0, 2, and the last
successful offset stays 1. -/
theorem C23_probe_schedule_witness :
    attemptStart.hashOffsets.length = 3 ∧ attemptStart.lastSuccessfulHashOffset ≤ 2 ∧
    ∃ st1, Main.UniGen.probes [0, 1] (oneSampleConf 1) 9 0
        (Main.UniGen.beginAttempt attemptStart) = some st1 ∧
      st1.calls.map (fun c => (c.currentHashOffset, c.solutionCount)) =
        [(1, 0), (0, 0), (2, 0)] ∧
      probeSchedule 1 true = [1, 0, 2] ∧
      ∃ cs, st1.calls = attemptStart.calls ++ cs ∧
        (cs.map (fun c => c.currentHashOffset) <+:
          probeSchedule attemptStart.lastSuccessfulHashOffset
            (firstBelow (oneSampleConf 1) cs)) ∧
        st1.lastSuccessfulHashOffset ≤ 2 := by
  have hrun : (Main.UniGen.probes [0, 1] (oneSampleConf 1) 9 0
      (Main.UniGen.beginAttempt attemptStart)).map
        (fun s => s.calls.map (fun c => (c.currentHashOffset, c.solutionCount))) =
      some [(1, 0), (0, 0), (2, 0)] := by
    decide
  obtain ⟨st1, hp, hcalls⟩ := Option.map_eq_some'.mp hrun
  obtain ⟨cs, h1, h2, _, _, _, _, h7⟩ :=
    C23_probe_schedule [0, 1] (oneSampleConf 1) attemptStart st1 (by decide) (by decide) hp
  exact ⟨by decide, by decide, st1, hp, hcalls, by decide, cs, h1, h2, h7⟩

/-- C22. Whatever the solver answers and however far the run of `ApproxMC` has got, over the
calls of `BoundedSATCount` made with a variable count that fits 32 bits: a call with a
non-positive result is followed, after fewer than two retries, by a retry at the same
`hashCount` with exactly `hashCount` hashes on variables created after that call and the
retry counter one higher, and after two retries by a call at `hashCount + 1` with that many
new hashes and the retry counter 0; the retry counter is 0, 1 or 2 at every call and at the
end; and three calls in a row at one `hashCount` with a non-positive result have the retry
counters 0, 1 and 2 and are followed by a call at `hashCount + 1`, so no fourth call in a row
is made at that `hashCount`. -/
theorem C22_ApproxMC_retry_bound (independent_vars : List Nat) (conf : ApproxMCConf)
    (fuel : Nat) (solver : SATSolver) (e : RandomEngine) (clock : Clock) :
    List.Chain' retryStep (Main.ApproxMC.trials independent_vars conf fuel conf.tApproxMC
        (Main.ApproxMC.start solver e clock)).2.calls ∧
    (∀ c, c ∈ (Main.ApproxMC.trials independent_vars conf fuel conf.tApproxMC
        (Main.ApproxMC.start solver e clock)).2.calls → c.repeatTry ≤ 2) ∧
    (Main.ApproxMC.trials independent_vars conf fuel conf.tApproxMC
        (Main.ApproxMC.start solver e clock)).2.repeatTry ≤ 2 ∧
    ∀ (l1 l2 : List Main.CountCall) (c1 c2 c3 c4 : Main.CountCall),
      (Main.ApproxMC.trials independent_vars conf fuel conf.tApproxMC
        (Main.ApproxMC.start solver e clock)).2.calls = l1 ++ c1 :: c2 :: c3 :: c4 :: l2 →
      c1.solver.nVars < 2 ^ 32 → c2.solver.nVars < 2 ^ 32 → c3.solver.nVars < 2 ^ 32 →
      c1.result ≤ 0 → c2.result ≤ 0 → c3.result ≤ 0 →
      c2.hashCount = c1.hashCount → c3.hashCount = c1.hashCount →
      c1.repeatTry = 0 ∧ c2.repeatTry = 1 ∧ c3.repeatTry = 2 ∧
        c4.hashCount = c1.hashCount + 1 ∧ c4.repeatTry = 0 := by
  have h := Main.ApproxMC.trials_retry independent_vars conf fuel conf.tApproxMC
    (Main.ApproxMC.start solver e clock) List.chain'_nil
    (fun c hc => absurd hc (List.not_mem_nil c)) (Nat.zero_le 2)
    (fun c hc => Option.noConfusion hc)
  refine ⟨h.1, h.2.1, h.2.2, ?_⟩
  intro l1 l2 c1 c2 c3 c4 hsplit
  have hchain := h.1
  have hall := h.2.1
  rw [hsplit] at hchain hall
  exact retryStep_fourth l1 l2 c1 c2 c3 c4 hchain hall

/-- C22 on a solver that runs out of time at every call: the four calls of `timeoutRun` are
made at hash counts 0, 0, 0, 1 with the retry counters 0, 1, 2, 0, each with a non-positive
result, and the fourth call, made after two retries, has `hashCount = 1` and the retry counter
0. -/
theorem C22_ApproxMC_retry_bound_witness :
    timeoutRun.calls.map (fun c => (c.hashCount, c.repeatTry, decide (c.result ≤ 0))) =
      [(0, 0, true), (0, 1, true), (0, 2, true), (1, 0, true)] ∧
    (timeoutRun.calls.get ⟨0, by decide⟩).repeatTry = 0 ∧
    (timeoutRun.calls.get ⟨1, by decide⟩).repeatTry = 1 ∧
    (timeoutRun.calls.get ⟨2, by decide⟩).repeatTry = 2 ∧
    (timeoutRun.calls.get ⟨3, by decide⟩).hashCount =
      (timeoutRun.calls.get ⟨0, by decide⟩).hashCount + 1 ∧
    (timeoutRun.calls.get ⟨3, by decide⟩).repeatTry = 0 :=
  ⟨by decide,
    (C22_ApproxMC_retry_bound [0] ⟨1, 5⟩ 4 (solverWith 1 (fun _ => indetAnswer))
      (constEngine 0) quietClock).2.2.2 [] []
      (timeoutRun.calls.get ⟨0, by decide⟩) (timeoutRun.calls.get ⟨1, by decide⟩)
      (timeoutRun.calls.get ⟨2, by decide⟩) (timeoutRun.calls.get ⟨3, by decide⟩)
      (four_entries timeoutRun.calls (by decide)) (by decide) (by decide) (by decide)
      (by decide) (by decide) (by decide) (by decide) (by decide)⟩

end CMSat
